import Mathlib

/-!
# Object hierarchy (`obj/object.go`): a shallow embedding

The Go package keeps a forest of `Object` values linked by pointers
(`parent *Object`, `children []*Object`).  The embedding makes the pointer
graph explicit:

* an address is a natural number, a pointer is an `Option Nat` (`none` is `nil`);
* the heap is a total map from addresses to `Object` records;
* every method becomes a function on heaps taking the receiver's address;
* a nil-pointer dereference (a Go panic) and an exhausted recursion budget are
  both the result `none`.

Scalars (`float32` in the source) are elements of an arbitrary field `R`, so all
statements are about exact arithmetic.  The package imports
`github.com/g3n/engine/math32`, whose source is not part of the repository; the
operations it calls there are transcribed from that library below the types they
belong to, each marked `Library`.  The proofs about the update passes never unfold
`Compose` or `MultiplyMatrices`; the rotation order, the chain scenario and the round
trip through `GetInverse` do depend on the transcribed formulas.
-/

set_option autoImplicit false
set_option linter.unusedSectionVars false

namespace Obj

/-! ## math32 values -/

/-- The type `math32.Vector3`. -/
structure Vector3 (R : Type) where
  X : R
  Y : R
  Z : R
deriving DecidableEq, Repr

/-- The type `math32.Quaternion`. -/
structure Quaternion (R : Type) where
  X : R
  Y : R
  Z : R
  W : R
deriving DecidableEq, Repr

/-- The type `math32.Matrix4`, a `[16]float32` in column-major order:
field `mk` is element `k` of the array. -/
structure Matrix4 (R : Type) where
  m0 : R
  m1 : R
  m2 : R
  m3 : R
  m4 : R
  m5 : R
  m6 : R
  m7 : R
  m8 : R
  m9 : R
  m10 : R
  m11 : R
  m12 : R
  m13 : R
  m14 : R
  m15 : R
deriving DecidableEq, Repr

section Math32

variable {R : Type} [Field R]

/-- Go zero value of `math32.Vector3`. -/
def Vector3.zero : Vector3 R := ⟨0, 0, 0⟩

/-- Go zero value of `math32.Quaternion`: all four components are zero. -/
def Quaternion.zero : Quaternion R := ⟨0, 0, 0, 0⟩

/-- Go zero value of `math32.Matrix4`: sixteen zeros. -/
def Matrix4.zero : Matrix4 R := ⟨0, 0, 0, 0, 0, 0, 0, 0, 0, 0, 0, 0, 0, 0, 0, 0⟩

/-- Package variable `xAixs`. -/
def xAixs : Vector3 R := ⟨1, 0, 0⟩

/-- Package variable `yAixs`. -/
def yAixs : Vector3 R := ⟨0, 1, 0⟩

/-- Package variable `zAixs`. -/
def zAixs : Vector3 R := ⟨0, 0, 1⟩

/-- Library `Quaternion.SetFromAxisAngle`: the half angle is `angle / 2`, the vector part
is the axis scaled by its sine and the scalar part is its cosine.  The library's `Sin`
and `Cos` are the parameters `sin` and `cos`. -/
def Quaternion.SetFromAxisAngle (sin cos : R → R) (axis : Vector3 R) (angle : R) :
    Quaternion R :=
  let halfAngle := angle / 2
  let s := sin halfAngle
  ⟨axis.X * s, axis.Y * s, axis.Z * s, cos halfAngle⟩

/-- Library `Quaternion.MultiplyQuaternions(a, b)`: the receiver becomes the
Hamilton product `a * b`. -/
def Quaternion.MultiplyQuaternions (a b : Quaternion R) : Quaternion R :=
  let qax := a.X
  let qay := a.Y
  let qaz := a.Z
  let qaw := a.W
  let qbx := b.X
  let qby := b.Y
  let qbz := b.Z
  let qbw := b.W
  ⟨qax * qbw + qaw * qbx + qay * qbz - qaz * qby,
   qay * qbw + qaw * qby + qaz * qbx - qax * qbz,
   qaz * qbw + qaw * qbz + qax * qby - qay * qbx,
   qaw * qbw - qax * qbx - qay * qby - qaz * qbz⟩

/-- Library `Vector3.ApplyQuaternion`: the vector is conjugated by `q`
(`q * v * conj q`, with no normalisation of `q`). -/
def Vector3.ApplyQuaternion (v : Vector3 R) (q : Quaternion R) : Vector3 R :=
  let x := v.X
  let y := v.Y
  let z := v.Z
  let qx := q.X
  let qy := q.Y
  let qz := q.Z
  let qw := q.W
  let ix := qw * x + qy * z - qz * y
  let iy := qw * y + qz * x - qx * z
  let iz := qw * z + qx * y - qy * x
  let iw := -qx * x - qy * y - qz * z
  ⟨ix * qw + iw * -qx + iy * -qz - iz * -qy,
   iy * qw + iw * -qy + iz * -qx - ix * -qz,
   iz * qw + iw * -qz + ix * -qy - iy * -qx⟩

/-- Library `Vector3.MultiplyScalar`. -/
def Vector3.MultiplyScalar (v : Vector3 R) (s : R) : Vector3 R :=
  ⟨v.X * s, v.Y * s, v.Z * s⟩

/-- Library `Vector3.Add`: componentwise sum. -/
def Vector3.Add (v other : Vector3 R) : Vector3 R :=
  ⟨v.X + other.X, v.Y + other.Y, v.Z + other.Z⟩

/-- Library `Matrix4.MakeRotationFromQuaternion`. -/
def Matrix4.MakeRotationFromQuaternion (q : Quaternion R) : Matrix4 R :=
  let x := q.X
  let y := q.Y
  let z := q.Z
  let w := q.W
  let x2 := x + x
  let y2 := y + y
  let z2 := z + z
  let xx := x * x2
  let xy := x * y2
  let xz := x * z2
  let yy := y * y2
  let yz := y * z2
  let zz := z * z2
  let wx := w * x2
  let wy := w * y2
  let wz := w * z2
  { m0 := 1 - (yy + zz), m4 := xy - wz, m8 := xz + wy,
    m1 := xy + wz, m5 := 1 - (xx + zz), m9 := yz - wx,
    m2 := xz - wy, m6 := yz + wx, m10 := 1 - (xx + yy),
    m3 := 0, m7 := 0, m11 := 0,
    m12 := 0, m13 := 0, m14 := 0, m15 := 1 }

/-- Library `Matrix4.Scale`: the first three columns are scaled by the components of `v`. -/
def Matrix4.Scale (m : Matrix4 R) (v : Vector3 R) : Matrix4 R :=
  { m with
    m0 := m.m0 * v.X, m4 := m.m4 * v.Y, m8 := m.m8 * v.Z,
    m1 := m.m1 * v.X, m5 := m.m5 * v.Y, m9 := m.m9 * v.Z,
    m2 := m.m2 * v.X, m6 := m.m6 * v.Y, m10 := m.m10 * v.Z,
    m3 := m.m3 * v.X, m7 := m.m7 * v.Y, m11 := m.m11 * v.Z }

/-- Library `Matrix4.SetPosition`: elements 12, 13, 14 become the vector. -/
def Matrix4.SetPosition (m : Matrix4 R) (v : Vector3 R) : Matrix4 R :=
  { m with m12 := v.X, m13 := v.Y, m14 := v.Z }

/-- Library `Matrix4.Compose`: rotation from the quaternion, then scale, then position. -/
def Matrix4.Compose (position : Vector3 R) (quaternion : Quaternion R) (scale : Vector3 R) :
    Matrix4 R :=
  ((Matrix4.MakeRotationFromQuaternion quaternion).Scale scale).SetPosition position

/-- Library `Matrix4.MultiplyMatrices(a, b)`: the receiver becomes the matrix product
`a * b` (column-major storage). -/
def Matrix4.MultiplyMatrices (a b : Matrix4 R) : Matrix4 R :=
  let a11 := a.m0
  let a12 := a.m4
  let a13 := a.m8
  let a14 := a.m12
  let a21 := a.m1
  let a22 := a.m5
  let a23 := a.m9
  let a24 := a.m13
  let a31 := a.m2
  let a32 := a.m6
  let a33 := a.m10
  let a34 := a.m14
  let a41 := a.m3
  let a42 := a.m7
  let a43 := a.m11
  let a44 := a.m15
  let b11 := b.m0
  let b12 := b.m4
  let b13 := b.m8
  let b14 := b.m12
  let b21 := b.m1
  let b22 := b.m5
  let b23 := b.m9
  let b24 := b.m13
  let b31 := b.m2
  let b32 := b.m6
  let b33 := b.m10
  let b34 := b.m14
  let b41 := b.m3
  let b42 := b.m7
  let b43 := b.m11
  let b44 := b.m15
  { m0 := a11 * b11 + a12 * b21 + a13 * b31 + a14 * b41,
    m4 := a11 * b12 + a12 * b22 + a13 * b32 + a14 * b42,
    m8 := a11 * b13 + a12 * b23 + a13 * b33 + a14 * b43,
    m12 := a11 * b14 + a12 * b24 + a13 * b34 + a14 * b44,
    m1 := a21 * b11 + a22 * b21 + a23 * b31 + a24 * b41,
    m5 := a21 * b12 + a22 * b22 + a23 * b32 + a24 * b42,
    m9 := a21 * b13 + a22 * b23 + a23 * b33 + a24 * b43,
    m13 := a21 * b14 + a22 * b24 + a23 * b34 + a24 * b44,
    m2 := a31 * b11 + a32 * b21 + a33 * b31 + a34 * b41,
    m6 := a31 * b12 + a32 * b22 + a33 * b32 + a34 * b42,
    m10 := a31 * b13 + a32 * b23 + a33 * b33 + a34 * b43,
    m14 := a31 * b14 + a32 * b24 + a33 * b34 + a34 * b44,
    m3 := a41 * b11 + a42 * b21 + a43 * b31 + a44 * b41,
    m7 := a41 * b12 + a42 * b22 + a43 * b32 + a44 * b42,
    m11 := a41 * b13 + a42 * b23 + a43 * b33 + a44 * b43,
    m15 := a41 * b14 + a42 * b24 + a43 * b34 + a44 * b44 }

/-- Library `Vector3.Clone`: a new vector with the same components. -/
def Vector3.Clone (v : Vector3 R) : Vector3 R := ⟨v.X, v.Y, v.Z⟩

/-- Library `Vector3.ApplyMatrix4`: the upper three rows of the matrix applied to
`(x, y, z, 1)`; the fourth row is not used. -/
def Vector3.ApplyMatrix4 (v : Vector3 R) (m : Matrix4 R) : Vector3 R :=
  let x := v.X
  let y := v.Y
  let z := v.Z
  ⟨m.m0 * x + m.m4 * y + m.m8 * z + m.m12,
   m.m1 * x + m.m5 * y + m.m9 * z + m.m13,
   m.m2 * x + m.m6 * y + m.m10 * z + m.m14⟩

/-- Library `Matrix4.Identity`. -/
def Matrix4.Identity : Matrix4 R := ⟨1, 0, 0, 0, 0, 1, 0, 0, 0, 0, 1, 0, 0, 0, 0, 1⟩

/-- The determinant computed inside the library's `Matrix4.GetInverse`. -/
def Matrix4.det (src : Matrix4 R) : R :=
  let n11 := src.m0
  let n12 := src.m4
  let n13 := src.m8
  let n14 := src.m12
  let n21 := src.m1
  let n22 := src.m5
  let n23 := src.m9
  let n24 := src.m13
  let n31 := src.m2
  let n32 := src.m6
  let n33 := src.m10
  let n34 := src.m14
  let n41 := src.m3
  let n42 := src.m7
  let n43 := src.m11
  let n44 := src.m15
  let t11 := n23 * n34 * n42 - n24 * n33 * n42 + n24 * n32 * n43 - n22 * n34 * n43
    - n23 * n32 * n44 + n22 * n33 * n44
  let t12 := n14 * n33 * n42 - n13 * n34 * n42 - n14 * n32 * n43 + n12 * n34 * n43
    + n13 * n32 * n44 - n12 * n33 * n44
  let t13 := n13 * n24 * n42 - n14 * n23 * n42 + n14 * n22 * n43 - n12 * n24 * n43
    - n13 * n22 * n44 + n12 * n23 * n44
  let t14 := n14 * n23 * n32 - n13 * n24 * n32 - n14 * n22 * n33 + n12 * n24 * n33
    + n13 * n22 * n34 - n12 * n23 * n34
  n11 * t11 + n21 * t12 + n31 * t13 + n41 * t14

/-- Library `Matrix4.GetInverse(src)`: the receiver becomes the inverse of `src`, computed
from the cofactors and the determinant; when the determinant is zero the receiver becomes
the identity (the returned error is dropped by the callers in the package). -/
def Matrix4.GetInverse [DecidableEq R] (src : Matrix4 R) : Matrix4 R :=
  let n11 := src.m0
  let n12 := src.m4
  let n13 := src.m8
  let n14 := src.m12
  let n21 := src.m1
  let n22 := src.m5
  let n23 := src.m9
  let n24 := src.m13
  let n31 := src.m2
  let n32 := src.m6
  let n33 := src.m10
  let n34 := src.m14
  let n41 := src.m3
  let n42 := src.m7
  let n43 := src.m11
  let n44 := src.m15
  let t11 := n23 * n34 * n42 - n24 * n33 * n42 + n24 * n32 * n43 - n22 * n34 * n43
    - n23 * n32 * n44 + n22 * n33 * n44
  let t12 := n14 * n33 * n42 - n13 * n34 * n42 - n14 * n32 * n43 + n12 * n34 * n43
    + n13 * n32 * n44 - n12 * n33 * n44
  let t13 := n13 * n24 * n42 - n14 * n23 * n42 + n14 * n22 * n43 - n12 * n24 * n43
    - n13 * n22 * n44 + n12 * n23 * n44
  let t14 := n14 * n23 * n32 - n13 * n24 * n32 - n14 * n22 * n33 + n12 * n24 * n33
    + n13 * n22 * n34 - n12 * n23 * n34
  let det := n11 * t11 + n21 * t12 + n31 * t13 + n41 * t14
  if det = 0 then Matrix4.Identity
  else
    let detInv := 1 / det
    { m0 := t11 * detInv,
      m1 := (n24 * n33 * n41 - n23 * n34 * n41 - n24 * n31 * n43 + n21 * n34 * n43
        + n23 * n31 * n44 - n21 * n33 * n44) * detInv,
      m2 := (n22 * n34 * n41 - n24 * n32 * n41 + n24 * n31 * n42 - n21 * n34 * n42
        - n22 * n31 * n44 + n21 * n32 * n44) * detInv,
      m3 := (n23 * n32 * n41 - n22 * n33 * n41 - n23 * n31 * n42 + n21 * n33 * n42
        + n22 * n31 * n43 - n21 * n32 * n43) * detInv,
      m4 := t12 * detInv,
      m5 := (n13 * n34 * n41 - n14 * n33 * n41 + n14 * n31 * n43 - n11 * n34 * n43
        - n13 * n31 * n44 + n11 * n33 * n44) * detInv,
      m6 := (n14 * n32 * n41 - n12 * n34 * n41 - n14 * n31 * n42 + n11 * n34 * n42
        + n12 * n31 * n44 - n11 * n32 * n44) * detInv,
      m7 := (n12 * n33 * n41 - n13 * n32 * n41 + n13 * n31 * n42 - n11 * n33 * n42
        - n12 * n31 * n43 + n11 * n32 * n43) * detInv,
      m8 := t13 * detInv,
      m9 := (n14 * n23 * n41 - n13 * n24 * n41 - n14 * n21 * n43 + n11 * n24 * n43
        + n13 * n21 * n44 - n11 * n23 * n44) * detInv,
      m10 := (n12 * n24 * n41 - n14 * n22 * n41 + n14 * n21 * n42 - n11 * n24 * n42
        - n12 * n21 * n44 + n11 * n22 * n44) * detInv,
      m11 := (n13 * n22 * n41 - n12 * n23 * n41 - n13 * n21 * n42 + n11 * n23 * n42
        + n12 * n21 * n43 - n11 * n22 * n43) * detInv,
      m12 := t14 * detInv,
      m13 := (n13 * n24 * n31 - n14 * n23 * n31 + n14 * n21 * n33 - n11 * n24 * n33
        - n13 * n21 * n34 + n11 * n23 * n34) * detInv,
      m14 := (n14 * n22 * n31 - n12 * n24 * n31 - n14 * n21 * n32 + n11 * n24 * n32
        + n12 * n21 * n34 - n11 * n22 * n34) * detInv,
      m15 := (n12 * n23 * n31 - n13 * n22 * n31 + n13 * n21 * n32 - n11 * n23 * n32
        - n12 * n21 * n33 + n11 * n22 * n33) * detInv }

end Math32

/-! ## The `Object` record and the heap -/

/-- The struct `Object`.  `Id` is a `uint64`; `parent` and the entries of `children`
are pointers. -/
structure Object (R : Type) where
  Id : Nat
  Pos : Vector3 R
  Rot : Vector3 R
  Quat : Quaternion R
  Local : Matrix4 R
  World : Matrix4 R
  parent : Option Nat
  children : List (Option Nat)
  localAutoUpdate : Bool
  worldAutoUpdate : Bool
  matrixWorldNeedUpdate : Bool

/-- The heap: the `Object` stored at every address. -/
abbrev Heap (R : Type) := Nat → Object R

/-- Store `v` at address `a`. -/
def Heap.set {R : Type} (h : Heap R) (a : Nat) (v : Object R) : Heap R :=
  fun x => if x = a then v else h x

section Objects

variable {R : Type} [Field R]

/-- Go zero value of `Object`. -/
def Object.zero : Object R :=
  { Id := 0, Pos := Vector3.zero, Rot := Vector3.zero, Quat := Quaternion.zero,
    Local := Matrix4.zero, World := Matrix4.zero, parent := none, children := [],
    localAutoUpdate := false, worldAutoUpdate := false, matrixWorldNeedUpdate := false }

/-- The value built by `NewObject(id)`: a composite literal that sets only the two
auto-update flags; the argument `id` is not used by the body. -/
def NewObject (_id : Nat) : Object R :=
  { (Object.zero : Object R) with localAutoUpdate := true, worldAutoUpdate := true }

/-! ## Rotation and translation -/

/-- Method `ApplyQuaternion`. -/
def ApplyQuaternion (h : Heap R) (o : Nat) (quat : Quaternion R) : Heap R :=
  h.set o { h o with Quat := Quaternion.MultiplyQuaternions quat (h o).Quat }

/-- Method `SetRotationFromAxisAngle`. -/
def SetRotationFromAxisAngle (sin cos : R → R) (h : Heap R) (o : Nat) (axis : Vector3 R)
    (angle : R) : Heap R :=
  h.set o { h o with Quat := Quaternion.SetFromAxisAngle sin cos axis angle }

/-- Method `RotateOnLocalAxis`: `o.Quat.MultiplyQuaternions(q, &o.Quat)`. -/
def RotateOnLocalAxis (sin cos : R → R) (h : Heap R) (o : Nat) (axis : Vector3 R)
    (angle : R) : Heap R :=
  let q := Quaternion.SetFromAxisAngle sin cos axis angle
  h.set o { h o with Quat := Quaternion.MultiplyQuaternions q (h o).Quat }

/-- Method `RotateOnWorldAxis`: `o.Quat.MultiplyQuaternions(&o.Quat, q)`. -/
def RotateOnWorldAxis (sin cos : R → R) (h : Heap R) (o : Nat) (axis : Vector3 R)
    (angle : R) : Heap R :=
  let q := Quaternion.SetFromAxisAngle sin cos axis angle
  h.set o { h o with Quat := Quaternion.MultiplyQuaternions (h o).Quat q }

/-- Method `RotateX`. -/
def RotateX (sin cos : R → R) (h : Heap R) (o : Nat) (angle : R) : Heap R :=
  RotateOnLocalAxis sin cos h o xAixs angle

/-- Method `RotateY`. -/
def RotateY (sin cos : R → R) (h : Heap R) (o : Nat) (angle : R) : Heap R :=
  RotateOnLocalAxis sin cos h o yAixs angle

/-- Method `RotateZ`. -/
def RotateZ (sin cos : R → R) (h : Heap R) (o : Nat) (angle : R) : Heap R :=
  RotateOnLocalAxis sin cos h o zAixs angle

/-- Method `TranslateOnAxis`: a clone of the axis is rotated by `o.Quat`, scaled by
the distance and added to `o.Pos`. -/
def TranslateOnAxis (h : Heap R) (o : Nat) (axis : Vector3 R) (distance : R) : Heap R :=
  let v := axis.ApplyQuaternion (h o).Quat
  h.set o { h o with Pos := (h o).Pos.Add (v.MultiplyScalar distance) }

/-- Method `TranslateX`. -/
def TranslateX (h : Heap R) (o : Nat) (distance : R) : Heap R :=
  TranslateOnAxis h o xAixs distance

/-- Method `TranslateY`. -/
def TranslateY (h : Heap R) (o : Nat) (distance : R) : Heap R :=
  TranslateOnAxis h o yAixs distance

/-- Method `TranslateZ`. -/
def TranslateZ (h : Heap R) (o : Nat) (distance : R) : Heap R :=
  TranslateOnAxis h o zAixs distance

/-! ## Matrix updates -/

/-- Method `UpdateMatrix`: recompose `Local` with unit scale and raise the dirty flag. -/
def UpdateMatrix (h : Heap R) (o : Nat) : Heap R :=
  h.set o { h o with
    Local := Matrix4.Compose (h o).Pos (h o).Quat ⟨1, 1, 1⟩,
    matrixWorldNeedUpdate := true }

/-- The assignment to `o.World` shared by both update methods: a copy of `o.Local`
when `parent` is nil, else `parent.World * o.Local`. -/
def setWorld (h : Heap R) (o : Nat) (parent : Option Nat) : Heap R :=
  match parent with
  | none => h.set o { h o with World := (h o).Local }
  | some p => h.set o { h o with World := Matrix4.MultiplyMatrices (h p).World (h o).Local }

/-- The loop `for _, child := range o.children` of `UpdateMatrixWorld`, with the
recursive call abstracted as `rec`.  A nil entry is dereferenced by
`child.worldAutoUpdate`, a panic. -/
def UpdateMatrixWorld.children (rec : Heap R → Nat → Option (Heap R)) (force : Bool) :
    List (Option Nat) → Heap R → Option (Heap R)
  | [], h => some h
  | none :: _, _ => none
  | some child :: rest, h =>
    if (h child).worldAutoUpdate || force then
      match rec h child with
      | none => none
      | some h1 => UpdateMatrixWorld.children rec force rest h1
    else UpdateMatrixWorld.children rec force rest h

/-- The receiver's own part of `UpdateMatrixWorld`, the statements before the loop:
`Local` is recomposed when `localAutoUpdate` is set; when the node is dirty or `force`
is set, `World` is recomputed, the dirty flag is cleared and `force` becomes true.
Returns the heap and the value of `force` that the loop sees. -/
def UpdateMatrixWorld.node (h : Heap R) (o : Nat) (force : Bool) : Heap R × Bool :=
  let parent := (h o).parent
  let h1 := if (h o).localAutoUpdate then UpdateMatrix h o else h
  if (h1 o).matrixWorldNeedUpdate || force then
    let h2 := setWorld h1 o parent
    (h2.set o { h2 o with matrixWorldNeedUpdate := false }, true)
  else (h1, force)

/-- Method `UpdateMatrixWorld(force)`.  The first argument bounds the recursion depth. -/
def UpdateMatrixWorld : Nat → Heap R → Nat → Bool → Option (Heap R)
  | 0, _, _, _ => none
  | fuel + 1, h, o, force =>
    let r := UpdateMatrixWorld.node h o force
    UpdateMatrixWorld.children (fun h1 child => UpdateMatrixWorld fuel h1 child r.2) r.2
      (r.1 o).children r.1

/-! ## Children lists -/

/-- The scan of `GetObjectById` over a children slice: the first entry whose `Id` is
`id`, `some none` when there is none, and `none` for the panic of reading the `Id`
of a nil entry. -/
def GetObjectById.scan (h : Heap R) (id : Nat) : List (Option Nat) → Option (Option Nat)
  | [] => some none
  | none :: _ => none
  | some obj :: rest => if (h obj).Id = id then some (some obj) else GetObjectById.scan h id rest

/-- Method `GetObjectById`. -/
def GetObjectById (h : Heap R) (o : Nat) (id : Nat) : Option (Option Nat) :=
  GetObjectById.scan h id (h o).children

/-- The inner loop of `Remove`, `for idx := len(o.children) - 1; idx >= 0; idx--`:
the first argument is `idx + 1`.  A nil entry and an entry with the `Id` of `obj` are cut
out by `append(o.children[:idx], o.children[idx+1:]...)`. -/
def Remove.scan (o obj : Nat) : Nat → Heap R → Heap R
  | 0, h => h
  | idx + 1, h =>
    match (h o).children.get? idx with
    | none => h
    | some none =>
      Remove.scan o obj idx
        (h.set o { h o with
          children := (h o).children.take idx ++ (h o).children.drop (idx + 1) })
    | some (some child) =>
      if (h child).Id ≠ (h obj).Id then Remove.scan o obj idx h
      else
        Remove.scan o obj idx
          (h.set o { h o with
            children := (h o).children.take idx ++ (h o).children.drop (idx + 1) })

/-- Method `Remove(objs...)`: nil arguments are skipped. -/
def Remove (h : Heap R) (o : Nat) : List (Option Nat) → Heap R
  | [] => h
  | none :: objs => Remove h o objs
  | some obj :: objs => Remove (Remove.scan o obj (h o).children.length h) o objs

/-- The first statements of the loop body of `Add` for a non-nil argument `obj`: it is
removed from its parent's children, if it has a parent, and its parent link is set
to `o`. -/
def Add.relink (h : Heap R) (o obj : Nat) : Heap R :=
  let h1 :=
    match (h obj).parent with
    | some p => Remove h p [some obj]
    | none => h
  h1.set obj { h1 obj with parent := some o }

/-- Method `Add(objs...)`: nil arguments are skipped; an argument with a parent is first
removed from that parent; the parent link is set; the argument is appended unless
`GetObjectById` finds an entry with its `Id`. -/
def Add (h : Heap R) (o : Nat) : List (Option Nat) → Option (Heap R)
  | [] => some h
  | none :: objs => Add h o objs
  | some obj :: objs =>
    let h2 := Add.relink h o obj
    match GetObjectById h2 o (h2 obj).Id with
    | none => none
    | some (some _) => Add h2 o objs
    | some none =>
      Add (h2.set o { h2 o with children := (h2 o).children ++ [some obj] }) o objs

/-! ## Scene -/

/-- Allocation state: the heap and the next unused address. -/
structure Mem (R : Type) where
  heap : Heap R
  next : Nat

/-- The struct `Scene`: `self` is the address of the embedded `Object`, `objs` the map
`map[uint64]*Object`. -/
structure Scene where
  self : Nat
  objs : Nat → Option Nat

/-- Function `NewScene`: the embedded `Object` is the zero value and the map is empty. -/
def NewScene (m : Mem R) : Mem R × Scene :=
  (⟨m.heap.set m.next Object.zero, m.next + 1⟩, ⟨m.next, fun _ => none⟩)

/-- Method `Scene.NewObject`: the scene's own `Id` is incremented (a `uint64`), the result
of `NewObject(scene.Id)` is allocated and stored in the map under its own `Id`.  Returns
the memory, the scene and the address of the new object. -/
def Scene.NewObject (m : Mem R) (scene : Scene) : Mem R × Scene × Nat :=
  let h1 := m.heap.set scene.self
    { m.heap scene.self with Id := ((m.heap scene.self).Id + 1) % 2 ^ 64 }
  let obj := m.next
  let h2 := h1.set obj (Obj.NewObject (h1 scene.self).Id)
  (⟨h2, m.next + 1⟩,
   ⟨scene.self, fun k => if k = (h2 obj).Id then some obj else scene.objs k⟩, obj)


/-! ## The pull update and the coordinate changes -/

/-- The loop `for _, child := range o.children` of `UpdateWorldMatrix`, with the
recursive call abstracted as `rec`: a child is visited when its `worldAutoUpdate` is set.
A nil entry is dereferenced by `child.worldAutoUpdate`, a panic. -/
def UpdateWorldMatrix.children (rec : Heap R → Nat → Option (Heap R)) :
    List (Option Nat) → Heap R → Option (Heap R)
  | [], h => some h
  | none :: _, _ => none
  | some child :: rest, h =>
    if (h child).worldAutoUpdate then
      match rec h child with
      | none => none
      | some h1 => UpdateWorldMatrix.children rec rest h1
    else UpdateWorldMatrix.children rec rest h

/-- The receiver's own part of `UpdateWorldMatrix`, the statements between the update of
the parent and the loop: `Local` is recomposed when `localAutoUpdate` is set, then `World`
is recomputed from the parent read at the start of the call. -/
def UpdateWorldMatrix.node (h : Heap R) (o : Nat) (parent : Option Nat) : Heap R :=
  let h1 := if (h o).localAutoUpdate then UpdateMatrix h o else h
  setWorld h1 o parent

/-- Method `UpdateWorldMatrix(updateParent, updateChildren)`.  The first argument bounds
the recursion depth.  The parent pointer is read once, before the parent is updated. -/
def UpdateWorldMatrix : Nat → Heap R → Nat → Bool → Bool → Option (Heap R)
  | 0, _, _, _, _ => none
  | fuel + 1, h, o, updateParent, updateChildren =>
    let parent := (h o).parent
    let afterParent : Option (Heap R) :=
      match parent with
      | some p =>
        if updateParent && (h p).worldAutoUpdate then UpdateWorldMatrix fuel h p true false
        else some h
      | none => some h
    match afterParent with
    | none => none
    | some h1 =>
      let h3 := UpdateWorldMatrix.node h1 o parent
      if updateChildren then
        UpdateWorldMatrix.children (fun h4 child => UpdateWorldMatrix fuel h4 child false true)
          (h3 o).children h3
      else some h3

/-- Method `LocalToWorld(v)`: the world matrix is pulled up to date, then applied to a
clone of `v`.  Returns the heap, the vector that `v` points to after the call, and the
returned vector. -/
def LocalToWorld (fuel : Nat) (h : Heap R) (o : Nat) (v : Vector3 R) :
    Option (Heap R × Vector3 R × Vector3 R) :=
  match UpdateWorldMatrix fuel h o true false with
  | none => none
  | some h1 =>
    let _v := v.Clone
    some (h1, v, _v.ApplyMatrix4 (h1 o).World)

/-- Method `WorldToLocal(v)`: the world matrix is pulled up to date, a clone of it is
inverted in place, and the inverse is applied to a clone of `v`.  Returns the heap, the
vector that `v` points to after the call, and the returned vector. -/
def WorldToLocal [DecidableEq R] (fuel : Nat) (h : Heap R) (o : Nat) (v : Vector3 R) :
    Option (Heap R × Vector3 R × Vector3 R) :=
  match UpdateWorldMatrix fuel h o true false with
  | none => none
  | some h1 =>
    let w := Matrix4.GetInverse (h1 o).World
    let _v := v.Clone
    some (h1, v, _v.ApplyMatrix4 w)

/-! ## Translation with the vector pointers made explicit -/

/-- What an argument of type `*math32.Vector3` may point to: a vector outside every node
(a package variable, a vector of the caller), or the exported field `Pos` or `Rot` of the
node at an address. -/
inductive VecPtr where
  | cell : VecPtr
  | pos : Nat → VecPtr
  | rot : Nat → VecPtr
deriving DecidableEq

/-- The vector behind a pointer, in the heap `h` with the outside vector `cell`. -/
def VecPtr.load (h : Heap R) (cell : Vector3 R) : VecPtr → Vector3 R
  | VecPtr.cell => cell
  | VecPtr.pos n => (h n).Pos
  | VecPtr.rot n => (h n).Rot

/-- The three package variables `xAixs`, `yAixs`, `zAixs` as mutable cells. -/
structure Axes (R : Type) where
  xAixs : Vector3 R
  yAixs : Vector3 R
  zAixs : Vector3 R

/-- The package variables as initialised. -/
def Axes.init : Axes R := ⟨Obj.xAixs, Obj.yAixs, Obj.zAixs⟩

/-- Method `TranslateOnAxis` statement by statement, with `axis` a pointer: `axis.Clone()`
reads the vector behind `axis` into a new vector, which `ApplyQuaternion` and
`MultiplyScalar` overwrite in place, and `o.Pos.Add` overwrites `o.Pos` in the heap.
Returns the heap and the outside vector; nothing is written through `axis`, so the vector
behind `axis` after the call is `axis.load` of the result, which is the new `o.Pos` when
`axis` is `&o.Pos`. -/
def TranslateOnAxis.cells (h : Heap R) (cell : Vector3 R) (o : Nat) (axis : VecPtr)
    (distance : R) : Heap R × Vector3 R :=
  let clone := (axis.load h cell).Clone
  let v := clone.ApplyQuaternion (h o).Quat
  let scaled := v.MultiplyScalar distance
  (h.set o { h o with Pos := (h o).Pos.Add scaled }, cell)

/-- Method `TranslateX` on explicit cells: the axis passed is `&xAixs`, a vector outside
every node. -/
def TranslateX.cells (g : Axes R) (h : Heap R) (o : Nat) (distance : R) : Heap R × Axes R :=
  let r := TranslateOnAxis.cells h g.xAixs o VecPtr.cell distance
  (r.1, { g with xAixs := r.2 })

/-- Method `TranslateY` on explicit cells: the axis passed is `&yAixs`. -/
def TranslateY.cells (g : Axes R) (h : Heap R) (o : Nat) (distance : R) : Heap R × Axes R :=
  let r := TranslateOnAxis.cells h g.yAixs o VecPtr.cell distance
  (r.1, { g with yAixs := r.2 })

/-- Method `TranslateZ` on explicit cells: the axis passed is `&zAixs`. -/
def TranslateZ.cells (g : Axes R) (h : Heap R) (o : Nat) (distance : R) : Heap R × Axes R :=
  let r := TranslateOnAxis.cells h g.zAixs o VecPtr.cell distance
  (r.1, { g with zAixs := r.2 })

/-! ## Vocabulary of the statements -/

/-- Memory before any allocation: every address holds the zero `Object`. -/
def Mem.init : Mem R := ⟨fun _ => Object.zero, 0⟩

/-- The filter computed by `Remove`: a children entry survives when it is a node whose
`Id` differs from `id`. -/
def keepChild (h : Heap R) (id : Nat) : Option Nat → Bool
  | none => false
  | some c => decide ((h c).Id ≠ id)

/-- The children lists below `n` form a tree of height at most `d`: no entry is nil, every
entry `c` of a list `m.children` has `c.parent = m`, and every descending path ends within
`d` steps. -/
def TreeWithin (h : Heap R) : Nat → Nat → Prop
  | 0, n => (h n).children = []
  | d + 1, n => ∀ e ∈ (h n).children, ∃ c, e = some c ∧ (h c).parent = some n ∧ TreeWithin h d c

/-- The nodes of the subtree of `r`: `r` itself and every entry of the children list of
a node of the subtree. -/
inductive InTree (h : Heap R) (r : Nat) : Nat → Prop
  | root : InTree h r r
  | child {n c : Nat} : InTree h r n → some c ∈ (h n).children → InTree h r c

/-- Two heaps with the same links and the same inputs of the matrix updates at every
address: only `Local`, `World` and the dirty flag may differ. -/
def SameShape (h g : Heap R) : Prop :=
  ∀ x, (g x).Id = (h x).Id ∧ (g x).Pos = (h x).Pos ∧ (g x).Rot = (h x).Rot ∧
    (g x).Quat = (h x).Quat ∧ (g x).parent = (h x).parent ∧
    (g x).children = (h x).children ∧ (g x).localAutoUpdate = (h x).localAutoUpdate ∧
    (g x).worldAutoUpdate = (h x).worldAutoUpdate

/-- What an update pass establishes at node `m`, relative to the inputs stored in `h0`:
`Local` is the composition of position and rotation with unit scale, `World` is `Local`
for a parentless node and `parent.World * Local` otherwise, and the dirty flag is down. -/
def Composed (h0 g : Heap R) (m : Nat) : Prop :=
  (g m).Local = Matrix4.Compose (h0 m).Pos (h0 m).Quat ⟨1, 1, 1⟩ ∧
  (g m).World =
    (match (h0 m).parent with
      | none => (g m).Local
      | some p => Matrix4.MultiplyMatrices (g p).World (g m).Local) ∧
  (g m).matrixWorldNeedUpdate = false

/-- A heap of nodes as `NewObject` creates them, with `Id`s set to distinct values, that
holds the tree `0 -> [1, 2]`, `1 -> [3]`; node 1 sits at `(1, 0, 0)` and node 3 at
`(0, 1, 0)`, both with the identity rotation. -/
def family : Heap ℚ := fun n =>
  match n with
  | 0 => { (NewObject 0 : Object ℚ) with Id := 1, children := [some 1, some 2] }
  | 1 => { (NewObject 0 : Object ℚ) with
      Id := 2, parent := some 0, children := [some 3], Pos := ⟨1, 0, 0⟩, Quat := ⟨0, 0, 0, 1⟩ }
  | 2 => { (NewObject 0 : Object ℚ) with Id := 3, parent := some 0 }
  | 3 => { (NewObject 0 : Object ℚ) with
      Id := 4, parent := some 1, Pos := ⟨0, 1, 0⟩, Quat := ⟨0, 0, 0, 1⟩ }
  | k + 4 => { (NewObject 0 : Object ℚ) with Id := k + 5 }

/-- A children list without nil entries whose entries have pairwise distinct `Id`s. -/
def IdsDistinct (h : Heap R) (cs : List (Option Nat)) : Prop :=
  none ∉ cs ∧ cs.Pairwise (fun x y => ∀ a b, x = some a → y = some b → (h a).Id ≠ (h b).Id)

/-- The states reachable from freshly created nodes (no parent, no children, any `Id`) by
calls of `Add` and `Remove` that return. -/
inductive Reachable : Heap R → Prop
  | fresh (h : Heap R) : (∀ n, (h n).parent = none ∧ (h n).children = []) → Reachable h
  | add (h h1 : Heap R) (o : Nat) (objs : List (Option Nat)) :
      Reachable h → Add h o objs = some h1 → Reachable h1
  | remove (h : Heap R) (o : Nat) (objs : List (Option Nat)) :
      Reachable h → Reachable (Remove h o objs)

/-- Node `n` reaches a parentless node in at most `k` steps along parent links. -/
def rootWithin (h : Heap R) : Nat → Nat → Bool
  | 0, n => (h n).parent.isNone
  | k + 1, n =>
    match (h n).parent with
    | none => true
    | some p => rootWithin h k p

/-- Node `a` is `b` or lies on the parent chain of `b`. -/
inductive AncestorOrSelf (h : Heap R) (a : Nat) : Nat → Prop
  | self : AncestorOrSelf h a a
  | up {b p : Nat} : (h b).parent = some p → AncestorOrSelf h a p → AncestorOrSelf h a b

/-- Node `m` is reached from `n` by one or more steps through children lists. -/
inductive ChildReach (h : Heap R) : Nat → Nat → Prop
  | child {n c : Nat} : some c ∈ (h n).children → ChildReach h n c
  | step {n c m : Nat} : some c ∈ (h n).children → ChildReach h c m → ChildReach h n m

/-- Freshly created nodes whose exported field `Id` has been set to pairwise distinct
values: address `n` holds `Id = n + 1`. -/
def freshWithIds : Heap ℚ := fun n => { (NewObject 0 : Object ℚ) with Id := n + 1 }

/-- The state after `p.Add(a)` on `freshWithIds` with `p` at address 0 and `a` at
address 1. -/
def attached : Heap ℚ := (Add freshWithIds 0 [some 1]).getD freshWithIds

/-- A scene from `NewScene` followed by two calls of `Scene.NewObject`: the memory, the
scene and the two returned addresses. -/
def sceneWithTwo : Mem ℚ × Scene × Nat × Nat :=
  let r0 := NewScene (Mem.init : Mem ℚ)
  let r1 := Scene.NewObject r0.1 r0.2
  let r2 := Scene.NewObject r1.1 r1.2.1
  (r2.1, r2.2.1, r1.2.2, r2.2.2)

/-- The chain scenario: with root `R` the scene and `A`, `B` the two objects of
`sceneWithTwo`, run `R.Add(A)`, `A.Add(B)`, `A.TranslateX(1)`, `B.TranslateY(1)` and
`R.UpdateMatrixWorld(false)` with the given recursion budget. -/
def chainScenario (fuel : Nat) : Option (Heap ℚ) :=
  let root := sceneWithTwo.2.1.self
  let a := sceneWithTwo.2.2.1
  let b := sceneWithTwo.2.2.2
  (Add sceneWithTwo.1.heap root [some a]).bind fun h1 =>
    (Add h1 a [some b]).bind fun h2 =>
      UpdateMatrixWorld fuel (TranslateY (TranslateX h2 a 1) b 1) root false

/-- A matrix whose fourth row is (0, 0, 0, 1): elements 3, 7, 11 and 15. -/
def Matrix4.Affine (m : Matrix4 R) : Prop := m.m3 = 0 ∧ m.m7 = 0 ∧ m.m11 = 0 ∧ m.m15 = 1

/-- The product of the freshly composed local matrices from the top of the parent chain
down to `n`, following at most `k` parent links:
`Compose(a0) * Compose(a1) * ... * Compose(n)`, bracketed from the left. -/
def composedWorld (h : Heap R) : Nat → Nat → Matrix4 R
  | 0, n => Matrix4.Compose (h n).Pos (h n).Quat ⟨1, 1, 1⟩
  | k + 1, n =>
    match (h n).parent with
    | none => Matrix4.Compose (h n).Pos (h n).Quat ⟨1, 1, 1⟩
    | some p =>
      Matrix4.MultiplyMatrices (composedWorld h k p)
        (Matrix4.Compose (h n).Pos (h n).Quat ⟨1, 1, 1⟩)

/-- Node `n` is as a pull update leaves it: with `localAutoUpdate` set its `Local` is
composed and its dirty flag is up, and its `World` is `Local` or `parent.World * Local`. -/
def nodeSettled (g : Heap R) (n : Nat) : Prop :=
  ((g n).localAutoUpdate = true →
    (g n).Local = Matrix4.Compose (g n).Pos (g n).Quat ⟨1, 1, 1⟩ ∧
      (g n).matrixWorldNeedUpdate = true) ∧
  (g n).World =
    (match (g n).parent with
      | none => (g n).Local
      | some p => Matrix4.MultiplyMatrices (g p).World (g n).Local)

/-- Node `n` and the ancestors that a pull update of `n` visits (within `k` parent links,
up to the first parent whose `worldAutoUpdate` is off) are as the update leaves them. -/
def Settled (g : Heap R) : Nat → Nat → Prop
  | 0, n => nodeSettled g n
  | k + 1, n =>
    nodeSettled g n ∧
      ∀ p, (g n).parent = some p → (g p).worldAutoUpdate = true → Settled g k p

/-- What a pass over a tree establishes at node `m`, relative to the inputs stored in `h0`:
`Local` is composed when `lo` is set, `World` is `Local` for a parentless node and
`parent.World * Local` otherwise, and the dirty flag has the value `dirty`. -/
def Passed (lo dirty : Bool) (h0 g : Heap R) (m : Nat) : Prop :=
  (lo = true → (g m).Local = Matrix4.Compose (h0 m).Pos (h0 m).Quat ⟨1, 1, 1⟩) ∧
  (g m).World =
    (match (h0 m).parent with
      | none => (g m).Local
      | some p => Matrix4.MultiplyMatrices (g p).World (g m).Local) ∧
  (g m).matrixWorldNeedUpdate = dirty

/-- The invariant of a loop over the children of `n` during a pass that started from `h`
and left `h2` after the receiver's own part: the shape is that of `h`, nodes outside the
subtree of `n` are untouched, `n` is as in `h2`, and the subtrees of the entries already
visited satisfy `P`. -/
def PassInv (P : Heap R → Heap R → Nat → Prop) (h h2 : Heap R) (n : Nat)
    (done : List (Option Nat)) (g : Heap R) : Prop :=
  SameShape h g ∧ (∀ x, ¬ InTree h n x → g x = h x) ∧ g n = h2 n ∧
    ∀ c, some c ∈ done → ∀ m, InTree h c m → P h g m

/-- Parentless nodes as `NewScene` creates its root, all flags off, whose exported field
`Local` has been assigned an invertible matrix with fourth row (1, 0, 0, 2). -/
def skewed : Heap ℚ := fun _ =>
  { (Object.zero : Object ℚ) with Local := ⟨1, 0, 0, 1, 0, 1, 0, 0, 0, 0, 1, 0, 1, 0, 0, 2⟩ }

/-- The tree of `family` with both auto-update flags off on every node and the dirty flag
up at the root only. -/
def stale : Heap ℚ := fun n =>
  { family n with
    localAutoUpdate := false, worldAutoUpdate := false, matrixWorldNeedUpdate := decide (n = 0) }

/-- The state after `0.Add(1, 2)` on nodes as `NewObject` creates them, which all carry
`Id` 0. -/
def collided : Heap ℚ :=
  (Add (fun _ => NewObject 0) 0 [some 1, some 2]).getD (fun _ => NewObject 0)

/-- Nodes as `NewObject` creates them, moved to position (1, 2, 3) and given the identity
rotation. -/
def posed : Heap ℚ := fun _ =>
  { (NewObject 0 : Object ℚ) with Pos := ⟨1, 2, 3⟩, Quat := ⟨0, 0, 0, 1⟩ }

end Objects

/-! ## Heap lemmas -/

section Lemmas

variable {R : Type} [Field R]

/-- Reading the address just written gives the written value. -/
@[simp]
theorem Heap.set_same (h : Heap R) (a : Nat) (v : Object R) : (h.set a v) a = v := by
  simp [Heap.set]

/-- Writing at one address leaves every other address alone. -/
@[simp]
theorem Heap.set_other (h : Heap R) {a x : Nat} (v : Object R) (hx : x ≠ a) :
    (h.set a v) x = h x := by
  simp [Heap.set, hx]

/-- A second write at the same address overrides the first. -/
theorem Heap.set_set (h : Heap R) (a : Nat) (v w : Object R) :
    (h.set a v).set a w = h.set a w := by
  funext x
  by_cases hx : x = a <;> simp [Heap.set, hx]

/-- Writing back the stored value changes nothing. -/
theorem Heap.set_self (h : Heap R) (a : Nat) : h.set a (h a) = h := by
  funext x
  by_cases hx : x = a <;> simp [Heap.set, hx]

/-- The filter of `Remove` depends on the heap only through the `Id`s. -/
theorem keepChild_congr (h h1 : Heap R) (id : Nat) (hid : ∀ x, (h1 x).Id = (h x).Id) :
    keepChild h1 id = keepChild h id := by
  funext c
  cases c <;> simp [keepChild, hid]

/-- The reverse scan of `Remove` filters the scanned part of the children list and
keeps the rest. -/
theorem Remove.scan_eq (o obj : Nat) :
    ∀ (k : Nat) (h : Heap R) (pre post : List (Option Nat)),
      (h o).children = pre ++ post → pre.length = k →
      Remove.scan o obj k h =
        h.set o { h o with children := pre.filter (keepChild h (h obj).Id) ++ post } := by
  intro k
  induction k with
  | zero =>
    intro h pre post hc hl
    have hp : pre = [] := List.length_eq_zero.mp hl
    subst hp
    simp only [Remove.scan, List.filter_nil, List.nil_append]
    simp only [List.nil_append] at hc
    rw [← hc]
    exact (Heap.set_self h o).symm
  | succ k ih =>
    intro h pre post hc hl
    obtain ⟨pre1, x, rfl⟩ : ∃ p x, pre = p ++ [x] := by
      rcases List.eq_nil_or_concat pre with hp | ⟨p, x, hp⟩
      · subst hp; simp at hl
      · exact ⟨p, x, by simpa using hp⟩
    have hl1 : pre1.length = k := by simpa using hl
    have hget : (h o).children.get? k = some x := by
      rw [hc, ← hl1, List.append_assoc, List.get?_eq_getElem?,
        List.getElem?_append_right (le_refl _)]
      simp
    have htake : (h o).children.take k ++ (h o).children.drop (k + 1) = pre1 ++ post := by
      rw [hc, ← hl1]; simp
    rw [Remove.scan, hget]
    cases x with
    | none =>
      simp only []
      rw [htake]
      rw [ih _ pre1 post (by simp) hl1]
      have hk : keepChild (h.set o { h o with children := pre1 ++ post })
          ((h.set o { h o with children := pre1 ++ post }) obj).Id
          = keepChild h (h obj).Id := by
        have hid : ∀ x, ((h.set o { h o with children := pre1 ++ post }) x).Id = (h x).Id := by
          intro x; by_cases hx : x = o <;> simp [Heap.set, hx]
        rw [hid obj]
        exact keepChild_congr _ _ _ hid
      rw [hk, Heap.set_set]
      simp [List.filter_append, keepChild]
    | some c =>
      simp only []
      by_cases hid : (h c).Id ≠ (h obj).Id
      · rw [if_pos hid]
        rw [ih h pre1 (some c :: post) (by rw [hc]; simp) hl1]
        simp [List.filter_append, keepChild, hid]
      · rw [if_neg hid, htake]
        rw [ih _ pre1 post (by simp) hl1]
        have hk : keepChild (h.set o { h o with children := pre1 ++ post })
            ((h.set o { h o with children := pre1 ++ post }) obj).Id
            = keepChild h (h obj).Id := by
          have hid1 : ∀ x, ((h.set o { h o with children := pre1 ++ post }) x).Id = (h x).Id := by
            intro x; by_cases hx : x = o <;> simp [Heap.set, hx]
          rw [hid1 obj]
          exact keepChild_congr _ _ _ hid1
        rw [hk, Heap.set_set]
        simp [List.filter_append, keepChild, hid]

/-- One call of `Remove` with one node argument rewrites only the receiver's children list. -/
theorem Remove_single (h : Heap R) (o obj : Nat) :
    Remove h o [some obj] =
      h.set o { h o with children := (h o).children.filter (keepChild h (h obj).Id) } := by
  simp only [Remove]
  rw [Remove.scan_eq o obj _ h (h o).children [] (by simp) rfl]
  simp

/-! ## Trees of bounded height -/

/-- Every heap has its own shape. -/
theorem SameShape.refl (h : Heap R) : SameShape h h := fun _ => by simp

/-- Having the same shape is transitive. -/
theorem SameShape.trans {h g k : Heap R} (a : SameShape h g) (b : SameShape g k) :
    SameShape h k := by
  intro x
  obtain ⟨a1, a2, a3, a4, a5, a6, a7, a8⟩ := a x
  obtain ⟨b1, b2, b3, b4, b5, b6, b7, b8⟩ := b x
  exact ⟨b1.trans a1, b2.trans a2, b3.trans a3, b4.trans a4, b5.trans a5, b6.trans a6,
    b7.trans a7, b8.trans a8⟩

/-- Heaps of the same shape have the same children lists. -/
theorem SameShape.children {h g : Heap R} (a : SameShape h g) (x : Nat) :
    (g x).children = (h x).children := (a x).2.2.2.2.2.1

/-- Heaps of the same shape have the same parent links. -/
theorem SameShape.parent {h g : Heap R} (a : SameShape h g) (x : Nat) :
    (g x).parent = (h x).parent := (a x).2.2.2.2.1

/-- A tree of height at most `d` has height at most `d + 1`. -/
theorem TreeWithin.mono {h : Heap R} : ∀ (d n : Nat), TreeWithin h d n → TreeWithin h (d + 1) n := by
  intro d
  induction d with
  | zero =>
    intro n hn e he
    simp only [TreeWithin] at hn
    rw [hn] at he
    cases he
  | succ d ih =>
    intro n hn e he
    obtain ⟨c, hc, hp, ht⟩ := hn e he
    exact ⟨c, hc, hp, ih c ht⟩

/-- Being a tree of bounded height depends on the shape only. -/
theorem TreeWithin.transfer {h g : Heap R} (s : SameShape h g) :
    ∀ (d n : Nat), TreeWithin h d n → TreeWithin g d n := by
  intro d
  induction d with
  | zero =>
    intro n hn
    simp only [TreeWithin] at hn ⊢
    rw [s.children, hn]
  | succ d ih =>
    intro n hn e he
    rw [s.children] at he
    obtain ⟨c, hc, hp, ht⟩ := hn e he
    exact ⟨c, hc, by rw [s.parent, hp], ih c ht⟩

/-- Membership in a subtree depends on the shape only. -/
theorem InTree.reshape {h g : Heap R} (s : SameShape h g) {r m : Nat} (a : InTree h r m) :
    InTree g r m := by
  induction a with
  | root => exact InTree.root
  | child _ hc ih => exact InTree.child ih (by rw [s.children]; exact hc)

/-- Subtree membership composes: a node below a node of the subtree is in the subtree. -/
theorem InTree.extend {h : Heap R} {r n m : Nat} (a : InTree h r n) (b : InTree h n m) :
    InTree h r m := by
  induction b with
  | root => exact a
  | child _ hc ih => exact InTree.child ih hc

/-- A node of the subtree of `r` is `r` or lies in the subtree of an entry of `r.children`. -/
theorem InTree.cases_top {h : Heap R} {r m : Nat} (a : InTree h r m) :
    m = r ∨ ∃ c, some c ∈ (h r).children ∧ InTree h c m := by
  induction a with
  | root => exact Or.inl rfl
  | child hn hc ih =>
    rename_i n c
    rcases ih with rfl | ⟨c1, hc1, hin⟩
    · exact Or.inr ⟨c, hc, InTree.root⟩
    · exact Or.inr ⟨c1, hc1, InTree.child hin hc⟩

/-- Every node of a tree of height at most `d` roots a tree of height at most `d`. -/
theorem TreeWithin.of_inTree {h : Heap R} {d r m : Nat} (t : TreeWithin h d r)
    (a : InTree h r m) : TreeWithin h d m := by
  induction a with
  | root => exact t
  | child hn hc ih =>
    cases d with
    | zero =>
      simp only [TreeWithin] at ih
      rw [ih] at hc
      cases hc
    | succ d =>
      obtain ⟨c1, hc1, _, ht⟩ := ih _ hc
      cases hc1
      exact TreeWithin.mono d _ ht

/-- In a tree of bounded height no node lies in the subtree of one of its children. -/
theorem TreeWithin.not_below {h : Heap R} :
    ∀ (d n : Nat), TreeWithin h d n → ∀ c, some c ∈ (h n).children → ¬ InTree h c n := by
  intro d
  induction d with
  | zero =>
    intro n hn c hc
    simp only [TreeWithin] at hn
    rw [hn] at hc
    cases hc
  | succ d ih =>
    intro n hn c hc hin
    obtain ⟨c1, hc1, _, ht⟩ := hn _ hc
    cases hc1
    exact ih n (ht.of_inTree hin) c hc hin

/-- Every node of a subtree other than its root has its parent in the subtree and is an
entry of the parent's children list. -/
theorem InTree.parent_mem {h : Heap R} {d r m : Nat} (t : TreeWithin h d r)
    (a : InTree h r m) : m = r ∨ ∃ p, (h m).parent = some p ∧ InTree h r p ∧
      some m ∈ (h p).children := by
  cases a with
  | root => exact Or.inl rfl
  | child hn hc =>
    rename_i n
    right
    have tn := t.of_inTree hn
    cases d with
    | zero =>
      simp only [TreeWithin] at tn
      rw [tn] at hc
      cases hc
    | succ d =>
      obtain ⟨c1, hc1, hp, _⟩ := tn _ hc
      cases hc1
      exact ⟨n, hp, hn, hc⟩

/-! ## The update pass on a tree -/

/-- Having the same shape is symmetric. -/
theorem SameShape.symm {h g : Heap R} (a : SameShape h g) : SameShape g h := by
  intro x
  obtain ⟨a1, a2, a3, a4, a5, a6, a7, a8⟩ := a x
  exact ⟨a1.symm, a2.symm, a3.symm, a4.symm, a5.symm, a6.symm, a7.symm, a8.symm⟩

/-- The postcondition of the update pass depends on its reference heap through the
shape only. -/
theorem Composed.rebase {h g k : Heap R} (s : SameShape h g) {m : Nat} (c : Composed g k m) :
    Composed h k m := by
  obtain ⟨_, s2, _, s4, s5, _, _, _⟩ := s m
  unfold Composed at c ⊢
  rw [← s2, ← s4, ← s5]
  exact c

/-- The receiver's own part of `UpdateMatrixWorld` when `localAutoUpdate` is set: the
local matrix is recomposed, which raises the dirty flag, so the world matrix is
recomputed from the parent's current one and `force` becomes true. -/
theorem UpdateMatrixWorld.node_auto (h : Heap R) (n : Nat) (force : Bool)
    (lau : (h n).localAutoUpdate = true) :
    (UpdateMatrixWorld.node h n force).2 = true ∧
    SameShape h (UpdateMatrixWorld.node h n force).1 ∧
    (∀ x, x ≠ n → (UpdateMatrixWorld.node h n force).1 x = h x) ∧
    ((UpdateMatrixWorld.node h n force).1 n).Local =
      Matrix4.Compose (h n).Pos (h n).Quat ⟨1, 1, 1⟩ ∧
    ((UpdateMatrixWorld.node h n force).1 n).World =
      (match (h n).parent with
        | none => ((UpdateMatrixWorld.node h n force).1 n).Local
        | some p => Matrix4.MultiplyMatrices (h p).World
            ((UpdateMatrixWorld.node h n force).1 n).Local) ∧
    ((UpdateMatrixWorld.node h n force).1 n).matrixWorldNeedUpdate = false := by
  have hd : ((UpdateMatrix h n) n).matrixWorldNeedUpdate = true := by simp [UpdateMatrix]
  cases hp : (h n).parent with
  | none =>
    simp only [UpdateMatrixWorld.node, lau, if_true, hd, Bool.true_or, hp, setWorld]
    refine ⟨trivial, ?_, ?_, ?_, ?_, ?_⟩
    · intro x
      by_cases hx : x = n
      · subst hx; simp [UpdateMatrix]
      · simp [UpdateMatrix, hx]
    · intro x hx; simp [UpdateMatrix, hx]
    · simp [UpdateMatrix]
    · simp [UpdateMatrix]
    · simp
  | some p =>
    simp only [UpdateMatrixWorld.node, lau, if_true, hd, Bool.true_or, hp, setWorld]
    refine ⟨trivial, ?_, ?_, ?_, ?_, ?_⟩
    · intro x
      by_cases hx : x = n
      · subst hx; simp [UpdateMatrix]
      · simp [UpdateMatrix, hx]
    · intro x hx; simp [UpdateMatrix, hx]
    · simp [UpdateMatrix]
    · by_cases hpn : p = n
      · subst hpn; simp [UpdateMatrix]
      · simp [UpdateMatrix, hpn]
    · simp


/-- The children loop with `force = true` visits every entry in order: an invariant
indexed by the entries already visited is carried from the empty list to the whole
list. -/
theorem UpdateMatrixWorld.children_forced (rec : Heap R → Nat → Option (Heap R))
    (I : List (Option Nat) → Heap R → Prop) (all : List (Option Nat))
    (hstep : ∀ done c rest g, done ++ some c :: rest = all → I done g →
      ∃ g1, rec g c = some g1 ∧ I (done ++ [some c]) g1)
    (hnil : none ∉ all) :
    ∀ (rest done : List (Option Nat)) (g : Heap R), done ++ rest = all → I done g →
      ∃ g1, UpdateMatrixWorld.children rec true rest g = some g1 ∧ I all g1 := by
  intro rest
  induction rest with
  | nil =>
    intro done g hall hI
    simp only [List.append_nil] at hall
    subst hall
    exact ⟨g, rfl, hI⟩
  | cons e rest ih =>
    intro done g hall hI
    cases e with
    | none =>
      exfalso
      apply hnil
      rw [← hall]
      simp
    | some c =>
      obtain ⟨g1, hg1, hI1⟩ := hstep done c rest g hall hI
      simp only [UpdateMatrixWorld.children, Bool.or_true, if_true, hg1]
      exact ih (done ++ [some c]) g1 (by rw [← hall]; simp) hI1

/-- One call of `UpdateMatrixWorld` on the root `n` of a tree of bounded height, all of
whose nodes have `localAutoUpdate` set, returns for every recursion budget above the
height, keeps the shape, leaves every node outside the subtree untouched and brings
every node of the subtree up to date. -/
theorem UpdateMatrixWorld.subtree :
    ∀ (fuel d : Nat) (h : Heap R) (n : Nat) (force : Bool), d < fuel → TreeWithin h d n →
      (∀ m, InTree h n m → (h m).localAutoUpdate = true) →
      (∀ p, (h n).parent = some p → ¬ InTree h n p) →
      ∃ h1, UpdateMatrixWorld fuel h n force = some h1 ∧ SameShape h h1 ∧
        (∀ x, ¬ InTree h n x → h1 x = h x) ∧ (∀ m, InTree h n m → Composed h h1 m) := by
  intro fuel
  induction fuel with
  | zero => intro d h n force hd; cases hd
  | succ fuel ih =>
    intro d h n force hd ht hauto hpar
    obtain ⟨hf, hshape, hframe, hloc, hworld, hdirty⟩ :=
      UpdateMatrixWorld.node_auto h n force (hauto n InTree.root)
    generalize hr : UpdateMatrixWorld.node h n force = r at hf hshape hframe hloc hworld hdirty
    obtain ⟨h2, f2⟩ := r
    simp only at hf hshape hframe hloc hworld hdirty
    subst hf
    -- facts about the children of `n`
    have hkids : ∀ e ∈ (h n).children, ∃ c, e = some c ∧ (h c).parent = some n ∧
        ∃ d1, d1 < fuel ∧ TreeWithin h d1 c := by
      intro e he
      cases d with
      | zero =>
        simp only [TreeWithin] at ht
        rw [ht] at he
        cases he
      | succ d =>
        obtain ⟨c, hc, hp, htc⟩ := ht e he
        exact ⟨c, hc, hp, d, by omega, htc⟩
    have hnil : none ∉ (h n).children := by
      intro hmem
      obtain ⟨c, hc, _⟩ := hkids none hmem
      cases hc
    have hbelow : ∀ c, some c ∈ (h n).children → ¬ InTree h c n := ht.not_below d n
    have hsub : ∀ c, some c ∈ (h n).children → ∀ m, InTree h c m → InTree h n m :=
      fun c hc m hm => InTree.extend (InTree.child InTree.root hc) hm
    -- the loop
    have hloop := UpdateMatrixWorld.children_forced
      (fun g c => UpdateMatrixWorld fuel g c true)
      (fun done g => SameShape h g ∧ (∀ x, ¬ InTree h n x → g x = h x) ∧ g n = h2 n ∧
        ∀ c, some c ∈ done → ∀ m, InTree h c m → Composed h g m)
      (h n).children
      (by
        intro done c rest g hall ⟨gs, gframe, gn, gdone⟩
        have hcmem : some c ∈ (h n).children := by rw [← hall]; simp
        obtain ⟨c1, hc1, hcp, d1, hd1, htc⟩ := hkids _ hcmem
        cases hc1
        have hgin : ∀ m, InTree g c m → InTree h c m := fun m hm => InTree.reshape gs.symm hm
        obtain ⟨g1, hrun, g1s, g1frame, g1good⟩ := ih d1 g c true hd1
          (TreeWithin.transfer gs d1 c htc)
          (fun m hm => by
            rw [(gs m).2.2.2.2.2.2.1]
            exact hauto m (hsub c hcmem m (hgin m hm)))
          (fun p hp hin => by
            rw [gs.parent, hcp] at hp
            cases hp
            exact hbelow c hcmem (hgin _ hin))
        refine ⟨g1, hrun, gs.trans g1s, ?_, ?_, ?_⟩
        · intro x hx
          rw [g1frame x (fun hin => hx (hsub c hcmem x (hgin x hin)))]
          exact gframe x hx
        · rw [g1frame n (fun hin => hbelow c hcmem (hgin n hin))]
          exact gn
        · intro c2 hc2 m hm
          by_cases hin : InTree g c m
          · exact Composed.rebase gs (g1good m hin)
          · have hc2d : some c2 ∈ done := by
              rcases List.mem_append.mp hc2 with hd2 | hd2
              · exact hd2
              · simp only [List.mem_singleton, Option.some.injEq] at hd2
                subst hd2
                exact absurd (InTree.reshape gs hm) hin
            have hold := gdone c2 hc2d m hm
            have hc2mem : some c2 ∈ (h n).children := by
              rw [← hall]; exact List.mem_append_left _ hc2d
            obtain ⟨c3, hc3, hc2p, d2, _, htc2⟩ := hkids _ hc2mem
            cases hc3
            unfold Composed at hold ⊢
            rw [g1frame m hin]
            refine ⟨hold.1, ?_, hold.2.2⟩
            rcases InTree.parent_mem htc2 hm with hmc | ⟨p, hp, _, hmp⟩
            · subst hmc
              rw [hc2p] at hold ⊢
              simp only at hold ⊢
              rw [g1frame n (fun hin2 => hbelow c hcmem (hgin n hin2))]
              exact hold.2.1
            · rw [hp] at hold ⊢
              simp only at hold ⊢
              have hpn : ¬ InTree g c p := fun hin2 =>
                hin (InTree.child hin2 (by rw [gs.children]; exact hmp))
              rw [g1frame p hpn]
              exact hold.2.1)
      hnil (h n).children [] h2 rfl
      ⟨hshape, fun x hx => hframe x (fun hxn => hx (hxn ▸ InTree.root)), rfl,
        fun c hc => by cases hc⟩
    obtain ⟨g1, hrun, gs, gframe, gn, ggood⟩ := hloop
    refine ⟨g1, ?_, gs, gframe, ?_⟩
    · simp only [UpdateMatrixWorld, hr, hshape.children]
      exact hrun
    · intro m hm
      rcases hm.cases_top with hmn | ⟨c, hc, hin⟩
      · subst hmn
        unfold Composed
        rw [gn]
        refine ⟨hloc, ?_, hdirty⟩
        rw [hworld]
        cases hp : (h m).parent with
        | none => rfl
        | some p =>
          simp only
          rw [gframe p (hpar p hp)]
      · exact ggood c hc m hin

/-! ## Add and Remove, one argument at a time -/

/-- A call of `Remove` with several arguments handles the first node and then the rest. -/
theorem Remove_cons_some (h : Heap R) (o obj : Nat) (objs : List (Option Nat)) :
    Remove h o (some obj :: objs) = Remove (Remove h o [some obj]) o objs := by
  simp [Remove]

/-- One call of `Remove` leaves every object but the receiver alone. -/
theorem Remove_single_other (h : Heap R) (o obj : Nat) {x : Nat} (hx : x ≠ o) :
    (Remove h o [some obj]) x = h x := by
  rw [Remove_single]; simp [hx]

/-- One call of `Remove` filters the receiver's children list. -/
theorem Remove_single_children (h : Heap R) (o obj : Nat) :
    ((Remove h o [some obj]) o).children =
      (h o).children.filter (keepChild h (h obj).Id) := by
  rw [Remove_single]; simp

/-- One call of `Remove` keeps every `Id`. -/
theorem Remove_single_id (h : Heap R) (o obj x : Nat) :
    ((Remove h o [some obj]) x).Id = (h x).Id := by
  rw [Remove_single]
  by_cases hx : x = o <;> simp [Heap.set, hx]

/-- One call of `Remove` keeps every parent link, that of the removed node included. -/
theorem Remove_single_parent (h : Heap R) (o obj x : Nat) :
    ((Remove h o [some obj]) x).parent = (h x).parent := by
  rw [Remove_single]
  by_cases hx : x = o <;> simp [Heap.set, hx]

/-- The relinking of `Add` keeps every `Id`. -/
theorem Add.relink_id (h : Heap R) (o obj x : Nat) :
    ((Add.relink h o obj) x).Id = (h x).Id := by
  unfold Add.relink
  cases hp : (h obj).parent with
  | none => by_cases hx : x = obj <;> simp [Heap.set, hx]
  | some p =>
    by_cases hx : x = obj
    · subst hx; simp [Remove_single_id]
    · simp [hx, Remove_single_id]

/-- The relinking of `Add` changes one parent link: that of the argument. -/
theorem Add.relink_parent (h : Heap R) (o obj x : Nat) :
    ((Add.relink h o obj) x).parent = if x = obj then some o else (h x).parent := by
  unfold Add.relink
  cases hp : (h obj).parent with
  | none => by_cases hx : x = obj <;> simp [Heap.set, hx]
  | some p =>
    by_cases hx : x = obj
    · subst hx; simp
    · simp [hx, Remove_single_parent]

/-- The relinking of `Add` filters the children list of the argument's old parent and keeps all
other children lists. -/
theorem Add.relink_children (h : Heap R) (o obj x : Nat) :
    ((Add.relink h o obj) x).children =
      if (h obj).parent = some x then (h x).children.filter (keepChild h (h obj).Id)
      else (h x).children := by
  unfold Add.relink
  cases hp : (h obj).parent with
  | none => by_cases hx : x = obj <;> simp [Heap.set, hx]
  | some p =>
    have key : ((Remove h p [some obj]) x).children =
        if p = x then (h x).children.filter (keepChild h (h obj).Id) else (h x).children := by
      by_cases hpx : p = x
      · subst hpx; simp [Remove_single_children]
      · rw [Remove_single_other h p obj (Ne.symm hpx)]; simp [hpx]
    by_cases hx : x = obj
    · subst hx; simpa using key
    · simpa [hx] using key

/-- The scan of `GetObjectById` over a list without nil entries returns: the first entry
with the wanted `Id`, or nil when no entry has it. -/
theorem GetObjectById.scan_total (h : Heap R) (id : Nat) :
    ∀ cs : List (Option Nat), none ∉ cs →
      (∃ c, some c ∈ cs ∧ (h c).Id = id ∧ GetObjectById.scan h id cs = some (some c)) ∨
      ((∀ c, some c ∈ cs → (h c).Id ≠ id) ∧ GetObjectById.scan h id cs = some none) := by
  intro cs
  induction cs with
  | nil => intro _; right; exact ⟨fun c hc => (by cases hc), rfl⟩
  | cons e cs ih =>
    intro hnil
    have hnil1 : none ∉ cs := fun hm => hnil (List.mem_cons_of_mem _ hm)
    cases e with
    | none => exact absurd (List.mem_cons_self _ _) hnil
    | some c =>
      by_cases hid : (h c).Id = id
      · left
        exact ⟨c, List.mem_cons_self _ _, hid, by simp [GetObjectById.scan, hid]⟩
      · rcases ih hnil1 with ⟨c1, hc1, hid1, hs⟩ | ⟨hall, hs⟩
        · left
          exact ⟨c1, List.mem_cons_of_mem _ hc1, hid1, by simp [GetObjectById.scan, hid, hs]⟩
        · right
          refine ⟨?_, by simp [GetObjectById.scan, hid, hs]⟩
          intro c2 hc2
          rcases List.mem_cons.mp hc2 with heq | hmem
          · cases heq; exact hid
          · exact hall c2 hmem

/-- One call `o.Add(a)` whose receiver has no nil entry left after the relinking: it
returns, and either an entry with the `Id` of `a` is already present and nothing is
appended, or none is and `a` is appended. -/
theorem Add_one (h : Heap R) (o a : Nat) (hnil : none ∉ ((Add.relink h o a) o).children) :
    (Add h o [some a] = some (Add.relink h o a) ∧
      ∃ c, some c ∈ ((Add.relink h o a) o).children ∧ (h c).Id = (h a).Id) ∨
    (Add h o [some a] = some ((Add.relink h o a).set o
        { (Add.relink h o a) o with
          children := ((Add.relink h o a) o).children ++ [some a] }) ∧
      ∀ c, some c ∈ ((Add.relink h o a) o).children → (h c).Id ≠ (h a).Id) := by
  rcases GetObjectById.scan_total (Add.relink h o a) ((Add.relink h o a) a).Id _ hnil with
    ⟨c, hc, hid, hs⟩ | ⟨hall, hs⟩
  · left
    refine ⟨by simp [Add, GetObjectById, hs], c, hc, ?_⟩
    simpa [Add.relink_id] using hid
  · right
    refine ⟨by simp [Add, GetObjectById, hs], ?_⟩
    intro c hc
    simpa [Add.relink_id] using hall c hc

/-! ## Children lists with distinct Ids -/

/-- Distinctness of `Id`s in a list depends on the heap only through the `Id`s. -/
theorem IdsDistinct.congr {h g : Heap R} (hid : ∀ x, (g x).Id = (h x).Id)
    {cs : List (Option Nat)} (d : IdsDistinct h cs) : IdsDistinct g cs := by
  refine ⟨d.1, d.2.imp ?_⟩
  intro x y hxy a b ha hb
  rw [hid a, hid b]
  exact hxy a b ha hb

/-- Filtering keeps a list free of nil and of repeated `Id`s. -/
theorem IdsDistinct.filter {h : Heap R} {cs : List (Option Nat)} (d : IdsDistinct h cs)
    (f : Option Nat → Bool) : IdsDistinct h (cs.filter f) :=
  ⟨fun hm => d.1 (List.mem_of_mem_filter hm), d.2.filter f⟩

/-- Appending a node whose `Id` is new keeps a list free of nil and of repeated `Id`s. -/
theorem IdsDistinct.append_one {h : Heap R} {cs : List (Option Nat)} (d : IdsDistinct h cs)
    (a : Nat) (hnew : ∀ c, some c ∈ cs → (h c).Id ≠ (h a).Id) :
    IdsDistinct h (cs ++ [some a]) := by
  refine ⟨?_, ?_⟩
  · intro hm
    rcases List.mem_append.mp hm with hm1 | hm1
    · exact d.1 hm1
    · simp at hm1
  · rw [List.pairwise_append]
    refine ⟨d.2, List.pairwise_singleton _ _, ?_⟩
    intro x hx y hy c b hc hb
    simp only [List.mem_singleton] at hy
    subst hy
    cases hb
    subst hc
    exact hnew c hx

/-- In a list with distinct `Id`s the filter of `Remove` deletes exactly one entry when
some entry has the `Id`. -/
theorem IdsDistinct.filter_length {h : Heap R} (id : Nat) :
    ∀ {cs : List (Option Nat)}, IdsDistinct h cs → (∃ c, some c ∈ cs ∧ (h c).Id = id) →
      (cs.filter (keepChild h id)).length + 1 = cs.length := by
  intro cs
  induction cs with
  | nil => intro _ ⟨c, hc, _⟩; cases hc
  | cons e cs ih =>
    intro d ⟨c, hc, hid⟩
    have dtail : IdsDistinct h cs :=
      ⟨fun hm => d.1 (List.mem_cons_of_mem _ hm), (List.pairwise_cons.mp d.2).2⟩
    cases e with
    | none => exact absurd (List.mem_cons_self _ _) d.1
    | some e =>
      by_cases he : (h e).Id = id
      · have hall : ∀ x ∈ cs, keepChild h id x = true := by
          intro x hx
          cases x with
          | none => exact absurd hx dtail.1
          | some x =>
            have := (List.pairwise_cons.mp d.2).1 (some x) hx e x rfl rfl
            simp only [keepChild, decide_eq_true_eq]
            intro hxid
            exact this (he.trans hxid.symm)
        rw [List.filter_cons_of_neg (by simp [keepChild, he]), List.filter_eq_self.mpr hall]
        simp
      · have hc1 : some c ∈ cs := by
          rcases List.mem_cons.mp hc with heq | hmem
          · cases heq; exact absurd hid he
          · exact hmem
        rw [List.filter_cons_of_pos (by simp [keepChild, he])]
        simp only [List.length_cons]
        rw [ih dtail ⟨c, hc1, hid⟩]

/-- In a list with distinct `Id`s that holds `a`, the filter of `Remove` for the `Id` of
`a` erases `a` and nothing else. -/
theorem IdsDistinct.filter_eq_erase {h : Heap R} (a : Nat) :
    ∀ {cs : List (Option Nat)}, IdsDistinct h cs → some a ∈ cs →
      cs.filter (keepChild h (h a).Id) = cs.erase (some a) := by
  intro cs
  induction cs with
  | nil => intro _ hc; cases hc
  | cons e cs ih =>
    intro d hmem
    have dtail : IdsDistinct h cs :=
      ⟨fun hm => d.1 (List.mem_cons_of_mem _ hm), (List.pairwise_cons.mp d.2).2⟩
    cases e with
    | none => exact absurd (List.mem_cons_self _ _) d.1
    | some e =>
      by_cases he : (h e).Id = (h a).Id
      · have hea : e = a := by
          rcases List.mem_cons.mp hmem with heq | hm
          · cases heq; rfl
          · exact absurd he ((List.pairwise_cons.mp d.2).1 (some a) hm e a rfl rfl)
        subst hea
        have hall : ∀ x ∈ cs, keepChild h (h e).Id x = true := by
          intro x hx
          cases x with
          | none => exact absurd hx dtail.1
          | some x =>
            have := (List.pairwise_cons.mp d.2).1 (some x) hx e x rfl rfl
            simp only [keepChild, decide_eq_true_eq]
            exact fun hxid => this hxid.symm
        rw [List.filter_cons_of_neg (by simp [keepChild]), List.filter_eq_self.mpr hall]
        simp
      · have hne : e ≠ a := fun hea => he (by rw [hea])
        have hm : some a ∈ cs := by
          rcases List.mem_cons.mp hmem with heq | hm
          · cases heq; exact absurd rfl hne
          · exact hm
        rw [List.filter_cons_of_pos (by simp [keepChild, he]), ih dtail hm,
          List.erase_cons_tail (by simpa using hne)]

/-! ## The invariant of reachable states -/

/-- One call of `Remove` with one argument keeps children lists free of nil and of
repeated `Id`s. -/
theorem Remove_single_distinct {h : Heap R} (inv : ∀ n, IdsDistinct h (h n).children)
    (o obj : Nat) : ∀ n, IdsDistinct (Remove h o [some obj]) ((Remove h o [some obj]) n).children := by
  intro n
  apply IdsDistinct.congr (h := h) (fun x => Remove_single_id h o obj x)
  by_cases hn : n = o
  · subst hn
    rw [Remove_single_children]
    exact (inv n).filter _
  · rw [Remove_single_other h o obj hn]
    exact inv n

/-- Every call of `Remove` keeps children lists free of nil and of repeated `Id`s. -/
theorem Remove_distinct (o : Nat) : ∀ (objs : List (Option Nat)) (h : Heap R),
    (∀ n, IdsDistinct h (h n).children) →
      ∀ n, IdsDistinct (Remove h o objs) ((Remove h o objs) n).children := by
  intro objs
  induction objs with
  | nil => intro h inv; simpa [Remove] using inv
  | cons e objs ih =>
    intro h inv
    cases e with
    | none => simpa [Remove] using ih h inv
    | some obj =>
      rw [Remove_cons_some]
      exact ih _ (Remove_single_distinct inv o obj)

/-- The relinking of `Add` keeps children lists free of nil and of repeated `Id`s. -/
theorem Add.relink_distinct {h : Heap R} (inv : ∀ n, IdsDistinct h (h n).children)
    (o obj : Nat) : ∀ n, IdsDistinct (Add.relink h o obj) ((Add.relink h o obj) n).children := by
  intro n
  apply IdsDistinct.congr (h := h) (fun x => Add.relink_id h o obj x)
  rw [Add.relink_children]
  split
  · exact (inv n).filter _
  · exact inv n

/-- One call `o.Add(a)` from a state whose children lists have no nil entry and no
repeated `Id` returns and leads to such a state. -/
theorem Add_one_distinct {h : Heap R} (inv : ∀ n, IdsDistinct h (h n).children) (o a : Nat) :
    ∃ h1, Add h o [some a] = some h1 ∧ (∀ n, IdsDistinct h1 (h1 n).children) := by
  have inv2 := Add.relink_distinct inv o a
  rcases Add_one h o a (inv2 o).1 with ⟨hrun, _⟩ | ⟨hrun, hnew⟩
  · exact ⟨_, hrun, inv2⟩
  · refine ⟨_, hrun, ?_⟩
    intro n
    have hid : ∀ x, (((Add.relink h o a).set o
        { (Add.relink h o a) o with
          children := ((Add.relink h o a) o).children ++ [some a] }) x).Id =
        ((Add.relink h o a) x).Id := by
      intro x; by_cases hx : x = o <;> simp [Heap.set, hx]
    apply IdsDistinct.congr (h := Add.relink h o a) hid
    by_cases hn : n = o
    · subst hn
      simp only [Heap.set_same]
      apply (inv2 n).append_one
      intro c hc
      rw [Add.relink_id, Add.relink_id]
      exact hnew c hc
    · rw [Heap.set_other _ _ hn]
      exact inv2 n

/-- A call of `Add` with several arguments handles the first node and then the rest. -/
theorem Add_cons_some (h : Heap R) (o a : Nat) (objs : List (Option Nat)) :
    Add h o (some a :: objs) = (Add h o [some a]).bind fun h1 => Add h1 o objs := by
  simp only [Add]
  cases GetObjectById (Add.relink h o a) o ((Add.relink h o a) a).Id with
  | none => rfl
  | some r => cases r <;> rfl

/-- Every call of `Add` from a state whose children lists have no nil entry and no
repeated `Id` returns and leads to such a state. -/
theorem Add_distinct (o : Nat) : ∀ (objs : List (Option Nat)) (h : Heap R),
    (∀ n, IdsDistinct h (h n).children) →
      ∃ h1, Add h o objs = some h1 ∧ ∀ n, IdsDistinct h1 (h1 n).children := by
  intro objs
  induction objs with
  | nil => intro h inv; exact ⟨h, rfl, inv⟩
  | cons e objs ih =>
    intro h inv
    cases e with
    | none => simpa [Add] using ih h inv
    | some a =>
      obtain ⟨h1, hrun, inv1⟩ := Add_one_distinct inv o a
      obtain ⟨h2, hrun2, inv2⟩ := ih h1 inv1
      exact ⟨h2, by rw [Add_cons_some, hrun]; exact hrun2, inv2⟩

/-- In every reachable state no children list has a nil entry or two entries with the
same `Id`. -/
theorem Reachable.distinct {h : Heap R} (r : Reachable h) :
    ∀ n, IdsDistinct h (h n).children := by
  induction r with
  | fresh h hf =>
    intro n
    rw [(hf n).2]
    exact ⟨by simp, List.Pairwise.nil⟩
  | add h h1 o objs _ hrun ih =>
    obtain ⟨h2, hrun2, inv2⟩ := Add_distinct o objs h ih
    rw [hrun] at hrun2
    cases hrun2
    exact inv2
  | remove h o objs _ ih => exact Remove_distinct o objs h ih

/-- After `o.Add(a)` one entry of `o.children` has the `Id` of `a`, and `a.parent = o`. -/
theorem Add_one_present {h h1 : Heap R} {o a : Nat}
    (hnil : none ∉ ((Add.relink h o a) o).children) (hrun : Add h o [some a] = some h1) :
    (h1 a).parent = some o ∧ (∀ x, (h1 x).Id = (h x).Id) ∧
      ∃ c, some c ∈ (h1 o).children ∧ (h1 c).Id = (h1 a).Id := by
  rcases Add_one h o a hnil with ⟨hrun1, c, hc, hid⟩ | ⟨hrun1, _⟩
  · rw [hrun] at hrun1
    cases hrun1
    refine ⟨by simp [Add.relink_parent], fun x => Add.relink_id h o a x, c, hc, ?_⟩
    rw [Add.relink_id, Add.relink_id]
    exact hid
  · rw [hrun] at hrun1
    cases hrun1
    have hid : ∀ x, (((Add.relink h o a).set o
        { (Add.relink h o a) o with
          children := ((Add.relink h o a) o).children ++ [some a] }) x).Id = (h x).Id := by
      intro x
      by_cases hx : x = o
      · subst hx; simp [Add.relink_id]
      · simp [Heap.set, hx, Add.relink_id]
    refine ⟨?_, hid, a, by simp, rfl⟩
    by_cases hao : a = o
    · subst hao; simp [Add.relink_parent]
    · simp [Heap.set, hao, Add.relink_parent]

/-! ## Parent chains -/

/-- A node whose parent is itself never reaches a parentless node. -/
theorem rootWithin_self_parent {h : Heap R} {n : Nat} (hp : (h n).parent = some n) :
    ∀ k, rootWithin h k n = false := by
  intro k
  induction k with
  | zero => simp [rootWithin, hp]
  | succ k ih => simp [rootWithin, hp, ih]

/-- Parent chains that avoid `a` are the same in two heaps that agree on all parent links
except that of `a`. -/
theorem rootWithin_avoid {h h1 : Heap R} {a : Nat}
    (hpar : ∀ x, x ≠ a → (h1 x).parent = (h x).parent) :
    ∀ (k m : Nat), rootWithin h k m = true → ¬ AncestorOrSelf h a m →
      rootWithin h1 k m = true := by
  intro k
  induction k with
  | zero =>
    intro m hm hna
    have hma : m ≠ a := fun e => hna (e ▸ AncestorOrSelf.self)
    simpa [rootWithin, hpar m hma] using hm
  | succ k ih =>
    intro m hm hna
    have hma : m ≠ a := fun e => hna (e ▸ AncestorOrSelf.self)
    simp only [rootWithin, hpar m hma] at hm ⊢
    cases hp : (h m).parent with
    | none => rfl
    | some p =>
      rw [hp] at hm
      exact ih p hm (fun hap => hna (AncestorOrSelf.up hp hap))

/-- Giving `a` the parent `b`, whose own chain is finite and avoids `a`, keeps every parent
chain finite. -/
theorem rootWithin_reparent {h h1 : Heap R} {a b : Nat}
    (hpar : ∀ x, x ≠ a → (h1 x).parent = (h x).parent) (hpa : (h1 a).parent = some b)
    (hb : ∃ k, rootWithin h k b = true) (hab : ¬ AncestorOrSelf h a b) :
    ∀ (k n : Nat), rootWithin h k n = true → ∃ j, rootWithin h1 j n = true := by
  obtain ⟨kb, hkb⟩ := hb
  have hb1 := rootWithin_avoid hpar kb b hkb hab
  intro k
  induction k with
  | zero =>
    intro n hn
    by_cases hna : n = a
    · subst hna
      exact ⟨kb + 1, by simp [rootWithin, hpa, hb1]⟩
    · exact ⟨0, by simpa [rootWithin, hpar n hna] using hn⟩
  | succ k ih =>
    intro n hn
    by_cases hna : n = a
    · subst hna
      exact ⟨kb + 1, by simp [rootWithin, hpa, hb1]⟩
    · simp only [rootWithin] at hn
      cases hp : (h n).parent with
      | none => exact ⟨0, by simp [rootWithin, hpar n hna, hp]⟩
      | some p =>
        rw [hp] at hn
        obtain ⟨j, hj⟩ := ih p hn
        exact ⟨j + 1, by simp [rootWithin, hpar n hna, hp, hj]⟩

/-- When children entries point back to their list's owner, a node reached through
children lists lies strictly deeper than the start. -/
theorem ChildReach.depth {h : Heap R}
    (hwf : ∀ n c, some c ∈ (h n).children → (h c).parent = some n) {n m : Nat}
    (r : ChildReach h n m) :
    ∀ k, rootWithin h k m = true → ∃ j, j < k ∧ rootWithin h j n = true := by
  induction r with
  | child hc =>
    intro k hk
    cases k with
    | zero => simp [rootWithin, hwf _ _ hc] at hk
    | succ k =>
      simp only [rootWithin, hwf _ _ hc] at hk
      exact ⟨k, by omega, hk⟩
  | step hc _ ih =>
    intro k hk
    obtain ⟨j, hj, hjc⟩ := ih k hk
    cases j with
    | zero => simp [rootWithin, hwf _ _ hc] at hjc
    | succ j =>
      simp only [rootWithin, hwf _ _ hc] at hjc
      exact ⟨j, by omega, hjc⟩

/-- With finite parent chains and children entries that point back, no node is reached
from itself through children lists. -/
theorem ChildReach.irrefl {h : Heap R}
    (hwf : ∀ n c, some c ∈ (h n).children → (h c).parent = some n)
    (hfin : ∀ n, ∃ k, rootWithin h k n = true) (n : Nat) : ¬ ChildReach h n n := by
  intro r
  obtain ⟨k, hk⟩ := hfin n
  induction k using Nat.strong_induction_on with
  | _ k ih =>
    obtain ⟨j, hj, hjn⟩ := r.depth hwf k hk
    exact ih j hj hjn

/-- The links after one `b.Add(a)` in a state whose children lists have no nil entry and
whose children entries point back to their list's owner. -/
theorem Add_one_links (h : Heap R) (a b : Nat) (hnil : ∀ n, none ∉ (h n).children)
    (hwf : ∀ n c, some c ∈ (h n).children → (h c).parent = some n) :
    ∃ h1, Add h b [some a] = some h1 ∧
      (∀ x, (h1 x).parent = if x = a then some b else (h x).parent) ∧
      (∀ n c, some c ∈ (h1 n).children →
        (c = a ∧ n = b) ∨ (c ≠ a ∧ some c ∈ (h n).children)) ∧
      (∀ n, none ∉ (h1 n).children) := by
  have hsub : ∀ n e, e ∈ ((Add.relink h b a) n).children → e ∈ (h n).children := by
    intro n e he
    rw [Add.relink_children] at he
    split at he
    · exact List.mem_of_mem_filter he
    · exact he
  have hnoa : ∀ n, some a ∉ ((Add.relink h b a) n).children := by
    intro n he
    have hp := hwf n a (hsub n _ he)
    rw [Add.relink_children, if_pos hp] at he
    have := (List.mem_filter.mp he).2
    simp [keepChild] at this
  have hkid : ∀ n c, some c ∈ ((Add.relink h b a) n).children →
      c ≠ a ∧ some c ∈ (h n).children := by
    intro n c hc
    refine ⟨fun hca => hnoa n (hca ▸ hc), hsub n _ hc⟩
  have hnil2 : ∀ n, none ∉ ((Add.relink h b a) n).children := fun n he => hnil n (hsub n _ he)
  rcases Add_one h b a (hnil2 b) with ⟨hrun, _⟩ | ⟨hrun, _⟩
  · exact ⟨_, hrun, fun x => Add.relink_parent h b a x, fun n c hc => Or.inr (hkid n c hc),
      hnil2⟩
  · refine ⟨_, hrun, ?_, ?_, ?_⟩
    · intro x
      by_cases hx : x = b
      · subst hx; simp [Add.relink_parent]
      · rw [Heap.set_other _ _ hx, Add.relink_parent]
    · intro n c hc
      by_cases hn : n = b
      · subst hn
        simp only [Heap.set_same, List.mem_append, List.mem_singleton, Option.some.injEq] at hc
        rcases hc with hc | hc
        · exact Or.inr (hkid n c hc)
        · exact Or.inl ⟨hc, rfl⟩
      · rw [Heap.set_other _ _ hn] at hc
        exact Or.inr (hkid n c hc)
    · intro n
      by_cases hn : n = b
      · subst hn
        simp only [Heap.set_same, List.mem_append, List.mem_singleton, not_or]
        exact ⟨hnil2 n, by simp⟩
      · rw [Heap.set_other _ _ hn]
        exact hnil2 n

/-- Every node from which the parent chain leads to a node `a` that has a parent whose
own chain leads back to `a` never reaches a parentless node. -/
theorem rootWithin_on_cycle {h : Heap R} {a b : Nat} (hpa : (h a).parent = some b)
    (hba : AncestorOrSelf h a b) :
    ∀ (k m : Nat), AncestorOrSelf h a m → rootWithin h k m = false := by
  intro k
  induction k with
  | zero =>
    intro m hm
    cases hm with
    | self => simp [rootWithin, hpa]
    | up hp _ => simp [rootWithin, hp]
  | succ k ih =>
    intro m hm
    cases hm with
    | self => simp [rootWithin, hpa, ih b hba]
    | up hp hrest => simp [rootWithin, hp, ih _ hrest]

/-- A parent chain that leads to `a` still does so after the parent link of `a` alone
has changed. -/
theorem AncestorOrSelf.reparent {h h1 : Heap R} {a : Nat}
    (hpar : ∀ x, x ≠ a → (h1 x).parent = (h x).parent) {m : Nat}
    (r : AncestorOrSelf h a m) : AncestorOrSelf h1 a m := by
  induction r with
  | self => exact AncestorOrSelf.self
  | @up x p hp _ ih =>
    by_cases hx : x = a
    · subst hx; exact AncestorOrSelf.self
    · exact AncestorOrSelf.up (by rw [hpar x hx]; exact hp) ih

/-- Method `Add` has no ancestor check: when `b` is `a` or a descendant of `a`, the call
`b.Add(a)` returns with `a.parent = b`, and the parent chain of `a` never ends. -/
theorem Add_inside_subtree_cycles (h : Heap R) (a b : Nat)
    (hnil : ∀ n, none ∉ (h n).children)
    (hwf : ∀ n c, some c ∈ (h n).children → (h c).parent = some n)
    (hab : AncestorOrSelf h a b) :
    ∃ h1, Add h b [some a] = some h1 ∧ (h1 a).parent = some b ∧
      ∀ k, rootWithin h1 k a = false := by
  obtain ⟨h1, hrun, hpar, _, _⟩ := Add_one_links h a b hnil hwf
  have hpar1 : ∀ x, x ≠ a → (h1 x).parent = (h x).parent := fun x hx => by
    rw [hpar x, if_neg hx]
  have hpa : (h1 a).parent = some b := by rw [hpar a, if_pos rfl]
  exact ⟨h1, hrun, hpa, fun k =>
    rootWithin_on_cycle hpa (hab.reparent hpar1) k a AncestorOrSelf.self⟩

/-! ## Rotation order -/

/-- Method `RotateOnLocalAxis` stores `q * r` and `RotateOnWorldAxis` stores `r * q`, where `r`
is the rotation before the call and `q` the quaternion of the axis and angle. -/
theorem rotate_quat (sin cos : R → R) (h : Heap R) (o : Nat) (axis : Vector3 R) (angle : R) :
    ((RotateOnLocalAxis sin cos h o axis angle) o).Quat =
        Quaternion.MultiplyQuaternions (Quaternion.SetFromAxisAngle sin cos axis angle)
          (h o).Quat ∧
      ((RotateOnWorldAxis sin cos h o axis angle) o).Quat =
        Quaternion.MultiplyQuaternions (h o).Quat
          (Quaternion.SetFromAxisAngle sin cos axis angle) := by
  simp [RotateOnLocalAxis, RotateOnWorldAxis]

/-- Library convention: applying the product `a * b` to a vector applies `b` first and
`a` second.  So `r * q` turns the node about its own axis (the rotation `q` acts before
the orientation `r`), and `q * r` turns it about the axis of the parent frame. -/
theorem Vector3.applyQuaternion_mul (v : Vector3 R) (a b : Quaternion R) :
    v.ApplyQuaternion (Quaternion.MultiplyQuaternions a b) =
      (v.ApplyQuaternion b).ApplyQuaternion a := by
  simp only [Vector3.ApplyQuaternion, Quaternion.MultiplyQuaternions, Vector3.mk.injEq]
  refine ⟨?_, ?_, ?_⟩ <;> ring

/-! ## The chain scenario -/

/-- The zero matrix times any matrix is the zero matrix. -/
theorem Matrix4.zero_mul (m : Matrix4 R) :
    Matrix4.MultiplyMatrices Matrix4.zero m = Matrix4.zero := by
  simp [Matrix4.MultiplyMatrices, Matrix4.zero]

/-- The zero quaternion sends every vector to the zero vector. -/
theorem Vector3.applyQuaternion_zero (v : Vector3 R) :
    v.ApplyQuaternion Quaternion.zero = Vector3.zero := by
  simp [Vector3.ApplyQuaternion, Quaternion.zero, Vector3.zero]

/-! ## Sample heaps -/

/-- The nodes of `freshWithIds` have no parent and no children. -/
theorem freshWithIds_fresh (n : Nat) :
    (freshWithIds n).parent = none ∧ (freshWithIds n).children = [] := ⟨rfl, rfl⟩

/-- The sample heap `family` holds a tree of height 2 below node 0. -/
theorem family_tree : TreeWithin family 2 0 := by
  simp [TreeWithin, family, NewObject, Object.zero]

/-- Every node of `family` has both auto-update flags set. -/
theorem family_auto (n : Nat) :
    (family n).localAutoUpdate = true ∧ (family n).worldAutoUpdate = true := by
  unfold family
  split <;> simp [NewObject]

/-- On the sample tree `family`, whose root has its flags set and whose translated nodes
carry the identity rotation, the update pass puts node 3 at world position (1, 1, 0). -/
theorem family_world_position :
    (UpdateMatrixWorld 3 family 0 false).map
        (fun h => ((h 3).World.m12, (h 3).World.m13, (h 3).World.m14)) =
      some (1, 1, 0) := by
  simp [family, NewObject, Object.zero, Heap.set, UpdateMatrixWorld, UpdateMatrixWorld.node,
    UpdateMatrixWorld.children, UpdateMatrix, setWorld, Matrix4.Compose,
    Matrix4.MakeRotationFromQuaternion, Matrix4.Scale, Matrix4.SetPosition,
    Matrix4.MultiplyMatrices, Quaternion.zero, Vector3.zero, Matrix4.zero]

/-! ## The pull update along a parent chain -/

/-- The receiver's own part of `UpdateWorldMatrix` touches the receiver only and keeps
the shape. -/
theorem UpdateWorldMatrix.node_frame (h : Heap R) (n : Nat) (parent : Option Nat) :
    SameShape h (UpdateWorldMatrix.node h n parent) ∧
      ∀ x, x ≠ n → (UpdateWorldMatrix.node h n parent) x = h x := by
  unfold UpdateWorldMatrix.node
  constructor
  · intro x
    by_cases hx : x = n
    · subst hx
      cases parent <;> cases hl : (h x).localAutoUpdate <;> simp [setWorld, UpdateMatrix, hl]
    · cases parent <;> cases hl : (h n).localAutoUpdate <;>
        simp [setWorld, UpdateMatrix, hl, hx]
  · intro x hx
    cases parent <;> cases hl : (h n).localAutoUpdate <;> simp [setWorld, UpdateMatrix, hl, hx]

/-- After the receiver's own part of `UpdateWorldMatrix`, run with the receiver's parent
link, the receiver is settled, provided it is not its own parent. -/
theorem UpdateWorldMatrix.node_settled (h : Heap R) (n : Nat)
    (hself : (h n).parent ≠ some n) :
    nodeSettled (UpdateWorldMatrix.node h n (h n).parent) n := by
  unfold nodeSettled UpdateWorldMatrix.node
  cases hp : (h n).parent with
  | none =>
    cases hl : (h n).localAutoUpdate <;> simp [setWorld, UpdateMatrix, hl, hp]
  | some p =>
    have hpn : p ≠ n := fun e => hself (by rw [hp, e])
    cases hl : (h n).localAutoUpdate <;> simp [setWorld, UpdateMatrix, hl, hp, hpn]

/-- Writing the stored world matrix back changes nothing. -/
theorem Object.world_write_back (o : Object R) (w : Matrix4 R) (hw : o.World = w) :
    ({ o with World := w } : Object R) = o := by
  cases o
  simp only at hw
  simp [hw]

/-- A settled node is a fixed point of the receiver's own part of `UpdateWorldMatrix`. -/
theorem UpdateWorldMatrix.node_fixed (g : Heap R) (n : Nat) (hs : nodeSettled g n) :
    UpdateWorldMatrix.node g n (g n).parent = g := by
  obtain ⟨hloc, hworld⟩ := hs
  have hum : (if (g n).localAutoUpdate = true then UpdateMatrix g n else g) = g := by
    cases hl : (g n).localAutoUpdate with
    | false => simp
    | true =>
      obtain ⟨hL, hD⟩ := hloc hl
      simp only [if_true]
      funext y
      by_cases hy : y = n
      · subst hy
        simp only [UpdateMatrix, Heap.set_same]
        rw [← hL, ← hD]
      · simp [UpdateMatrix, hy]
  unfold UpdateWorldMatrix.node
  simp only [hum]
  funext x
  by_cases hx : x = n
  · subst hx
    cases hp : (g x).parent with
    | none =>
      rw [hp] at hworld
      simp only [setWorld, Heap.set_same]
      exact Object.world_write_back _ _ hworld
    | some p =>
      rw [hp] at hworld
      simp only [setWorld, Heap.set_same]
      exact Object.world_write_back _ _ hworld
  · cases hp : (g n).parent <;> simp [setWorld, hx]

/-- One step of the pull update `UpdateWorldMatrix(true, false)`. -/
theorem UpdateWorldMatrix.pull_step (fuel : Nat) (h : Heap R) (n : Nat) :
    UpdateWorldMatrix (fuel + 1) h n true false =
      match (h n).parent with
      | none => some (UpdateWorldMatrix.node h n none)
      | some p =>
        if (h p).worldAutoUpdate = true then
          (UpdateWorldMatrix fuel h p true false).map
            (fun h1 => UpdateWorldMatrix.node h1 n (some p))
        else some (UpdateWorldMatrix.node h n (some p)) := by
  simp only [UpdateWorldMatrix]
  cases hp : (h n).parent with
  | none => simp
  | some p =>
    by_cases hw : (h p).worldAutoUpdate = true
    · simp only [hw, Bool.and_self, if_true]
      cases UpdateWorldMatrix fuel h p true false <;> rfl
    · simp [hw]

/-- A parent chain that ends within `k` links ends within `k + 1` links. -/
theorem rootWithin_succ {h : Heap R} : ∀ (k n : Nat), rootWithin h k n = true →
    rootWithin h (k + 1) n = true := by
  intro k
  induction k with
  | zero =>
    intro n hn
    simp only [rootWithin] at hn ⊢
    cases hp : (h n).parent with
    | none => rfl
    | some p => simp [hp] at hn
  | succ k ih =>
    intro n hn
    rw [rootWithin] at hn ⊢
    cases hp : (h n).parent with
    | none => rfl
    | some p =>
      rw [hp] at hn
      exact ih p hn

/-- The chain of an ancestor ends no later than that of the node. -/
theorem AncestorOrSelf.rootWithin {h : Heap R} {a m : Nat} (r : AncestorOrSelf h a m) :
    ∀ k, rootWithin h k m = true → rootWithin h k a = true := by
  induction r with
  | self => exact fun _ hk => hk
  | @up b p hp _ ih =>
    intro k hk
    cases k with
    | zero => simp [Obj.rootWithin, hp] at hk
    | succ k =>
      simp only [Obj.rootWithin, hp] at hk
      exact rootWithin_succ k a (ih k hk)

/-- On a finite parent chain no node lies on the chain of its own parent. -/
theorem rootWithin_not_above {h : Heap R} : ∀ (k n p : Nat), rootWithin h k n = true →
    (h n).parent = some p → ¬ AncestorOrSelf h n p := by
  intro k
  induction k with
  | zero =>
    intro n p hn hp
    simp [rootWithin, hp] at hn
  | succ k ih =>
    intro n p hn hp hanc
    simp only [rootWithin, hp] at hn
    exact ih n p (hanc.rootWithin k hn) hp hanc

/-- Lying on a parent chain depends on the shape only. -/
theorem AncestorOrSelf.of_shape {h g : Heap R} (s : SameShape h g) {a m : Nat}
    (r : AncestorOrSelf h a m) : AncestorOrSelf g a m := by
  induction r with
  | self => exact AncestorOrSelf.self
  | up hp _ ih => exact AncestorOrSelf.up (by rw [s.parent]; exact hp) ih

/-- The length of a parent chain depends on the shape only. -/
theorem rootWithin_reshape {h g : Heap R} (s : SameShape h g) :
    ∀ (k n : Nat), rootWithin g k n = rootWithin h k n := by
  intro k
  induction k with
  | zero => intro n; simp [rootWithin, s.parent]
  | succ k ih =>
    intro n
    simp only [rootWithin, s.parent]
    cases (h n).parent with
    | none => rfl
    | some p => exact ih p

/-- Whenever the pull update `UpdateWorldMatrix(true, false)` returns, the shape is kept
and every node that is neither the receiver nor on its parent chain is untouched. -/
theorem UpdateWorldMatrix.pull_frame : ∀ (fuel : Nat) (h : Heap R) (n : Nat) (h1 : Heap R),
    UpdateWorldMatrix fuel h n true false = some h1 →
      SameShape h h1 ∧ ∀ x, ¬ AncestorOrSelf h x n → h1 x = h x := by
  intro fuel
  induction fuel with
  | zero => intro h n h1 hrun; simp [UpdateWorldMatrix] at hrun
  | succ fuel ih =>
    intro h n h1 hrun
    rw [UpdateWorldMatrix.pull_step] at hrun
    have hnode : ∀ (g : Heap R) (par : Option Nat), SameShape h g →
        (∀ x, ¬ AncestorOrSelf h x n → g x = h x) →
        SameShape h (UpdateWorldMatrix.node g n par) ∧
          ∀ x, ¬ AncestorOrSelf h x n → (UpdateWorldMatrix.node g n par) x = h x := by
      intro g par gs gf
      obtain ⟨ns, nf⟩ := UpdateWorldMatrix.node_frame g n par
      refine ⟨gs.trans ns, fun x hx => ?_⟩
      rw [nf x (fun e => hx (e ▸ AncestorOrSelf.self))]
      exact gf x hx
    cases hp : (h n).parent with
    | none =>
      rw [hp] at hrun
      cases hrun
      exact hnode h none (SameShape.refl h) (fun _ _ => rfl)
    | some p =>
      rw [hp] at hrun
      by_cases hw : (h p).worldAutoUpdate = true
      · simp only [hw, if_true] at hrun
        cases hg : UpdateWorldMatrix fuel h p true false with
        | none => rw [hg] at hrun; cases hrun
        | some g =>
          rw [hg] at hrun
          cases hrun
          obtain ⟨gs, gf⟩ := ih h p g hg
          exact hnode g (some p) gs
            (fun x hx => gf x (fun hxp => hx (AncestorOrSelf.up hp hxp)))
      · simp only [hw, if_false] at hrun
        cases hrun
        exact hnode h (some p) (SameShape.refl h) (fun _ _ => rfl)

/-- Being settled depends only on the nodes of the parent chain. -/
theorem Settled.agree {g g1 : Heap R} : ∀ (k p : Nat),
    (∀ x, AncestorOrSelf g x p → g1 x = g x) → Settled g k p → Settled g1 k p := by
  have hnode : ∀ p, (∀ x, AncestorOrSelf g x p → g1 x = g x) → nodeSettled g p →
      nodeSettled g1 p := by
    intro p hag hs
    unfold nodeSettled at hs ⊢
    rw [hag p AncestorOrSelf.self]
    refine ⟨hs.1, ?_⟩
    cases hp : (g p).parent with
    | none => have := hs.2; rw [hp] at this; exact this
    | some q =>
      have := hs.2
      rw [hp] at this
      simp only at this ⊢
      rw [hag q (AncestorOrSelf.up hp AncestorOrSelf.self)]
      exact this
  intro k
  induction k with
  | zero => intro p hag hs; exact hnode p hag hs
  | succ k ih =>
    intro p hag hs
    refine ⟨hnode p hag hs.1, ?_⟩
    intro q hq hw
    rw [hag p AncestorOrSelf.self] at hq
    rw [hag q (AncestorOrSelf.up hq AncestorOrSelf.self)] at hw
    exact ih q (fun x hx => hag x (AncestorOrSelf.up hq hx)) (hs.2 q hq hw)

/-- On a parent chain that ends within `k` links, the pull update
`UpdateWorldMatrix(true, false)` returns for every recursion budget above `k` and leaves
the receiver and the ancestors it visits settled. -/
theorem UpdateWorldMatrix.pull_settles : ∀ (k fuel : Nat) (h : Heap R) (n : Nat),
    rootWithin h k n = true → k < fuel →
      ∃ h1, UpdateWorldMatrix fuel h n true false = some h1 ∧ Settled h1 k n := by
  intro k
  induction k with
  | zero =>
    intro fuel h n hk hf
    obtain ⟨f, rfl⟩ : ∃ f, fuel = f + 1 := ⟨fuel - 1, by omega⟩
    have hp : (h n).parent = none := by simpa [rootWithin] using hk
    refine ⟨_, by rw [UpdateWorldMatrix.pull_step, hp], ?_⟩
    have := UpdateWorldMatrix.node_settled h n (by rw [hp]; simp)
    rw [hp] at this
    exact this
  | succ k ih =>
    intro fuel h n hk hf
    obtain ⟨f, rfl⟩ : ∃ f, fuel = f + 1 := ⟨fuel - 1, by omega⟩
    cases hp : (h n).parent with
    | none =>
      refine ⟨_, by rw [UpdateWorldMatrix.pull_step, hp], ?_⟩
      have hs := UpdateWorldMatrix.node_settled h n (by rw [hp]; simp)
      rw [hp] at hs
      refine ⟨hs, ?_⟩
      intro q hq
      rw [(UpdateWorldMatrix.node_frame h n none).1.parent, hp] at hq
      cases hq
    | some p =>
      have hkp : rootWithin h k p = true := by simpa [rootWithin, hp] using hk
      have hnp : ¬ AncestorOrSelf h n p := rootWithin_not_above (k + 1) n p hk hp
      have hpn : p ≠ n := fun e => hnp (e ▸ AncestorOrSelf.self)
      by_cases hw : (h p).worldAutoUpdate = true
      · obtain ⟨g, hg, gset⟩ := ih f h p hkp (by omega)
        obtain ⟨gs, gf⟩ := UpdateWorldMatrix.pull_frame f h p g hg
        have gn : g n = h n := gf n hnp
        have gpar : (g n).parent = some p := by rw [gn, hp]
        refine ⟨UpdateWorldMatrix.node g n (some p), ?_, ?_⟩
        · rw [UpdateWorldMatrix.pull_step, hp]
          simp only [hw, if_true, hg, Option.map_some']
        · obtain ⟨ns, nf⟩ := UpdateWorldMatrix.node_frame g n (some p)
          have hs := UpdateWorldMatrix.node_settled g n (by rw [gpar]; simpa using hpn)
          rw [gpar] at hs
          refine ⟨hs, ?_⟩
          intro q hq _
          rw [ns.parent, gpar] at hq
          cases hq
          apply Settled.agree k p _ gset
          intro x hx
          exact nf x (fun e => hnp (e ▸ hx.of_shape gs.symm))
      · refine ⟨UpdateWorldMatrix.node h n (some p), ?_, ?_⟩
        · rw [UpdateWorldMatrix.pull_step, hp]
          simp only []
          rw [if_neg hw]
        · obtain ⟨ns, nf⟩ := UpdateWorldMatrix.node_frame h n (some p)
          have hs := UpdateWorldMatrix.node_settled h n (by rw [hp]; simpa using hpn)
          rw [hp] at hs
          refine ⟨hs, ?_⟩
          intro q hq hwq
          rw [ns.parent, hp] at hq
          cases hq
          rw [nf p hpn] at hwq
          exact absurd hwq hw

/-- A settled chain is a fixed point of the pull update. -/
theorem UpdateWorldMatrix.pull_fixed : ∀ (k fuel : Nat) (g : Heap R) (n : Nat),
    rootWithin g k n = true → k < fuel → Settled g k n →
      UpdateWorldMatrix fuel g n true false = some g := by
  intro k
  induction k with
  | zero =>
    intro fuel g n hk hf hs
    obtain ⟨f, rfl⟩ : ∃ f, fuel = f + 1 := ⟨fuel - 1, by omega⟩
    have hp : (g n).parent = none := by simpa [rootWithin] using hk
    have hfix := UpdateWorldMatrix.node_fixed g n hs
    rw [hp] at hfix
    rw [UpdateWorldMatrix.pull_step, hp]
    simp only [hfix]
  | succ k ih =>
    intro fuel g n hk hf hs
    obtain ⟨f, rfl⟩ : ∃ f, fuel = f + 1 := ⟨fuel - 1, by omega⟩
    have hfix := UpdateWorldMatrix.node_fixed g n hs.1
    rw [UpdateWorldMatrix.pull_step]
    cases hp : (g n).parent with
    | none =>
      rw [hp] at hfix
      simp only [hfix]
    | some p =>
      rw [hp] at hfix
      have hkp : rootWithin g k p = true := by simpa [rootWithin, hp] using hk
      by_cases hw : (g p).worldAutoUpdate = true
      · simp only [hw, if_true, ih f g p hkp (by omega) (hs.2 p hp hw), Option.map_some',
          hfix]
      · simp only []
        rw [if_neg hw, hfix]

/-- The product of composed local matrices depends on the shape only. -/
theorem composedWorld_reshape {h g : Heap R} (s : SameShape h g) :
    ∀ (k n : Nat), composedWorld g k n = composedWorld h k n := by
  intro k
  induction k with
  | zero =>
    intro n
    obtain ⟨_, s2, _, s4, _⟩ := s n
    simp [composedWorld, s2, s4]
  | succ k ih =>
    intro n
    obtain ⟨_, s2, _, s4, s5, _⟩ := s n
    simp only [composedWorld, s2, s4, s5]
    cases (h n).parent with
    | none => rfl
    | some p => simp only [ih p]

/-- On a settled chain all of whose nodes have both auto-update flags set, every node has
its composed local matrix and the product of the composed matrices from the top of the
chain down to it as world matrix. -/
theorem Settled.composed {g : Heap R} : ∀ (k n : Nat), rootWithin g k n = true →
    Settled g k n →
    (∀ m, AncestorOrSelf g m n →
      (g m).localAutoUpdate = true ∧ (g m).worldAutoUpdate = true) →
    ∀ m, AncestorOrSelf g m n →
      (g m).Local = Matrix4.Compose (g m).Pos (g m).Quat ⟨1, 1, 1⟩ ∧
        ∀ j, rootWithin g j m = true → (g m).World = composedWorld g j m := by
  intro k
  induction k with
  | zero =>
    intro n hk hs hauto m hm
    have hp : (g n).parent = none := by simpa [rootWithin] using hk
    cases hm with
    | up hq _ => rw [hp] at hq; cases hq
    | self =>
      obtain ⟨hloc, hworld⟩ := hs
      obtain ⟨hL, _⟩ := hloc (hauto n AncestorOrSelf.self).1
      refine ⟨hL, fun j _ => ?_⟩
      rw [hp] at hworld
      simp only at hworld
      rw [hworld, hL]
      cases j <;> simp [composedWorld, hp]
  | succ k ih =>
    intro n hk hs hauto m hm
    have hbelow : ∀ p, (g n).parent = some p → ∀ m, AncestorOrSelf g m p →
        (g m).Local = Matrix4.Compose (g m).Pos (g m).Quat ⟨1, 1, 1⟩ ∧
          ∀ j, rootWithin g j m = true → (g m).World = composedWorld g j m := by
      intro p hp
      have hkp : rootWithin g k p = true := by simpa [rootWithin, hp] using hk
      exact ih p hkp
        (hs.2 p hp (hauto p (AncestorOrSelf.up hp AncestorOrSelf.self)).2)
        (fun x hx => hauto x (AncestorOrSelf.up hp hx))
    cases hm with
    | up hq hrest => exact hbelow _ hq m hrest
    | self =>
      obtain ⟨hloc, hworld⟩ := hs.1
      obtain ⟨hL, _⟩ := hloc (hauto n AncestorOrSelf.self).1
      refine ⟨hL, fun j hj => ?_⟩
      cases hp : (g n).parent with
      | none =>
        rw [hp] at hworld
        simp only at hworld
        rw [hworld, hL]
        cases j <;> simp [composedWorld, hp]
      | some p =>
        rw [hp] at hworld
        simp only at hworld
        cases j with
        | zero => simp [rootWithin, hp] at hj
        | succ j =>
          have hjp : rootWithin g j p = true := by simpa [rootWithin, hp] using hj
          rw [hworld, hL, ((hbelow p hp p AncestorOrSelf.self).2 j hjp)]
          simp [composedWorld, hp]

/-! ## The inverse and the coordinate changes -/

set_option maxHeartbeats 1600000 in
/-- For an invertible matrix with fourth row (0, 0, 0, 1), applying the inverse and then
the matrix gives the vector back. -/
theorem Vector3.applyMatrix4_inverse_then [DecidableEq R] (m : Matrix4 R) (v : Vector3 R)
    (ha : m.Affine) (hd : Matrix4.det m ≠ 0) :
    (v.ApplyMatrix4 (Matrix4.GetInverse m)).ApplyMatrix4 m = v := by
  obtain ⟨m0, m1, m2, m3, m4, m5, m6, m7, m8, m9, m10, m11, m12, m13, m14, m15⟩ := m
  obtain ⟨x, y, z⟩ := v
  obtain ⟨h3, h7, h11, h15⟩ := ha
  simp only at h3 h7 h11 h15
  subst h3 h7 h11 h15
  have hd2 := hd
  simp only [Matrix4.det] at hd2
  have hdet := mul_one_div_cancel hd2
  simp only [Matrix4.GetInverse, if_neg hd2, Vector3.ApplyMatrix4, Vector3.mk.injEq]
  generalize (1 : R) / _ = d at hdet ⊢
  refine ⟨?_, ?_, ?_⟩
  · linear_combination (x - m12) * hdet
  · linear_combination (y - m13) * hdet
  · linear_combination (z - m14) * hdet

set_option maxHeartbeats 1600000 in
/-- For an invertible matrix with fourth row (0, 0, 0, 1), applying the matrix and then
the inverse gives the vector back. -/
theorem Vector3.applyMatrix4_then_inverse [DecidableEq R] (m : Matrix4 R) (v : Vector3 R)
    (ha : m.Affine) (hd : Matrix4.det m ≠ 0) :
    (v.ApplyMatrix4 m).ApplyMatrix4 (Matrix4.GetInverse m) = v := by
  obtain ⟨m0, m1, m2, m3, m4, m5, m6, m7, m8, m9, m10, m11, m12, m13, m14, m15⟩ := m
  obtain ⟨x, y, z⟩ := v
  obtain ⟨h3, h7, h11, h15⟩ := ha
  simp only at h3 h7 h11 h15
  subst h3 h7 h11 h15
  have hd2 := hd
  simp only [Matrix4.det] at hd2
  have hdet := mul_one_div_cancel hd2
  simp only [Matrix4.GetInverse, if_neg hd2, Vector3.ApplyMatrix4, Vector3.mk.injEq]
  generalize (1 : R) / _ = d at hdet ⊢
  refine ⟨?_, ?_, ?_⟩
  · linear_combination x * hdet
  · linear_combination y * hdet
  · linear_combination z * hdet

set_option maxHeartbeats 1600000 in
/-- The transcribed `GetInverse` is a two-sided inverse for `MultiplyMatrices` whenever the
determinant is not zero. -/
theorem Matrix4.mul_getInverse [DecidableEq R] (m : Matrix4 R) (hd : Matrix4.det m ≠ 0) :
    Matrix4.MultiplyMatrices m (Matrix4.GetInverse m) = Matrix4.Identity ∧
    Matrix4.MultiplyMatrices (Matrix4.GetInverse m) m = Matrix4.Identity := by
  obtain ⟨m0, m1, m2, m3, m4, m5, m6, m7, m8, m9, m10, m11, m12, m13, m14, m15⟩ := m
  have hd2 := hd
  simp only [Matrix4.det] at hd2
  have hdet := mul_one_div_cancel hd2
  simp only [Matrix4.GetInverse, if_neg hd2, Matrix4.MultiplyMatrices, Matrix4.Identity,
    Matrix4.mk.injEq]
  generalize (1 : R) / _ = d at hdet ⊢
  refine ⟨⟨?_, ?_, ?_, ?_, ?_, ?_, ?_, ?_, ?_, ?_, ?_, ?_, ?_, ?_, ?_, ?_⟩,
    ⟨?_, ?_, ?_, ?_, ?_, ?_, ?_, ?_, ?_, ?_, ?_, ?_, ?_, ?_, ?_, ?_⟩⟩ <;>
    first | ring1 | linear_combination hdet

/-- A composed local matrix has fourth row (0, 0, 0, 1). -/
theorem Matrix4.compose_affine (p : Vector3 R) (q : Quaternion R) (s : Vector3 R) :
    (Matrix4.Compose p q s).Affine := by
  simp [Matrix4.Affine, Matrix4.Compose, Matrix4.MakeRotationFromQuaternion, Matrix4.Scale,
    Matrix4.SetPosition]

/-- The product of two matrices with fourth row (0, 0, 0, 1) has that fourth row. -/
theorem Matrix4.mul_affine {a b : Matrix4 R} (ha : a.Affine) (hb : b.Affine) :
    (Matrix4.MultiplyMatrices a b).Affine := by
  obtain ⟨a3, a7, a11, a15⟩ := ha
  obtain ⟨b3, b7, b11, b15⟩ := hb
  simp [Matrix4.Affine, Matrix4.MultiplyMatrices, a3, a7, a11, a15, b3, b7, b11, b15]

/-- Every product of composed local matrices has fourth row (0, 0, 0, 1): so has the world
matrix that a pull update leaves on a chain with all auto-update flags set. -/
theorem composedWorld_affine (h : Heap R) : ∀ (k n : Nat), (composedWorld h k n).Affine := by
  intro k
  induction k with
  | zero => intro n; exact Matrix4.compose_affine _ _ _
  | succ k ih =>
    intro n
    simp only [composedWorld]
    cases (h n).parent with
    | none => exact Matrix4.compose_affine _ _ _
    | some p => exact Matrix4.mul_affine (ih p) (Matrix4.compose_affine _ _ _)

/-! ## Passes over a tree -/

/-- The postcondition of a pass at a node depends on the node itself and on the world
matrix of its parent only. -/
theorem Passed.stable {lo dirty : Bool} {h g g1 : Heap R} {m : Nat} (hm : g1 m = g m)
    (hp : ∀ p, (h m).parent = some p → g1 p = g p) (c : Passed lo dirty h g m) :
    Passed lo dirty h g1 m := by
  unfold Passed at c ⊢
  rw [hm]
  refine ⟨c.1, ?_, c.2.2⟩
  cases hpar : (h m).parent with
  | none => have := c.2.1; rw [hpar] at this; exact this
  | some p =>
    have := c.2.1
    rw [hpar] at this
    simp only at this ⊢
    rw [hp p hpar]
    exact this

/-- The postcondition of a pass depends on its reference heap through the shape only. -/
theorem Passed.rebase_shape {lo dirty : Bool} {h g k : Heap R} (s : SameShape h g) {m : Nat}
    (c : Passed lo dirty g k m) : Passed lo dirty h k m := by
  obtain ⟨_, s2, _, s4, s5, _, _, _⟩ := s m
  unfold Passed at c ⊢
  rw [← s2, ← s4, ← s5]
  exact c

/-- The loop invariant holds before the first child is visited. -/
theorem PassInv.start (P : Heap R → Heap R → Nat → Prop) {h h2 : Heap R} {n : Nat}
    (hs : SameShape h h2) (hf : ∀ x, x ≠ n → h2 x = h x) : PassInv P h h2 n [] h2 :=
  ⟨hs, fun x hx => hf x (fun e => hx (e ▸ InTree.root)), rfl, fun c hc => by cases hc⟩

/-- The loop invariant is kept by the visit of a child `c` of `n` that keeps the shape,
touches only the subtree of `c` and establishes `P` there. -/
theorem PassInv.step {P : Heap R → Heap R → Nat → Prop} {h h2 g g1 : Heap R} {n d c : Nat}
    {done : List (Option Nat)}
    (hstable : ∀ (g g1 : Heap R) (m : Nat), g1 m = g m →
      (∀ p, (h m).parent = some p → g1 p = g p) → P h g m → P h g1 m)
    (hrebase : ∀ (g k : Heap R) (m : Nat), SameShape h g → P g k m → P h k m)
    (ht : TreeWithin h d n) (hc : some c ∈ (h n).children)
    (hdone : ∀ c2, some c2 ∈ done → some c2 ∈ (h n).children)
    (inv : PassInv P h h2 n done g) (g1s : SameShape g g1)
    (g1frame : ∀ x, ¬ InTree g c x → g1 x = g x)
    (g1good : ∀ m, InTree g c m → P g g1 m) :
    PassInv P h h2 n (done ++ [some c]) g1 := by
  obtain ⟨gs, gframe, gn, gdone⟩ := inv
  have hbelow : ∀ c, some c ∈ (h n).children → ¬ InTree h c n := ht.not_below d n
  have hsub : ∀ c, some c ∈ (h n).children → ∀ m, InTree h c m → InTree h n m :=
    fun c hc m hm => InTree.extend (InTree.child InTree.root hc) hm
  have hgin : ∀ m, InTree g c m → InTree h c m := fun m hm => InTree.reshape gs.symm hm
  have hkid : ∀ c2, some c2 ∈ (h n).children → (h c2).parent = some n ∧
      ∃ d2, TreeWithin h d2 c2 := by
    intro c2 hc2
    cases d with
    | zero =>
      simp only [TreeWithin] at ht
      rw [ht] at hc2
      cases hc2
    | succ d =>
      obtain ⟨c3, hc3, hp, htc⟩ := ht _ hc2
      cases hc3
      exact ⟨hp, d, htc⟩
  refine ⟨gs.trans g1s, ?_, ?_, ?_⟩
  · intro x hx
    rw [g1frame x (fun hin => hx (hsub c hc x (hgin x hin)))]
    exact gframe x hx
  · rw [g1frame n (fun hin => hbelow c hc (hgin n hin))]
    exact gn
  · intro c2 hc2 m hm
    by_cases hin : InTree g c m
    · exact hrebase g g1 m gs (g1good m hin)
    · have hc2d : some c2 ∈ done := by
        rcases List.mem_append.mp hc2 with hd2 | hd2
        · exact hd2
        · simp only [List.mem_singleton, Option.some.injEq] at hd2
          subst hd2
          exact absurd (InTree.reshape gs hm) hin
      obtain ⟨hc2p, d2, htc2⟩ := hkid c2 (hdone c2 hc2d)
      apply hstable g g1 m (g1frame m hin) _ (gdone c2 hc2d m hm)
      intro p hp
      rcases InTree.parent_mem htc2 hm with hmc | ⟨p1, hp1, _, hmp⟩
      · subst hmc
        rw [hc2p] at hp
        cases hp
        exact g1frame n (fun hin2 => hbelow c hc (hgin n hin2))
      · rw [hp1] at hp
        cases hp
        exact g1frame p (fun hin2 => hin (InTree.child hin2 (by rw [gs.children]; exact hmp)))

/-- After the loop, `P` holds on the whole subtree of `n`, given that it held at `n` after
the receiver's own part and that the parent of `n` lies outside the subtree. -/
theorem PassInv.finish {P : Heap R → Heap R → Nat → Prop} {h h2 g : Heap R} {n : Nat}
    (hstable : ∀ (g g1 : Heap R) (m : Nat), g1 m = g m →
      (∀ p, (h m).parent = some p → g1 p = g p) → P h g m → P h g1 m)
    (hf : ∀ x, x ≠ n → h2 x = h x)
    (hpar : ∀ p, (h n).parent = some p → ¬ InTree h n p) (hn : P h h2 n)
    (inv : PassInv P h h2 n (h n).children g) :
    SameShape h g ∧ (∀ x, ¬ InTree h n x → g x = h x) ∧ ∀ m, InTree h n m → P h g m := by
  obtain ⟨gs, gframe, gn, gdone⟩ := inv
  refine ⟨gs, gframe, fun m hm => ?_⟩
  rcases hm.cases_top with hmn | ⟨c, hc, hin⟩
  · subst hmn
    apply hstable h2 g m gn _ hn
    intro p hp
    rw [gframe p (hpar p hp)]
    exact (hf p (fun e => hpar p hp (e ▸ InTree.root))).symm
  · exact gdone c hc m hin

/-- The product of the zero quaternion with any quaternion, on either side, is zero. -/
theorem Quaternion.zero_absorbs (q : Quaternion R) :
    Quaternion.MultiplyQuaternions q ⟨0, 0, 0, 0⟩ = ⟨0, 0, 0, 0⟩ ∧
      Quaternion.MultiplyQuaternions ⟨0, 0, 0, 0⟩ q = ⟨0, 0, 0, 0⟩ := by
  simp [Quaternion.MultiplyQuaternions]

/-- The receiver's own part of `UpdateMatrixWorld` on a node that is dirty, or with `force`
set: the recomputation fires whatever the auto-update flags are. -/
theorem UpdateMatrixWorld.node_fires (h : Heap R) (n : Nat) (force : Bool)
    (hfire : ((h n).matrixWorldNeedUpdate || force) = true) :
    (UpdateMatrixWorld.node h n force).2 = true ∧
    SameShape h (UpdateMatrixWorld.node h n force).1 ∧
    (∀ x, x ≠ n → (UpdateMatrixWorld.node h n force).1 x = h x) ∧
    ((UpdateMatrixWorld.node h n force).1 n).World =
      (match (h n).parent with
        | none => ((UpdateMatrixWorld.node h n force).1 n).Local
        | some p => Matrix4.MultiplyMatrices (h p).World
            ((UpdateMatrixWorld.node h n force).1 n).Local) ∧
    ((UpdateMatrixWorld.node h n force).1 n).matrixWorldNeedUpdate = false := by
  have hd : ((UpdateMatrix h n) n).matrixWorldNeedUpdate = true := by simp [UpdateMatrix]
  cases hl : (h n).localAutoUpdate <;> cases hp : (h n).parent
  · simp only [UpdateMatrixWorld.node, hl, hfire, if_true, hp, setWorld, Bool.false_eq_true,
      if_false]
    refine ⟨trivial, ?_, ?_, ?_, ?_⟩
    · intro x
      by_cases hx : x = n
      · subst hx; simp [hl, hp]
      · simp [hx]
    · intro x hx; simp [hx]
    · simp
    · simp
  · rename_i p
    simp only [UpdateMatrixWorld.node, hl, hfire, if_true, hp, setWorld, Bool.false_eq_true,
      if_false]
    refine ⟨trivial, ?_, ?_, ?_, ?_⟩
    · intro x
      by_cases hx : x = n
      · subst hx; simp [hl, hp]
      · simp [hx]
    · intro x hx; simp [hx]
    · simp
    · simp
  · simp only [UpdateMatrixWorld.node, hl, if_true, hd, Bool.true_or, hp, setWorld]
    refine ⟨trivial, ?_, ?_, ?_, ?_⟩
    · intro x
      by_cases hx : x = n
      · subst hx; simp [UpdateMatrix]
      · simp [UpdateMatrix, hx]
    · intro x hx; simp [UpdateMatrix, hx]
    · simp [UpdateMatrix]
    · simp
  · rename_i p
    simp only [UpdateMatrixWorld.node, hl, if_true, hd, Bool.true_or, hp, setWorld]
    refine ⟨trivial, ?_, ?_, ?_, ?_⟩
    · intro x
      by_cases hx : x = n
      · subst hx; simp [UpdateMatrix]
      · simp [UpdateMatrix, hx]
    · intro x hx; simp [UpdateMatrix, hx]
    · by_cases hpn : p = n
      · subst hpn; simp [UpdateMatrix]
      · simp [UpdateMatrix, hpn]
    · simp

/-- The entries of the children list of the root of a tree of bounded height are nodes
with the root as parent that root lower trees. -/
theorem TreeWithin.kids {h : Heap R} {d n : Nat} (ht : TreeWithin h d n) :
    ∀ e ∈ (h n).children, ∃ c, e = some c ∧ (h c).parent = some n ∧
      ∃ d1, d1 < d ∧ TreeWithin h d1 c := by
  intro e he
  cases d with
  | zero =>
    simp only [TreeWithin] at ht
    rw [ht] at he
    cases he
  | succ d =>
    obtain ⟨c, hc, hp, htc⟩ := ht e he
    exact ⟨c, hc, hp, d, by omega, htc⟩

/-- A call of `UpdateMatrixWorld` on a dirty node, or with `force` set, of a tree of bounded
height returns, keeps the shape, leaves every node outside the subtree untouched, and
recomputes `World` and clears the dirty flag on every node of the subtree, whatever the
flags of the descendants are. -/
theorem UpdateMatrixWorld.refresh :
    ∀ (fuel d : Nat) (h : Heap R) (n : Nat) (force : Bool), d < fuel → TreeWithin h d n →
      ((h n).matrixWorldNeedUpdate || force) = true →
      (∀ p, (h n).parent = some p → ¬ InTree h n p) →
      ∃ h1, UpdateMatrixWorld fuel h n force = some h1 ∧ SameShape h h1 ∧
        (∀ x, ¬ InTree h n x → h1 x = h x) ∧
        (∀ m, InTree h n m → Passed false false h h1 m) := by
  intro fuel
  induction fuel with
  | zero => intro d h n force hd; cases hd
  | succ fuel ih =>
    intro d h n force hd ht hfire hpar
    obtain ⟨hf, hshape, hframe, hworld, hdirty⟩ := UpdateMatrixWorld.node_fires h n force hfire
    generalize hr : UpdateMatrixWorld.node h n force = r at hf hshape hframe hworld hdirty
    obtain ⟨h2, f2⟩ := r
    simp only at hf hshape hframe hworld hdirty
    subst hf
    have hkids := ht.kids
    have hnil : none ∉ (h n).children := by
      intro hmem
      obtain ⟨c, hc, _⟩ := hkids none hmem
      cases hc
    have hbelow : ∀ c, some c ∈ (h n).children → ¬ InTree h c n := ht.not_below d n
    have hstable : ∀ (g g1 : Heap R) (m : Nat), g1 m = g m →
        (∀ p, (h m).parent = some p → g1 p = g p) →
        Passed false false h g m → Passed false false h g1 m :=
      fun g g1 m a b c => Passed.stable a b c
    have hloop := UpdateMatrixWorld.children_forced
      (fun g c => UpdateMatrixWorld fuel g c true)
      (fun done g => (∀ c2, some c2 ∈ done → some c2 ∈ (h n).children) ∧
        PassInv (Passed false false) h h2 n done g)
      (h n).children
      (by
        intro done c rest g hall ⟨hdone, inv⟩
        have hcmem : some c ∈ (h n).children := by rw [← hall]; simp
        obtain ⟨c1, hc1, hcp, d1, hd1, htc⟩ := hkids _ hcmem
        cases hc1
        have gs := inv.1
        have hgin : ∀ m, InTree g c m → InTree h c m := fun m hm => InTree.reshape gs.symm hm
        obtain ⟨g1, hrun, g1s, g1frame, g1good⟩ := ih d1 g c true (by omega)
          (TreeWithin.transfer gs d1 c htc) (by simp)
          (fun p hp hin => by
            rw [gs.parent, hcp] at hp
            cases hp
            exact hbelow c hcmem (hgin _ hin))
        refine ⟨g1, hrun, ?_, PassInv.step hstable (fun g k m s c => Passed.rebase_shape s c) ht hcmem
          hdone inv g1s g1frame g1good⟩
        intro c2 hc2
        rcases List.mem_append.mp hc2 with hd2 | hd2
        · exact hdone c2 hd2
        · simp only [List.mem_singleton, Option.some.injEq] at hd2
          subst hd2
          exact hcmem)
      hnil (h n).children [] h2 rfl
      ⟨fun c2 hc2 => (by cases hc2), PassInv.start _ hshape hframe⟩
    obtain ⟨g1, hrun, _, inv⟩ := hloop
    have hn : Passed false false h h2 n := by
      unfold Passed
      refine ⟨fun e => (by cases e), ?_, hdirty⟩
      rw [hworld]
      cases hp : (h n).parent with
      | none => rfl
      | some p =>
        simp only
        rw [hframe p (fun e => hpar p hp (e ▸ InTree.root))]
    obtain ⟨gs, gframe, ggood⟩ := PassInv.finish hstable hframe hpar hn inv
    refine ⟨g1, ?_, gs, gframe, ggood⟩
    simp only [UpdateMatrixWorld, hr, hshape.children]
    exact hrun

/-- In a tree with a parentless root, the parent of a node lies outside the subtree of
the node. -/
theorem InTree.parent_outside {h : Heap R} {d r n : Nat} (ht : TreeWithin h d r)
    (hroot : (h r).parent = none) (hn : InTree h r n) :
    ∀ p, (h n).parent = some p → ¬ InTree h n p := by
  intro p hp hin
  rcases InTree.parent_mem ht hn with hnr | ⟨p1, hp1, hp1in, hmem⟩
  · subst hnr
    rw [hroot] at hp
    cases hp
  · rw [hp1] at hp
    cases hp
    exact (ht.of_inTree hp1in).not_below d p n hmem hin

/-! ## The push update on a tree -/

/-- The loop of `UpdateWorldMatrix` over children lists without nil entries whose entries
all have `worldAutoUpdate` set when their turn comes: an invariant `I` of the visits,
indexed by the entries already visited, holds at the end. -/
theorem UpdateWorldMatrix.children_visited (rec : Heap R → Nat → Option (Heap R))
    (I : List (Option Nat) → Heap R → Prop) (all : List (Option Nat))
    (hstep : ∀ done c rest g, done ++ some c :: rest = all → I done g →
      (g c).worldAutoUpdate = true ∧ ∃ g1, rec g c = some g1 ∧ I (done ++ [some c]) g1)
    (hnil : none ∉ all) :
    ∀ (rest done : List (Option Nat)) (g : Heap R), done ++ rest = all → I done g →
      ∃ g1, UpdateWorldMatrix.children rec rest g = some g1 ∧ I all g1 := by
  intro rest
  induction rest with
  | nil =>
    intro done g hall hI
    simp only [List.append_nil] at hall
    subst hall
    exact ⟨g, rfl, hI⟩
  | cons e rest ih =>
    intro done g hall hI
    cases e with
    | none =>
      exfalso
      apply hnil
      rw [← hall]
      simp
    | some c =>
      obtain ⟨hw, g1, hrun, hI1⟩ := hstep done c rest g hall hI
      obtain ⟨g2, hrun2, hI2⟩ := ih (done ++ [some c]) g1 (by simpa using hall) hI1
      exact ⟨g2, by simp [UpdateWorldMatrix.children, hw, hrun, hrun2], hI2⟩

/-- One unfolding of `UpdateWorldMatrix(false, true)`: the receiver's own part, then the
loop over its children. -/
theorem UpdateWorldMatrix.push_step (fuel : Nat) (h : Heap R) (n : Nat) :
    UpdateWorldMatrix (fuel + 1) h n false true =
      UpdateWorldMatrix.children (fun g c => UpdateWorldMatrix fuel g c false true)
        (h n).children (UpdateWorldMatrix.node h n (h n).parent) := by
  have hc := (UpdateWorldMatrix.node_frame h n (h n).parent).1.children n
  cases hp : (h n).parent <;> simp [UpdateWorldMatrix, hp, ← hc]

/-- A call of `UpdateWorldMatrix(false, true)` on a node of a tree of bounded height whose
nodes have both auto-update flags set returns, keeps the shape, leaves every node outside
the subtree untouched, and on every node of the subtree composes `Local`, recomputes
`World` and raises the dirty flag. -/
theorem UpdateWorldMatrix.push :
    ∀ (fuel d : Nat) (h : Heap R) (n : Nat), d < fuel → TreeWithin h d n →
      (∀ m, InTree h n m → (h m).localAutoUpdate = true ∧ (h m).worldAutoUpdate = true) →
      (∀ p, (h n).parent = some p → ¬ InTree h n p) →
      ∃ h1, UpdateWorldMatrix fuel h n false true = some h1 ∧ SameShape h h1 ∧
        (∀ x, ¬ InTree h n x → h1 x = h x) ∧
        (∀ m, InTree h n m → Passed true true h h1 m) := by
  intro fuel
  induction fuel with
  | zero => intro d h n hd; cases hd
  | succ fuel ih =>
    intro d h n hd ht hauto hpar
    obtain ⟨hshape, hframe⟩ := UpdateWorldMatrix.node_frame h n (h n).parent
    have hset := UpdateWorldMatrix.node_settled h n
      (fun e => hpar n e InTree.root)
    generalize hr : UpdateWorldMatrix.node h n (h n).parent = h2 at hshape hframe hset
    have hkids := ht.kids
    have hnil : none ∉ (h n).children := by
      intro hmem
      obtain ⟨c, hc, _⟩ := hkids none hmem
      cases hc
    have hbelow : ∀ c, some c ∈ (h n).children → ¬ InTree h c n := ht.not_below d n
    have hsub : ∀ c, some c ∈ (h n).children → ∀ m, InTree h c m → InTree h n m :=
      fun c hc m hm => InTree.extend (InTree.child InTree.root hc) hm
    have hstable : ∀ (g g1 : Heap R) (m : Nat), g1 m = g m →
        (∀ p, (h m).parent = some p → g1 p = g p) →
        Passed true true h g m → Passed true true h g1 m :=
      fun g g1 m a b c => Passed.stable a b c
    have hloop := UpdateWorldMatrix.children_visited
      (fun g c => UpdateWorldMatrix fuel g c false true)
      (fun done g => (∀ c2, some c2 ∈ done → some c2 ∈ (h n).children) ∧
        PassInv (Passed true true) h h2 n done g)
      (h n).children
      (by
        intro done c rest g hall ⟨hdone, inv⟩
        have hcmem : some c ∈ (h n).children := by rw [← hall]; simp
        obtain ⟨c1, hc1, hcp, d1, hd1, htc⟩ := hkids _ hcmem
        cases hc1
        have gs := inv.1
        have hgin : ∀ m, InTree g c m → InTree h c m := fun m hm => InTree.reshape gs.symm hm
        refine ⟨by rw [(gs c).2.2.2.2.2.2.2]; exact (hauto c (hsub c hcmem c InTree.root)).2, ?_⟩
        obtain ⟨g1, hrun, g1s, g1frame, g1good⟩ := ih d1 g c (by omega)
          (TreeWithin.transfer gs d1 c htc)
          (fun m hm => by
            rw [(gs m).2.2.2.2.2.2.1, (gs m).2.2.2.2.2.2.2]
            exact hauto m (hsub c hcmem m (hgin m hm)))
          (fun p hp hin => by
            rw [gs.parent, hcp] at hp
            cases hp
            exact hbelow c hcmem (hgin _ hin))
        refine ⟨g1, hrun, ?_, PassInv.step hstable (fun g k m s c => Passed.rebase_shape s c) ht hcmem
          hdone inv g1s g1frame g1good⟩
        intro c2 hc2
        rcases List.mem_append.mp hc2 with hd2 | hd2
        · exact hdone c2 hd2
        · simp only [List.mem_singleton, Option.some.injEq] at hd2
          subst hd2
          exact hcmem)
      hnil (h n).children [] h2 rfl
      ⟨fun c2 hc2 => (by cases hc2), PassInv.start _ hshape hframe⟩
    obtain ⟨g1, hrun, _, inv⟩ := hloop
    have hn : Passed true true h h2 n := by
      obtain ⟨_, s2, _, s4, s5, _, s7, _⟩ := hshape n
      obtain ⟨hloc, hworld⟩ := hset
      have hl := hloc (by rw [s7]; exact (hauto n InTree.root).1)
      unfold Passed
      refine ⟨fun _ => (by rw [← s2, ← s4]; exact hl.1), ?_, hl.2⟩
      rw [← s5]
      exact hworld
    obtain ⟨gs, gframe, ggood⟩ := PassInv.finish hstable hframe hpar hn inv
    refine ⟨g1, ?_, gs, gframe, ggood⟩
    rw [UpdateWorldMatrix.push_step, hr]
    exact hrun

/-- Two passes over the subtree of `n` that both recompute `World` from the parent and
leave the same `Local` on the subtree, and that leave the rest of the heap alone, leave
the same `World` on the subtree. -/
theorem Passed.same_world {lo1 dirty1 lo2 dirty2 : Bool} {h g1 g2 : Heap R} {d n : Nat}
    (ht : TreeWithin h d n) (hpar : ∀ p, (h n).parent = some p → ¬ InTree h n p)
    (f1 : ∀ x, ¬ InTree h n x → g1 x = h x) (f2 : ∀ x, ¬ InTree h n x → g2 x = h x)
    (p1 : ∀ m, InTree h n m → Passed lo1 dirty1 h g1 m)
    (p2 : ∀ m, InTree h n m → Passed lo2 dirty2 h g2 m)
    (hloc : ∀ m, InTree h n m → (g1 m).Local = (g2 m).Local) :
    ∀ m, InTree h n m → (g1 m).World = (g2 m).World := by
  intro m hm
  induction hm with
  | root =>
    rw [(p1 n InTree.root).2.1, (p2 n InTree.root).2.1, hloc n InTree.root]
    cases hp : (h n).parent with
    | none => rfl
    | some p =>
      simp only
      rw [f1 p (hpar p hp), f2 p (hpar p hp)]
  | @child x c hx hc ih =>
    have hcin : InTree h n c := InTree.child hx hc
    obtain ⟨c1, hc1, hcp, _⟩ := (ht.of_inTree hx).kids _ hc
    cases hc1
    rw [(p1 c hcin).2.1, (p2 c hcin).2.1, hloc c hcin, hcp]
    simp only
    rw [ih]

/-! ## Children entries point back to their list's owner -/

/-- A call `o.Remove(obj)` keeps the property that every children entry has the owner of
the list as parent. -/
theorem Remove_single_linked {h : Heap R}
    (hwf : ∀ n c, some c ∈ (h n).children → (h c).parent = some n) (o obj : Nat) :
    ∀ n c, some c ∈ ((Remove h o [some obj]) n).children →
      ((Remove h o [some obj]) c).parent = some n := by
  intro n c hc
  rw [Remove_single_parent]
  apply hwf
  by_cases hn : n = o
  · subst hn
    rw [Remove_single_children] at hc
    exact List.mem_of_mem_filter hc
  · rw [Remove_single_other h o obj hn] at hc
    exact hc

/-- Every call of `Remove` keeps the property that every children entry has the owner of
the list as parent. -/
theorem Remove_linked (o : Nat) : ∀ (objs : List (Option Nat)) (h : Heap R),
    (∀ n c, some c ∈ (h n).children → (h c).parent = some n) →
      ∀ n c, some c ∈ ((Remove h o objs) n).children → ((Remove h o objs) c).parent = some n := by
  intro objs
  induction objs with
  | nil => intro h hwf; exact hwf
  | cons e objs ih =>
    intro h hwf
    cases e with
    | none => simpa [Remove] using ih h hwf
    | some a =>
      rw [Remove_cons_some]
      exact ih _ (Remove_single_linked hwf o a)

/-- Every call of `Add` that returns, from a state without nil entries where every children
entry has the owner of the list as parent, leads to such a state. -/
theorem Add_linked (o : Nat) : ∀ (objs : List (Option Nat)) (h h1 : Heap R),
    (∀ n, none ∉ (h n).children) →
    (∀ n c, some c ∈ (h n).children → (h c).parent = some n) →
    Add h o objs = some h1 →
      (∀ n, none ∉ (h1 n).children) ∧
        ∀ n c, some c ∈ (h1 n).children → (h1 c).parent = some n := by
  intro objs
  induction objs with
  | nil =>
    intro h h1 hnil hwf hrun
    simp only [Add, Option.some.injEq] at hrun
    subst hrun
    exact ⟨hnil, hwf⟩
  | cons e objs ih =>
    intro h h1 hnil hwf hrun
    cases e with
    | none =>
      simp only [Add] at hrun
      exact ih h h1 hnil hwf hrun
    | some a =>
      obtain ⟨h2, hrun2, hpar, hkids, hnil2⟩ := Add_one_links h a o hnil hwf
      rw [Add_cons_some, hrun2] at hrun
      refine ih h2 h1 hnil2 ?_ hrun
      intro n c hc
      rw [hpar]
      rcases hkids n c hc with ⟨hca, hno⟩ | ⟨hca, hmem⟩
      · rw [if_pos hca, hno]
      · rw [if_neg hca]
        exact hwf n c hmem

/-- In every reachable state no children list has a nil entry and every children entry has
the owner of the list as parent. -/
theorem Reachable.linked {h : Heap R} (r : Reachable h) :
    (∀ n, none ∉ (h n).children) ∧
      ∀ n c, some c ∈ (h n).children → (h c).parent = some n := by
  induction r with
  | fresh h hf =>
    constructor
    · intro n; rw [(hf n).2]; simp
    · intro n c hc; rw [(hf n).2] at hc; cases hc
  | add h h1 o objs _ hrun ih => exact Add_linked o objs h h1 ih.1 ih.2 hrun
  | remove h o objs r ih =>
    exact ⟨fun n => (Remove_distinct o objs h r.distinct n).1, Remove_linked o objs h ih.2⟩

/-- The state `collided` is what `0.Add(1, 2)` returns on nodes that all carry `Id` 0. -/
theorem collided_run :
    Add (fun _ => NewObject 0 : Heap ℚ) 0 [some 1, some 2] = some collided := by
  obtain ⟨h1, hrun, _⟩ := Add_distinct 0 [some 1, some 2] (fun _ => NewObject 0 : Heap ℚ)
    (Reachable.fresh _ (fun _ => ⟨rfl, rfl⟩)).distinct
  simp [collided, hrun]

/-! ## Moving a subtree below another root -/

/-- The relinking of `Add` keeps the inputs of the matrix updates. -/
theorem Add.relink_inputs (h : Heap R) (o obj x : Nat) :
    ((Add.relink h o obj) x).Pos = (h x).Pos ∧ ((Add.relink h o obj) x).Quat = (h x).Quat ∧
      ((Add.relink h o obj) x).localAutoUpdate = (h x).localAutoUpdate ∧
      ((Add.relink h o obj) x).worldAutoUpdate = (h x).worldAutoUpdate := by
  unfold Add.relink
  cases hp : (h obj).parent with
  | none => by_cases hx : x = obj <;> simp [Heap.set, hx]
  | some p =>
    by_cases hx : x = obj
    · subst hx
      by_cases hxp : x = p
      · subst hxp; simp [Remove_single, Heap.set]
      · simp [Remove_single, Heap.set, hxp]
    · by_cases hxp : x = p
      · subst hxp; simp [Remove_single, Heap.set, hx]
      · simp [Remove_single, Heap.set, hx, hxp]

/-- A heap whose children lists on the subtree of `n` are parts of those of a tree of
bounded height, with the parent links of the remaining entries kept, holds a tree of the
same bound below `n`. -/
theorem TreeWithin.shrink {h g : Heap R} : ∀ (d n : Nat), TreeWithin h d n →
    (∀ m, InTree h n m → (∀ e ∈ (g m).children, e ∈ (h m).children) ∧
      ∀ x, some x ∈ (g m).children → (g x).parent = (h x).parent) →
    TreeWithin g d n := by
  intro d
  induction d with
  | zero =>
    intro n hn H
    simp only [TreeWithin] at hn ⊢
    apply List.eq_nil_iff_forall_not_mem.mpr
    intro e he
    have := (H n InTree.root).1 e he
    rw [hn] at this
    cases this
  | succ d ih =>
    intro n hn H e he
    have hsub := (H n InTree.root).1 e he
    obtain ⟨c, hc, hp, ht⟩ := hn e hsub
    subst hc
    exact ⟨c, rfl, by rw [(H n InTree.root).2 c he, hp],
      ih c ht (fun m hm => H m (InTree.extend (InTree.child InTree.root hsub) hm))⟩

/-- The call `c.Add(a)` for a node `a` whose parent `r` is not `c`, when no entry of
`c.children` is nil or has the `Id` of `a`: the call returns, `a` is appended to
`c.children` and cut out of `r.children`, its parent link is `c`, and nothing else
changes. -/
theorem Add_reattach (h : Heap R) (r a c : Nat) (har : (h a).parent = some r) (hrc : r ≠ c)
    (hnil : none ∉ (h c).children)
    (hno : ∀ x, some x ∈ (h c).children → (h x).Id ≠ (h a).Id) :
    ∃ h1, Add h c [some a] = some h1 ∧
      (∀ x, (h1 x).parent = if x = a then some c else (h x).parent) ∧
      (h1 c).children = (h c).children ++ [some a] ∧
      (h1 r).children = (h r).children.filter (keepChild h (h a).Id) ∧
      (∀ x, x ≠ c → x ≠ r → (h1 x).children = (h x).children) ∧
      (∀ x, (h1 x).Pos = (h x).Pos ∧ (h1 x).Quat = (h x).Quat ∧
        (h1 x).localAutoUpdate = (h x).localAutoUpdate ∧
        (h1 x).worldAutoUpdate = (h x).worldAutoUpdate) := by
  have hkc : ((Add.relink h c a) c).children = (h c).children := by
    rw [Add.relink_children, har, if_neg (by simpa using hrc)]
  rcases Add_one h c a (by rw [hkc]; exact hnil) with ⟨_, x, hx, hid⟩ | ⟨hrun, _⟩
  · rw [hkc] at hx
    exact absurd hid (hno x hx)
  · refine ⟨_, hrun, ?_, ?_, ?_, ?_, ?_⟩
    · intro x
      by_cases hx : x = c
      · subst hx
        simp only [Heap.set_same]
        exact Add.relink_parent h x a x
      · rw [Heap.set_other _ _ hx]
        exact Add.relink_parent h c a x
    · simp only [Heap.set_same]
      rw [hkc]
    · rw [Heap.set_other _ _ hrc, Add.relink_children, har, if_pos rfl]
    · intro x hxc hxr
      rw [Heap.set_other _ _ hxc, Add.relink_children, har,
        if_neg (by simpa using (Ne.symm hxr))]
    · intro x
      by_cases hx : x = c
      · subst hx
        simp only [Heap.set_same]
        exact Add.relink_inputs h x a x
      · rw [Heap.set_other _ _ hx]
        exact Add.relink_inputs h c a x

/-- The pull update of a parentless node of `freshWithIds` leaves the identity as its
world matrix. -/
theorem freshWithIds_pulled :
    ∃ h1, UpdateWorldMatrix 1 freshWithIds 0 true false = some h1 ∧
      (h1 0).World = Matrix4.Identity := by
  refine ⟨_, by rw [UpdateWorldMatrix.pull_step]; rfl, ?_⟩
  simp [UpdateWorldMatrix.node, freshWithIds, NewObject, Object.zero, UpdateMatrix, setWorld,
    Matrix4.Compose, Matrix4.MakeRotationFromQuaternion, Matrix4.Scale, Matrix4.SetPosition,
    Quaternion.zero, Vector3.zero, Matrix4.Identity]

end Lemmas

/-! ## The claims -/

section Claims

variable {R : Type} [Field R]

/-- C1: for a parentless root of a tree of bounded height (no nil entries, every entry c
of a list n.children has c.parent = n) whose nodes all have localAutoUpdate and
worldAutoUpdate set, for either value of force and whatever Local, World and dirty flags
were before, root.UpdateMatrixWorld(force) returns for every recursion budget above the
height, and afterwards every node n of the tree has its old Pos and Quat and
n.Local = Compose(n.Pos, n.Quat, (1,1,1)), the root has World = Local, and every other
node has a parent in the tree with n.World = n.parent.World * n.Local. -/
theorem C1_updateMatrixWorld_tree (h : Heap R) (root d : Nat) (force : Bool)
    (hroot : (h root).parent = none) (htree : TreeWithin h d root)
    (hauto : ∀ n, InTree h root n →
      (h n).localAutoUpdate = true ∧ (h n).worldAutoUpdate = true) :
    ∀ fuel, d < fuel → ∃ h1, UpdateMatrixWorld fuel h root force = some h1 ∧
      (∀ n, InTree h root n →
        (h1 n).Pos = (h n).Pos ∧ (h1 n).Quat = (h n).Quat ∧
        (h1 n).Local = Matrix4.Compose (h1 n).Pos (h1 n).Quat ⟨1, 1, 1⟩) ∧
      (h1 root).World = (h1 root).Local ∧
      (∀ n, InTree h root n → n ≠ root → ∃ p, (h1 n).parent = some p ∧ InTree h root p ∧
        (h1 n).World = Matrix4.MultiplyMatrices (h1 p).World (h1 n).Local) := by
  intro fuel hfuel
  obtain ⟨h1, hrun, hs, _, hgood⟩ := UpdateMatrixWorld.subtree fuel d h root force hfuel htree
    (fun m hm => (hauto m hm).1) (fun p hp => by rw [hroot] at hp; cases hp)
  refine ⟨h1, hrun, ?_, ?_, ?_⟩
  · intro n hn
    obtain ⟨_, s2, _, s4, _⟩ := hs n
    refine ⟨s2, s4, ?_⟩
    rw [s2, s4]
    exact (hgood n hn).1
  · have hw := (hgood root InTree.root).2.1
    rw [hroot] at hw
    exact hw
  · intro n hn hne
    rcases InTree.parent_mem htree hn with hnr | ⟨p, hp, hpin, _⟩
    · exact absurd hnr hne
    · refine ⟨p, by rw [hs.parent, hp], hpin, ?_⟩
      have hw := (hgood n hn).2.1
      rw [hp] at hw
      exact hw

/-- C1 on the sample tree `family`, with root 0, height 2 and recursion budget 3. -/
theorem C1_witness :
    (family 0).parent = none ∧ TreeWithin family 2 0 ∧
    ∃ h1, UpdateMatrixWorld 3 family 0 false = some h1 ∧
      (∀ n, InTree family 0 n →
        (h1 n).Pos = (family n).Pos ∧ (h1 n).Quat = (family n).Quat ∧
        (h1 n).Local = Matrix4.Compose (h1 n).Pos (h1 n).Quat ⟨1, 1, 1⟩) ∧
      (h1 0).World = (h1 0).Local ∧
      (∀ n, InTree family 0 n → n ≠ 0 → ∃ p, (h1 n).parent = some p ∧ InTree family 0 p ∧
        (h1 n).World = Matrix4.MultiplyMatrices (h1 p).World (h1 n).Local) :=
  ⟨rfl, family_tree,
    C1_updateMatrixWorld_tree family 0 2 false rfl family_tree (fun n _ => family_auto n) 3
      (by decide)⟩

/-- C2: over the reals with the real sine and cosine, for a node whose rotation is 90
degrees about Y, `RotateX(pi)` stores `q * rotation`, with `q` the quaternion of the X
axis and the angle pi, and this differs from `rotation * q`, the value the claim
states. -/
theorem C2_rotateX_multiplies_on_the_left :
    ((RotateX Real.sin Real.cos
        (SetRotationFromAxisAngle Real.sin Real.cos (fun _ => NewObject 0) 0 yAixs
          (Real.pi / 2)) 0 Real.pi) 0).Quat =
      Quaternion.MultiplyQuaternions
        (Quaternion.SetFromAxisAngle Real.sin Real.cos xAixs Real.pi)
        (Quaternion.SetFromAxisAngle Real.sin Real.cos yAixs (Real.pi / 2)) ∧
    ((RotateX Real.sin Real.cos
        (SetRotationFromAxisAngle Real.sin Real.cos (fun _ => NewObject 0) 0 yAixs
          (Real.pi / 2)) 0 Real.pi) 0).Quat ≠
      Quaternion.MultiplyQuaternions
        (Quaternion.SetFromAxisAngle Real.sin Real.cos yAixs (Real.pi / 2))
        (Quaternion.SetFromAxisAngle Real.sin Real.cos xAixs Real.pi) := by
  have h4 : Real.pi / 2 / 2 = Real.pi / 4 := by ring
  have hs : (0 : ℝ) < √2 := by positivity
  constructor
  · simp [RotateX, RotateOnLocalAxis, SetRotationFromAxisAngle]
  · intro heq
    have hz := congrArg Quaternion.Z heq
    simp [RotateX, RotateOnLocalAxis, SetRotationFromAxisAngle, Quaternion.MultiplyQuaternions,
      Quaternion.SetFromAxisAngle, xAixs, yAixs, h4] at hz
    linarith

/-- C3: the object returned by `Scene.NewObject` has Id 0, whatever the scene and the
number of earlier calls: `NewObject` drops its argument, only the scene's own Id is
incremented (modulo 2^64), and the object is filed in the map under key 0. -/
theorem C3_new_object_id_is_zero (m : Mem R) (s : Scene) :
    ((Scene.NewObject m s).1.heap (Scene.NewObject m s).2.2).Id = 0 ∧
      ((Scene.NewObject m s).1.heap s.self).Id =
        (if s.self = m.next then 0 else ((m.heap s.self).Id + 1) % 2 ^ 64) ∧
      (Scene.NewObject m s).2.1.objs 0 = some (Scene.NewObject m s).2.2 := by
  refine ⟨?_, ?_, ?_⟩
  · simp [Scene.NewObject, Heap.set, NewObject, Object.zero]
  · by_cases hs : s.self = m.next <;>
      simp [Scene.NewObject, Heap.set, NewObject, Object.zero, hs]
  · simp [Scene.NewObject, Heap.set, NewObject, Object.zero]

/-- C4: on a scene root without children, adding the two objects returned by two calls
of `Scene.NewObject` leaves the children list with the first object only: both objects
have Id 0, so the second is not appended although its parent link is set. -/
theorem C4_second_object_not_appended :
    sceneWithTwo.2.2 = (1, 2) ∧
    (sceneWithTwo.1.heap 0).children = [] ∧
    ((sceneWithTwo.1.heap 1).Id, (sceneWithTwo.1.heap 2).Id) = (0, 0) ∧
    ((Add sceneWithTwo.1.heap 0 [some 1]).bind fun h1 => Add h1 0 [some 2]).map
        (fun h => ((h 0).children, (h 1).parent, (h 2).parent)) =
      some ([some 1], some 0, some 0) ∧
    (Add sceneWithTwo.1.heap 0 [some 1, some 2]).map
        (fun h => ((h 0).children, (h 1).parent, (h 2).parent)) =
      some ([some 1], some 0, some 0) := by
  decide

/-- C5 (amended): in a forest whose children lists hold only nodes that point back to
their list's owner and whose parent chains are finite, for every node a and every
node b that is neither a nor a descendant of a, b.Add(a) returns and afterwards
every parent chain is still finite, no node is reached from itself through children
lists, and the children lists still hold only nodes that point back. -/
theorem C5_add_outside_subtree_keeps_forest (h : Heap R) (a b : Nat)
    (hnil : ∀ n, none ∉ (h n).children)
    (hwf : ∀ n c, some c ∈ (h n).children → (h c).parent = some n)
    (hfin : ∀ n, ∃ k, rootWithin h k n = true) (hab : ¬ AncestorOrSelf h a b) :
    ∃ h1, Add h b [some a] = some h1 ∧ (∀ n, ∃ k, rootWithin h1 k n = true) ∧
      (∀ n, ¬ ChildReach h1 n n) ∧ (∀ n, none ∉ (h1 n).children) ∧
      (∀ n c, some c ∈ (h1 n).children → (h1 c).parent = some n) := by
  obtain ⟨h1, hrun, hpar, hkid, hnil1⟩ := Add_one_links h a b hnil hwf
  have hpar1 : ∀ x, x ≠ a → (h1 x).parent = (h x).parent := fun x hx => by
    rw [hpar x, if_neg hx]
  have hpa : (h1 a).parent = some b := by rw [hpar a, if_pos rfl]
  have hfin1 : ∀ n, ∃ k, rootWithin h1 k n = true := by
    intro n
    obtain ⟨k, hk⟩ := hfin n
    exact rootWithin_reparent hpar1 hpa (hfin b) hab k n hk
  have hwf1 : ∀ n c, some c ∈ (h1 n).children → (h1 c).parent = some n := by
    intro n c hc
    rcases hkid n c hc with ⟨hca, hnb⟩ | ⟨hca, hc0⟩
    · rw [hca, hnb]; exact hpa
    · rw [hpar1 c hca]; exact hwf n c hc0
  exact ⟨h1, hrun, hfin1, ChildReach.irrefl hwf1 hfin1, hnil1, hwf1⟩

/-- C5 (amended) on fresh nodes: node 0 is neither node 1 nor below it, and `0.Add(1)`
keeps the forest. -/
theorem C5_witness :
    ¬ AncestorOrSelf freshWithIds 1 0 ∧
    ∃ h1, Add freshWithIds 0 [some 1] = some h1 ∧ (∀ n, ∃ k, rootWithin h1 k n = true) ∧
      (∀ n, ¬ ChildReach h1 n n) ∧ (∀ n, none ∉ (h1 n).children) ∧
      (∀ n c, some c ∈ (h1 n).children → (h1 c).parent = some n) :=
  have hab : ¬ AncestorOrSelf freshWithIds 1 0 := by
    intro r
    cases r with
    | up hp _ => rw [(freshWithIds_fresh 0).1] at hp; cases hp
  ⟨hab, C5_add_outside_subtree_keeps_forest freshWithIds 1 0
    (fun n => by rw [(freshWithIds_fresh n).2]; simp)
    (fun n c hc => by rw [(freshWithIds_fresh n).2] at hc; cases hc)
    (fun n => ⟨0, by simp [rootWithin, (freshWithIds_fresh n).1]⟩) hab⟩

/-- C5, the claim as stated fails for `b = a`: on fresh parentless nodes, `a.Add(a)`
returns with `a.parent = a` and `a` an entry of its own children list, so the parent
chain of `a` never ends and `a` is reached from itself through children lists. -/
theorem C5_counterexample :
    (∀ n, rootWithin freshWithIds 0 n = true) ∧ (∀ n, (freshWithIds n).children = []) ∧
    ∃ h1, Add freshWithIds 1 [some 1] = some h1 ∧ (h1 1).parent = some 1 ∧
      (h1 1).children = [some 1] ∧ (∀ k, rootWithin h1 k 1 = false) ∧ ChildReach h1 1 1 := by
  refine ⟨fun n => by simp [rootWithin, (freshWithIds_fresh n).1],
    fun n => (freshWithIds_fresh n).2, ?_⟩
  have hev : (Add freshWithIds 1 [some 1]).map (fun g => ((g 1).parent, (g 1).children)) =
      some (some 1, [some 1]) := by decide
  cases hc : Add freshWithIds 1 [some 1] with
  | none => rw [hc] at hev; cases hev
  | some h1 =>
    rw [hc] at hev
    simp only [Option.map_some', Option.some.injEq, Prod.mk.injEq] at hev
    exact ⟨h1, rfl, hev.1, hev.2, rootWithin_self_parent hev.1,
      ChildReach.child (by rw [hev.2]; simp)⟩

/-- C6: after `p.Add(a)` and `p.Remove(a)` on fresh nodes with distinct Ids, the parent
link of `a` still is `p` while `p.children` is empty: `Remove` does not reset the
parent link. -/
theorem C6_remove_keeps_parent_link :
    (attached 0).children = [some 1] ∧ (attached 1).parent = some 0 ∧
    ((Remove attached 0 [some 1]) 1).parent = some 0 ∧
    ((Remove attached 0 [some 1]) 0).children = [] ∧
    ((Remove attached 0 [some 1]) 0).children.count (some 1) = 0 := by
  decide

/-- C7 (amended): for pairwise distinct nodes p, q and a, with a.parent = p, a an entry of
p.children, p.children free of nil and of repeated Ids, q.children free of nil and of
entries with the Id of a: q.Add(a) returns, a.parent = q, q.children is the old list
with a appended, p.children is the old list with a erased, and a.children is
unchanged. -/
theorem C7_reparent_moves (h : Heap R) (p q a : Nat) (hpq : p ≠ q) (hap : a ≠ p)
    (haq : a ≠ q) (hpar : (h a).parent = some p) (hmem : some a ∈ (h p).children)
    (hp : IdsDistinct h (h p).children) (hqnil : none ∉ (h q).children)
    (hq : ∀ c, some c ∈ (h q).children → (h c).Id ≠ (h a).Id) :
    ∃ h1, Add h q [some a] = some h1 ∧ (h1 a).parent = some q ∧
      (h1 q).children = (h q).children ++ [some a] ∧
      (h1 p).children = (h p).children.erase (some a) ∧
      (h1 a).children = (h a).children := by
  have hqk : ((Add.relink h q a) q).children = (h q).children := by
    rw [Add.relink_children, hpar, if_neg (by simpa using hpq)]
  have hpk : ((Add.relink h q a) p).children = (h p).children.erase (some a) := by
    rw [Add.relink_children, if_pos hpar, IdsDistinct.filter_eq_erase a hp hmem]
  have hak : ((Add.relink h q a) a).children = (h a).children := by
    rw [Add.relink_children, hpar, if_neg (by simpa using (Ne.symm hap))]
  rcases Add_one h q a (by rw [hqk]; exact hqnil) with ⟨_, c, hc, hid⟩ | ⟨hrun, _⟩
  · rw [hqk] at hc
    exact absurd hid (hq c hc)
  · refine ⟨_, hrun, ?_, ?_, ?_, ?_⟩
    · rw [Heap.set_other _ _ haq, Add.relink_parent, if_pos rfl]
    · rw [Heap.set_same, hqk]
    · rw [Heap.set_other _ _ hpq, hpk]
    · rw [Heap.set_other _ _ haq, hak]

/-- C7 (amended) on the sample tree `family`: node 3 moves from node 1 to node 2. -/
theorem C7_witness :
    (family 3).parent = some 1 ∧ some 3 ∈ (family 1).children ∧
    ∃ h1, Add family 2 [some 3] = some h1 ∧ (h1 3).parent = some 2 ∧
      (h1 2).children = (family 2).children ++ [some 3] ∧
      (h1 1).children = (family 1).children.erase (some 3) ∧
      (h1 3).children = (family 3).children :=
  ⟨rfl, by decide,
    C7_reparent_moves family 1 2 3 (by decide) (by decide) (by decide) rfl (by decide)
      ⟨by decide, by show List.Pairwise _ [some 3]; simp⟩ (by decide)
      (fun c hc => by
        have : (family 2).children = [] := rfl
        rw [this] at hc
        cases hc)⟩

/-- C7, the claim as stated fails when `a` is `q`: in the state after `p.Add(q)` on
fresh nodes with distinct Ids, all premises hold for `p`, `q` and `a = q` (addresses 0, 1,
1), and `q.Add(q)` appends `q` to its own children list, so the children list of `a` is
not unchanged. -/
theorem C7_counterexample :
    (0 : Nat) ≠ 1 ∧ (attached 1).parent = some 0 ∧ (attached 0).children = [some 1] ∧
    (attached 1).children = [] ∧
    (Add attached 1 [some 1]).map
        (fun h1 => ((h1 1).parent, (h1 1).children, (h1 0).children)) =
      some (some 1, [some 1], []) ∧
    ¬ ∃ h1, Add attached 1 [some 1] = some h1 ∧ (h1 1).children = (attached 1).children := by
  refine ⟨by decide, by decide, by decide, by decide, by decide, ?_⟩
  rintro ⟨h1, hrun, hk⟩
  have hev : (Add attached 1 [some 1]).map (fun g => (g 1).children) = some [some 1] := by
    decide
  rw [hrun] at hev
  simp only [Option.map_some', Option.some.injEq] at hev
  rw [hev] at hk
  exact absurd hk (by decide)

/-- C8: in every state reachable from freshly created nodes by calls of Add and Remove,
for every node p and every node a, the call p.Add(a) returns, a second call p.Add(a)
directly after it returns as well, and the second call leaves the length of p.children
unchanged. -/
theorem C8_duplicate_add_keeps_length (h : Heap R) (r : Reachable h) (p a : Nat) :
    ∃ h1 h2, Add h p [some a] = some h1 ∧ Add h1 p [some a] = some h2 ∧
      (h2 p).children.length = (h1 p).children.length := by
  obtain ⟨h1, hrun1, inv1⟩ := Add_one_distinct r.distinct p a
  have hnil0 : none ∉ ((Add.relink h p a) p).children :=
    (Add.relink_distinct r.distinct p a p).1
  obtain ⟨hpar, _, c, hc, hcid⟩ := Add_one_present hnil0 hrun1
  have hkids : ((Add.relink h1 p a) p).children =
      (h1 p).children.filter (keepChild h1 (h1 a).Id) := by
    rw [Add.relink_children, if_pos hpar]
  have hnil1 : none ∉ ((Add.relink h1 p a) p).children := (Add.relink_distinct inv1 p a p).1
  rcases Add_one h1 p a hnil1 with ⟨_, c1, hc1, hid1⟩ | ⟨hrun2, _⟩
  · exfalso
    rw [hkids] at hc1
    have := (List.mem_filter.mp hc1).2
    simp [keepChild, hid1] at this
  · refine ⟨h1, _, hrun1, hrun2, ?_⟩
    simp only [Heap.set_same, List.length_append, List.length_singleton]
    rw [hkids]
    exact IdsDistinct.filter_length (h1 a).Id (inv1 p) ⟨c, hc, hcid⟩

/-- C8 on fresh nodes: `0.Add(1)` twice. -/
theorem C8_witness :
    Reachable freshWithIds ∧
    ∃ h1 h2, Add freshWithIds 0 [some 1] = some h1 ∧ Add h1 0 [some 1] = some h2 ∧
      (h2 0).children.length = (h1 0).children.length :=
  ⟨Reachable.fresh _ (fun n => freshWithIds_fresh n),
    C8_duplicate_add_keeps_length freshWithIds
      (Reachable.fresh _ (fun n => freshWithIds_fresh n)) 0 1⟩

/-- C9: when `p.children` holds only nodes, `p.Remove(a)` replaces it by the old list
without the entries whose Id equals a.Id, the other entries keeping their order, and
changes nothing else in the heap; when no entry has that Id the heap is unchanged; a nil
argument is skipped. -/
theorem C9_remove_filters_by_id (h : Heap R) (p a : Nat) (cs : List Nat)
    (hcs : (h p).children = cs.map some) :
    ((Remove h p [some a]) p).children =
        (cs.filter (fun c => decide ((h c).Id ≠ (h a).Id))).map some ∧
      (∀ x, x ≠ p → (Remove h p [some a]) x = h x) ∧
      ((∀ c ∈ cs, (h c).Id ≠ (h a).Id) → Remove h p [some a] = h) ∧
      (∀ objs, Remove h p (none :: objs) = Remove h p objs) := by
  have hfilter : (h p).children.filter (keepChild h (h a).Id) =
      (cs.filter (fun c => decide ((h c).Id ≠ (h a).Id))).map some := by
    rw [hcs, List.filter_map]
    rfl
  refine ⟨?_, ?_, ?_, ?_⟩
  · rw [Remove_single_children, hfilter]
  · intro x hx
    exact Remove_single_other h p a hx
  · intro hall
    rw [Remove_single, hfilter, List.filter_eq_self.mpr (by simpa using hall), ← hcs]
    exact Heap.set_self h p
  · intro objs
    simp [Remove]

/-- C9 on the sample tree `family`: `0.Remove(1)` leaves `[2]`, and `0.Remove(3)`, where
no child of node 0 has the Id of node 3, changes nothing. -/
theorem C9_witness :
    (family 0).children = [1, 2].map some ∧
    (((Remove family 0 [some 1]) 0).children =
        ([1, 2].filter (fun c => decide ((family c).Id ≠ (family 1).Id))).map some ∧
      (∀ x, x ≠ 0 → (Remove family 0 [some 1]) x = family x) ∧
      ((∀ c ∈ [1, 2], (family c).Id ≠ (family 1).Id) → Remove family 0 [some 1] = family) ∧
      (∀ objs, Remove family 0 (none :: objs) = Remove family 0 objs)) ∧
    ((Remove family 0 [some 1]) 0).children = [some 2] ∧
    Remove family 0 [some 3] = family :=
  ⟨rfl, C9_remove_filters_by_id family 0 1 [1, 2] rfl,
    (C9_remove_filters_by_id family 0 1 [1, 2] rfl).1.trans (by decide),
    (C9_remove_filters_by_id family 0 3 [1, 2] rfl).2.2.1 (by decide)⟩

/-- C10: in the chain scenario the update pass returns, and afterwards the translation
column of B.World is (0, 0, 0), B.World being the zero matrix, and the positions of A
and B are still (0, 0, 0): the rotation of a new object is the zero quaternion, under
which every translation is zero, and the scene root never computes its World. -/
theorem C10_chain_world_position_is_zero :
    ∃ h, chainScenario 3 = some h ∧
      ((h 2).World.m12, (h 2).World.m13, (h 2).World.m14) = (0, 0, 0) ∧
      (h 2).World = Matrix4.zero ∧ (h 1).Pos = ⟨0, 0, 0⟩ ∧ (h 2).Pos = ⟨0, 0, 0⟩ ∧
      (h 0).World = Matrix4.zero := by
  have hev : (chainScenario 3).map (fun h => ((h 2).World, (h 1).Pos, (h 2).Pos, (h 0).World)) =
      some (Matrix4.MultiplyMatrices (Matrix4.MultiplyMatrices Matrix4.zero
          (Matrix4.Compose (Vector3.Add Vector3.zero (Vector3.MultiplyScalar
            (Vector3.ApplyQuaternion xAixs Quaternion.zero) 1)) Quaternion.zero ⟨1, 1, 1⟩))
          (Matrix4.Compose (Vector3.Add Vector3.zero (Vector3.MultiplyScalar
            (Vector3.ApplyQuaternion yAixs Quaternion.zero) 1)) Quaternion.zero ⟨1, 1, 1⟩),
        Vector3.Add Vector3.zero (Vector3.MultiplyScalar
          (Vector3.ApplyQuaternion xAixs Quaternion.zero) 1),
        Vector3.Add Vector3.zero (Vector3.MultiplyScalar
          (Vector3.ApplyQuaternion yAixs Quaternion.zero) 1),
        Matrix4.zero) := rfl
  cases hc : chainScenario 3 with
  | none => rw [hc] at hev; cases hev
  | some h =>
    rw [hc] at hev
    simp only [Option.map_some', Option.some.injEq, Prod.mk.injEq] at hev
    obtain ⟨hw, hp1, hp2, hw0⟩ := hev
    have hw2 : (h 2).World = Matrix4.zero := by
      rw [hw, Matrix4.zero_mul, Matrix4.zero_mul]
    refine ⟨h, rfl, ?_, hw2, ?_, ?_, hw0⟩
    · rw [hw2]; rfl
    · rw [hp1, Vector3.applyQuaternion_zero]
      simp [Vector3.Add, Vector3.MultiplyScalar, Vector3.zero]
    · rw [hp2, Vector3.applyQuaternion_zero]
      simp [Vector3.Add, Vector3.MultiplyScalar, Vector3.zero]

/-- C11: the object built by `NewObject`, and so the one returned by `Scene.NewObject`, has
position zero, no parent, no children and both auto-update flags set, but its rotation is
the all-zero quaternion (0, 0, 0, 0), which differs from the identity (0, 0, 0, 1). -/
theorem C11_new_object_rotation_is_zero (id : Nat) (m : Mem R) (s : Scene) :
    (NewObject id : Object R).Pos = ⟨0, 0, 0⟩ ∧
    (NewObject id : Object R).Quat = ⟨0, 0, 0, 0⟩ ∧
    (NewObject id : Object R).Quat ≠ ⟨0, 0, 0, 1⟩ ∧
    (NewObject id : Object R).parent = none ∧
    (NewObject id : Object R).children = [] ∧
    (NewObject id : Object R).localAutoUpdate = true ∧
    (NewObject id : Object R).worldAutoUpdate = true ∧
    ((Scene.NewObject m s).1.heap (Scene.NewObject m s).2.2).Quat = ⟨0, 0, 0, 0⟩ := by
  refine ⟨rfl, rfl, ?_, rfl, rfl, rfl, rfl, ?_⟩
  · intro hq
    have hw := congrArg Quaternion.W hq
    simp [NewObject, Object.zero, Quaternion.zero] at hw
  · simp [Scene.NewObject, NewObject, Object.zero, Quaternion.zero]

/-- C12: for a node n whose parent chain ends within k links and whose chain nodes all
have localAutoUpdate and worldAutoUpdate set, n.UpdateWorldMatrix(true, false) returns for
every recursion budget above k, and afterwards every node m of the chain has its old Pos
and Quat, m.Local = Compose(m.Pos, m.Quat, (1,1,1)), and m.World is the product of the
composed local matrices from the top of the chain down to m, whatever Local and World
the chain held before. -/
theorem C12_pull_update_chain (h : Heap R) (n k : Nat) (hchain : rootWithin h k n = true)
    (hauto : ∀ m, AncestorOrSelf h m n →
      (h m).localAutoUpdate = true ∧ (h m).worldAutoUpdate = true) :
    ∀ fuel, k < fuel → ∃ h1, UpdateWorldMatrix fuel h n true false = some h1 ∧
      ∀ m, AncestorOrSelf h m n →
        (h1 m).Pos = (h m).Pos ∧ (h1 m).Quat = (h m).Quat ∧
        (h1 m).Local = Matrix4.Compose (h m).Pos (h m).Quat ⟨1, 1, 1⟩ ∧
        ∀ j, rootWithin h j m = true → (h1 m).World = composedWorld h j m := by
  intro fuel hf
  obtain ⟨h1, hrun, hset⟩ := UpdateWorldMatrix.pull_settles k fuel h n hchain hf
  obtain ⟨hs, _⟩ := UpdateWorldMatrix.pull_frame fuel h n h1 hrun
  have hcomp := Settled.composed k n (by rw [rootWithin_reshape hs]; exact hchain) hset
    (fun m hm => by
      obtain ⟨_, _, _, _, _, _, s7, s8⟩ := hs m
      rw [s7, s8]
      exact hauto m (hm.of_shape hs.symm))
  refine ⟨h1, hrun, fun m hm => ?_⟩
  obtain ⟨_, s2, _, s4, _⟩ := hs m
  obtain ⟨hL, hW⟩ := hcomp m (hm.of_shape hs)
  refine ⟨s2, s4, by rw [hL, s2, s4], fun j hj => ?_⟩
  rw [hW j (by rw [rootWithin_reshape hs]; exact hj), composedWorld_reshape hs]

/-- C12 on the sample tree `family`: the chain of node 3 is 3, 1, 0. -/
theorem C12_witness :
    rootWithin family 2 3 = true ∧
    ∃ h1, UpdateWorldMatrix 3 family 3 true false = some h1 ∧
      ∀ m, AncestorOrSelf family m 3 →
        (h1 m).Pos = (family m).Pos ∧ (h1 m).Quat = (family m).Quat ∧
        (h1 m).Local = Matrix4.Compose (family m).Pos (family m).Quat ⟨1, 1, 1⟩ ∧
        ∀ j, rootWithin family j m = true → (h1 m).World = composedWorld family j m :=
  ⟨by decide, C12_pull_update_chain family 3 2 (by decide) (fun m _ => family_auto m) 3
    (by decide)⟩

/-- C13: for every node n of a tree of bounded height with a parentless root (no nil
entries, every entry c of a list m.children has c.parent = m), if n is dirty or force is
set, then n.UpdateMatrixWorld(force) returns for every recursion budget above the height,
and afterwards n and every descendant of n has the dirty flag down and
World = parent.World * Local (World = Local if parentless), whatever the dirty and
auto-update flags of the descendants were; Pos, Quat, links and flags other than the dirty
flag are kept and nodes outside the subtree of n are untouched. -/
theorem C13_dirty_or_forced_refreshes_subtree (h : Heap R) (r d n : Nat) (force : Bool)
    (hroot : (h r).parent = none) (htree : TreeWithin h d r) (hn : InTree h r n)
    (hfire : (h n).matrixWorldNeedUpdate = true ∨ force = true) :
    ∀ fuel, d < fuel → ∃ h1, UpdateMatrixWorld fuel h n force = some h1 ∧
      (∀ m, InTree h n m →
        (h1 m).matrixWorldNeedUpdate = false ∧
        (h1 m).World =
          (match (h1 m).parent with
            | none => (h1 m).Local
            | some p => Matrix4.MultiplyMatrices (h1 p).World (h1 m).Local)) ∧
      SameShape h h1 ∧ (∀ x, ¬ InTree h n x → h1 x = h x) := by
  intro fuel hfuel
  obtain ⟨h1, hrun, hs, hframe, hgood⟩ := UpdateMatrixWorld.refresh fuel d h n force hfuel
    (htree.of_inTree hn) (by rcases hfire with e | e <;> simp [e])
    (InTree.parent_outside htree hroot hn)
  refine ⟨h1, hrun, fun m hm => ⟨(hgood m hm).2.2, ?_⟩, hs, hframe⟩
  rw [hs.parent]
  exact (hgood m hm).2.1

/-- C13 on the tree `stale`, whose nodes have both auto-update flags off and where only the
root 0 is dirty: the pass from the root without force refreshes node 3, two levels down. -/
theorem C13_witness :
    (stale 0).parent = none ∧ TreeWithin stale 2 0 ∧ InTree stale 0 0 ∧
    (stale 3).matrixWorldNeedUpdate = false ∧ (stale 3).worldAutoUpdate = false ∧
    (stale 3).localAutoUpdate = false ∧
    ∃ h1, UpdateMatrixWorld 3 stale 0 false = some h1 ∧
      (∀ m, InTree stale 0 m →
        (h1 m).matrixWorldNeedUpdate = false ∧
        (h1 m).World =
          (match (h1 m).parent with
            | none => (h1 m).Local
            | some p => Matrix4.MultiplyMatrices (h1 p).World (h1 m).Local)) ∧
      SameShape stale h1 ∧ (∀ x, ¬ InTree stale 0 x → h1 x = stale x) :=
  ⟨rfl, by simp [TreeWithin, stale, family, NewObject, Object.zero], InTree.root, rfl, rfl, rfl,
    C13_dirty_or_forced_refreshes_subtree stale 0 2 0 false rfl
      (by simp [TreeWithin, stale, family, NewObject, Object.zero]) InTree.root (Or.inl rfl) 3
      (by decide)⟩

/-- C14 (amended): for a node n whose parent chain is finite, if the world matrix W that
the pull update leaves on n is invertible and has fourth row (0, 0, 0, 1), then for
every vector v, n.WorldToLocal(v) returns u with n.LocalToWorld(u) = v, and
n.LocalToWorld(v) returns w with n.WorldToLocal(w) = v; every call leaves the heap as
the first pull update left it, so all calls use the same W. -/
theorem C14_round_trip_affine [DecidableEq R] (h h1 : Heap R) (n k fuel : Nat)
    (v : Vector3 R) (hchain : rootWithin h k n = true) (hfuel : k < fuel)
    (hrun : UpdateWorldMatrix fuel h n true false = some h1)
    (hdet : Matrix4.det (h1 n).World ≠ 0) (haff : (h1 n).World.Affine) :
    (∃ u, WorldToLocal fuel h n v = some (h1, v, u) ∧
      LocalToWorld fuel h1 n u = some (h1, u, v)) ∧
    (∃ w, LocalToWorld fuel h n v = some (h1, v, w) ∧
      WorldToLocal fuel h1 n w = some (h1, w, v)) := by
  obtain ⟨g, hg, hset⟩ := UpdateWorldMatrix.pull_settles k fuel h n hchain hfuel
  rw [hrun] at hg
  cases hg
  obtain ⟨hs, _⟩ := UpdateWorldMatrix.pull_frame fuel h n h1 hrun
  have hfix : UpdateWorldMatrix fuel h1 n true false = some h1 :=
    UpdateWorldMatrix.pull_fixed k fuel h1 n (by rw [rootWithin_reshape hs]; exact hchain)
      hfuel hset
  constructor
  · refine ⟨v.ApplyMatrix4 (Matrix4.GetInverse (h1 n).World), ?_, ?_⟩
    · simp [WorldToLocal, hrun, Vector3.Clone]
    · simp only [LocalToWorld, hfix, Vector3.Clone]
      rw [Vector3.applyMatrix4_inverse_then (h1 n).World v haff hdet]
  · refine ⟨v.ApplyMatrix4 (h1 n).World, ?_, ?_⟩
    · simp [LocalToWorld, hrun, Vector3.Clone]
    · simp only [WorldToLocal, hfix, Vector3.Clone]
      rw [Vector3.applyMatrix4_then_inverse (h1 n).World v haff hdet]

/-- C14 (amended) on a parentless node of `freshWithIds`, whose world matrix is the
identity, with the vector (1, 2, 3). -/
theorem C14_witness :
    ∃ h1, UpdateWorldMatrix 1 freshWithIds 0 true false = some h1 ∧
      Matrix4.det (h1 0).World ≠ 0 ∧ (h1 0).World.Affine ∧
      (∃ u, WorldToLocal 1 freshWithIds 0 ⟨1, 2, 3⟩ = some (h1, ⟨1, 2, 3⟩, u) ∧
        LocalToWorld 1 h1 0 u = some (h1, u, ⟨1, 2, 3⟩)) ∧
      (∃ w, LocalToWorld 1 freshWithIds 0 ⟨1, 2, 3⟩ = some (h1, ⟨1, 2, 3⟩, w) ∧
        WorldToLocal 1 h1 0 w = some (h1, w, ⟨1, 2, 3⟩)) := by
  obtain ⟨h1, hrun, hw⟩ := freshWithIds_pulled
  have hdet : Matrix4.det (h1 0).World ≠ 0 := by
    rw [hw]; simp [Matrix4.det, Matrix4.Identity]
  have haff : (h1 0).World.Affine := by
    rw [hw]; simp [Matrix4.Affine, Matrix4.Identity]
  exact ⟨h1, hrun, hdet, haff,
    C14_round_trip_affine freshWithIds h1 0 0 1 ⟨1, 2, 3⟩ (by decide) (by decide) hrun hdet haff⟩

/-- C14, the claim as stated fails for an invertible world matrix whose fourth row is not
(0, 0, 0, 1): on the parentless node 0 of `skewed`, whose `localAutoUpdate` is off, the
pull update copies `Local` to `World`, the determinant is 1, `WorldToLocal((1,0,0))`
returns (1, 0, 0) and `LocalToWorld` of that returns (2, 0, 0). -/
theorem C14_counterexample :
    (skewed 0).parent = none ∧
    ∃ h1 u w, WorldToLocal 1 skewed 0 ⟨1, 0, 0⟩ = some (h1, ⟨1, 0, 0⟩, u) ∧
      Matrix4.det (h1 0).World = 1 ∧
      LocalToWorld 1 h1 0 u = some (h1, u, w) ∧ u = ⟨1, 0, 0⟩ ∧ w = ⟨2, 0, 0⟩ ∧
      w ≠ ⟨1, 0, 0⟩ := by
  have hrun : UpdateWorldMatrix 1 skewed 0 true false =
      some (UpdateWorldMatrix.node skewed 0 none) := by
    rw [UpdateWorldMatrix.pull_step]; rfl
  have hw : ((UpdateWorldMatrix.node skewed 0 none) 0).World =
      ⟨1, 0, 0, 1, 0, 1, 0, 0, 0, 0, 1, 0, 1, 0, 0, 2⟩ := by
    simp [UpdateWorldMatrix.node, skewed, Object.zero, setWorld]
  have hset : Settled (UpdateWorldMatrix.node skewed 0 none) 0 0 :=
    UpdateWorldMatrix.node_settled skewed 0 (by simp [skewed, Object.zero])
  have hfix : UpdateWorldMatrix 1 (UpdateWorldMatrix.node skewed 0 none) 0 true false =
      some (UpdateWorldMatrix.node skewed 0 none) :=
    UpdateWorldMatrix.pull_fixed 0 1 _ 0
      (by simp [rootWithin, (UpdateWorldMatrix.node_frame skewed 0 none).1.parent, skewed,
        Object.zero])
      (by decide) hset
  have hinv : Matrix4.GetInverse
      (⟨1, 0, 0, 1, 0, 1, 0, 0, 0, 0, 1, 0, 1, 0, 0, 2⟩ : Matrix4 ℚ) =
      ⟨2, 0, 0, -1, 0, 1, 0, 0, 0, 0, 1, 0, -1, 0, 0, 1⟩ := by
    simp [Matrix4.GetInverse]
    norm_num
  refine ⟨rfl, UpdateWorldMatrix.node skewed 0 none, ⟨1, 0, 0⟩, ⟨2, 0, 0⟩, ?_, ?_, ?_, rfl, rfl,
    ?_⟩
  · simp only [WorldToLocal, hrun, hw, hinv, Vector3.Clone, Vector3.ApplyMatrix4]
    norm_num
  · rw [hw]; simp [Matrix4.det]; norm_num
  · simp only [LocalToWorld, hfix, hw, Vector3.Clone, Vector3.ApplyMatrix4]
    norm_num
  · intro he
    have := congrArg Vector3.X he
    norm_num at this

/-- C15: whenever the pull update inside n.LocalToWorld(v) and n.WorldToLocal(v)
returns, both calls return, the vector that v points to is still v, every node has its
old Id, Pos, Rot, Quat, parent, children and auto-update flags, and every node that is
neither n nor on the parent chain of n is unchanged in all fields, Local, World and the
dirty flag included; on a finite parent chain both calls return for every recursion
budget above its length. -/
theorem C15_coordinate_changes_frame [DecidableEq R] (fuel : Nat) (h h1 : Heap R) (n : Nat)
    (v : Vector3 R) (hrun : UpdateWorldMatrix fuel h n true false = some h1) :
    LocalToWorld fuel h n v = some (h1, v, v.ApplyMatrix4 (h1 n).World) ∧
      WorldToLocal fuel h n v =
        some (h1, v, v.ApplyMatrix4 (Matrix4.GetInverse (h1 n).World)) ∧
      SameShape h h1 ∧ (∀ x, ¬ AncestorOrSelf h x n → h1 x = h x) ∧
      (∀ k f, rootWithin h k n = true → k < f →
        ∃ g, LocalToWorld f h n v = some (g, v, v.ApplyMatrix4 (g n).World) ∧
          WorldToLocal f h n v =
            some (g, v, v.ApplyMatrix4 (Matrix4.GetInverse (g n).World))) := by
  obtain ⟨hs, hf⟩ := UpdateWorldMatrix.pull_frame fuel h n h1 hrun
  refine ⟨by simp [LocalToWorld, hrun, Vector3.Clone],
    by simp [WorldToLocal, hrun, Vector3.Clone], hs, hf, ?_⟩
  intro k f hk hkf
  obtain ⟨g, hg, _⟩ := UpdateWorldMatrix.pull_settles k f h n hk hkf
  exact ⟨g, by simp [LocalToWorld, hg, Vector3.Clone], by simp [WorldToLocal, hg, Vector3.Clone]⟩

/-- C15 on the sample tree `family` with node 3 and the vector (1, 2, 3): node 2 is not on
the chain 3, 1, 0. -/
theorem C15_witness :
    ∃ h1, UpdateWorldMatrix 3 family 3 true false = some h1 ∧
      LocalToWorld 3 family 3 ⟨1, 2, 3⟩ =
        some (h1, ⟨1, 2, 3⟩, (⟨1, 2, 3⟩ : Vector3 ℚ).ApplyMatrix4 (h1 3).World) ∧
      WorldToLocal 3 family 3 ⟨1, 2, 3⟩ =
        some (h1, ⟨1, 2, 3⟩,
          (⟨1, 2, 3⟩ : Vector3 ℚ).ApplyMatrix4 (Matrix4.GetInverse (h1 3).World)) ∧
      SameShape family h1 ∧ (∀ x, ¬ AncestorOrSelf family x 3 → h1 x = family x) ∧
      (∀ k f, rootWithin family k 3 = true → k < f →
        ∃ g, LocalToWorld f family 3 ⟨1, 2, 3⟩ =
            some (g, ⟨1, 2, 3⟩, (⟨1, 2, 3⟩ : Vector3 ℚ).ApplyMatrix4 (g 3).World) ∧
          WorldToLocal f family 3 ⟨1, 2, 3⟩ =
            some (g, ⟨1, 2, 3⟩,
              (⟨1, 2, 3⟩ : Vector3 ℚ).ApplyMatrix4 (Matrix4.GetInverse (g 3).World))) := by
  obtain ⟨h1, hrun, _⟩ := UpdateWorldMatrix.pull_settles 2 3 family 3 (by decide) (by decide)
  exact ⟨h1, hrun, C15_coordinate_changes_frame 3 family h1 3 ⟨1, 2, 3⟩ hrun⟩

/-- C16 (amended): `TranslateOnAxis(a, d)` sets the position to `p + d * rotate(r, a)`,
with `rotate(r, a)` the axis as it was before the call transformed by the node's rotation,
for any axis and any distance; no other field of the node and no other node changes; the
vector that `a` points to is the same after the call unless `a` is the node's own `Pos`
(the argument `&o.Pos`), which holds the new position after the call; `TranslateX`,
`TranslateY`, `TranslateZ` are `TranslateOnAxis` with (1,0,0), (0,1,0), (0,0,1) and leave
the three package variables as they were. -/
theorem C16_translate_on_axis (h : Heap R) (o : Nat) (a : Vector3 R) (axis : VecPtr)
    (d : R) :
    ((TranslateOnAxis h o a d) o).Pos =
        ⟨(h o).Pos.X + d * (a.ApplyQuaternion (h o).Quat).X,
         (h o).Pos.Y + d * (a.ApplyQuaternion (h o).Quat).Y,
         (h o).Pos.Z + d * (a.ApplyQuaternion (h o).Quat).Z⟩ ∧
      TranslateOnAxis h o a d = h.set o { h o with Pos := ((TranslateOnAxis h o a d) o).Pos } ∧
      (TranslateOnAxis.cells h a o axis d).1 = TranslateOnAxis h o (axis.load h a) d ∧
      (TranslateOnAxis.cells h a o axis d).2 = a ∧
      (axis ≠ VecPtr.pos o →
        axis.load (TranslateOnAxis.cells h a o axis d).1 (TranslateOnAxis.cells h a o axis d).2 =
          axis.load h a) ∧
      (axis = VecPtr.pos o →
        axis.load (TranslateOnAxis.cells h a o axis d).1 (TranslateOnAxis.cells h a o axis d).2 =
          ⟨(h o).Pos.X + d * ((h o).Pos.ApplyQuaternion (h o).Quat).X,
           (h o).Pos.Y + d * ((h o).Pos.ApplyQuaternion (h o).Quat).Y,
           (h o).Pos.Z + d * ((h o).Pos.ApplyQuaternion (h o).Quat).Z⟩) ∧
      TranslateX h o d = TranslateOnAxis h o ⟨1, 0, 0⟩ d ∧
      TranslateY h o d = TranslateOnAxis h o ⟨0, 1, 0⟩ d ∧
      TranslateZ h o d = TranslateOnAxis h o ⟨0, 0, 1⟩ d ∧
      TranslateX.cells Axes.init h o d = (TranslateX h o d, Axes.init) ∧
      TranslateY.cells Axes.init h o d = (TranslateY h o d, Axes.init) ∧
      TranslateZ.cells Axes.init h o d = (TranslateZ h o d, Axes.init) := by
  refine ⟨?_, ?_, ?_, rfl, ?_, ?_, rfl, rfl, rfl, rfl, rfl, rfl⟩
  · simp [TranslateOnAxis, Vector3.Add, Vector3.MultiplyScalar, mul_comm]
  · simp [TranslateOnAxis]
  · cases axis <;> rfl
  · intro hne
    cases axis with
    | cell => rfl
    | pos n =>
      have hn : n ≠ o := fun e => hne (by rw [e])
      simp [TranslateOnAxis.cells, VecPtr.load, Heap.set, hn]
    | rot n =>
      by_cases hn : n = o
      · subst hn; simp [TranslateOnAxis.cells, VecPtr.load, Heap.set]
      · simp [TranslateOnAxis.cells, VecPtr.load, Heap.set, hn]
  · intro he
    subst he
    simp [TranslateOnAxis.cells, VecPtr.load, Heap.set, Vector3.Clone, Vector3.Add,
      Vector3.MultiplyScalar, mul_comm]

/-- C16 on a node of `posed` with an axis outside every node: the vector (1, 2, 3) behind
the axis pointer is the same after `TranslateOnAxis(axis, 2)`. -/
theorem C16_witness :
    VecPtr.cell ≠ VecPtr.pos 0 ∧
    VecPtr.cell.load (TranslateOnAxis.cells posed ⟨1, 2, 3⟩ 0 VecPtr.cell 2).1
        (TranslateOnAxis.cells posed ⟨1, 2, 3⟩ 0 VecPtr.cell 2).2 =
      VecPtr.cell.load posed ⟨1, 2, 3⟩ :=
  ⟨by decide, (C16_translate_on_axis posed 0 ⟨1, 2, 3⟩ VecPtr.cell 2).2.2.2.2.1 (by decide)⟩

/-- C16, the claim as stated fails when the axis argument is the node's own position: on
node 0 of `posed`, at (1, 2, 3) with the identity rotation, the call
`o.TranslateOnAxis(&o.Pos, 2)` leaves (3, 6, 9) behind the axis pointer, where (1, 2, 3)
was before. -/
theorem C16_counterexample :
    (VecPtr.pos 0).load posed ⟨0, 0, 0⟩ = ⟨1, 2, 3⟩ ∧
    (VecPtr.pos 0).load (TranslateOnAxis.cells posed ⟨0, 0, 0⟩ 0 (VecPtr.pos 0) 2).1
        (TranslateOnAxis.cells posed ⟨0, 0, 0⟩ 0 (VecPtr.pos 0) 2).2 = ⟨3, 6, 9⟩ ∧
    (VecPtr.pos 0).load (TranslateOnAxis.cells posed ⟨0, 0, 0⟩ 0 (VecPtr.pos 0) 2).1
        (TranslateOnAxis.cells posed ⟨0, 0, 0⟩ 0 (VecPtr.pos 0) 2).2 ≠
      (VecPtr.pos 0).load posed ⟨0, 0, 0⟩ := by
  have hafter : (VecPtr.pos 0).load (TranslateOnAxis.cells posed ⟨0, 0, 0⟩ 0 (VecPtr.pos 0) 2).1
      (TranslateOnAxis.cells posed ⟨0, 0, 0⟩ 0 (VecPtr.pos 0) 2).2 = ⟨3, 6, 9⟩ := by
    simp [TranslateOnAxis.cells, VecPtr.load, posed, NewObject, Heap.set, Vector3.Clone,
      Vector3.ApplyQuaternion, Vector3.MultiplyScalar, Vector3.Add]
    norm_num
  refine ⟨rfl, hafter, ?_⟩
  rw [hafter]
  simp [VecPtr.load, posed]

/-- C17: let node r be parentless with a among its children and a.parent = r, let a root a
tree of bounded height (no nil entries, every entry x of a list m.children has
x.parent = m) with b among its children, and let c be a parentless node other than r that
roots such a tree and has no child with the Id of a; every node of the two trees has
localAutoUpdate set, and positions and rotations are arbitrary.  Then c.Add(a) returns,
the pass c.UpdateMatrixWorld(false) on the resulting state returns for every recursion
budget above the height plus one, and afterwards a.World = Compose(c) * Compose(a) and
b.World = (Compose(c) * Compose(a)) * Compose(b), where Compose(x) is the composition of
the position and rotation of x with unit scale; a is no longer an entry of r.children, it
is an entry of c.children and its parent is c. -/
theorem C17_reattach_composes_through_new_parent (h : Heap R) (r a b c d : Nat)
    (hr : (h r).parent = none) (har : (h a).parent = some r)
    (hra : some a ∈ (h r).children) (hab : some b ∈ (h a).children)
    (hta : TreeWithin h d a) (hc : (h c).parent = none) (hrc : r ≠ c)
    (htc : TreeWithin h d c)
    (hno : ∀ x, some x ∈ (h c).children → (h x).Id ≠ (h a).Id)
    (hauto : ∀ m, InTree h c m ∨ InTree h a m → (h m).localAutoUpdate = true) :
    ∀ fuel, d + 1 < fuel → ∃ h1 g, Add h c [some a] = some h1 ∧
      UpdateMatrixWorld fuel h1 c false = some g ∧
      (g a).World = Matrix4.MultiplyMatrices
        (Matrix4.Compose (h c).Pos (h c).Quat ⟨1, 1, 1⟩)
        (Matrix4.Compose (h a).Pos (h a).Quat ⟨1, 1, 1⟩) ∧
      (g b).World = Matrix4.MultiplyMatrices
        (Matrix4.MultiplyMatrices
          (Matrix4.Compose (h c).Pos (h c).Quat ⟨1, 1, 1⟩)
          (Matrix4.Compose (h a).Pos (h a).Quat ⟨1, 1, 1⟩))
        (Matrix4.Compose (h b).Pos (h b).Quat ⟨1, 1, 1⟩) ∧
      some a ∈ (h r).children ∧ some a ∉ (g r).children ∧
      some a ∈ (g c).children ∧ (g a).parent = some c := by
  intro fuel hfuel
  have hnilc : none ∉ (h c).children := by
    intro hmem
    obtain ⟨x, hx, _⟩ := htc.kids none hmem
    cases hx
  obtain ⟨h1, hrun, hpar1, hkc, hkr, hko, hin⟩ := Add_reattach h r a c har hrc hnilc hno
  have hca : c ≠ a := fun e => by rw [e, har] at hc; cases hc
  have hra2 : r ≠ a := fun e => by rw [e, har] at hr; cases hr
  have hsubset : ∀ m, m ≠ c → ∀ e ∈ (h1 m).children, e ∈ (h m).children := by
    intro m hm e he
    by_cases hmr : m = r
    · subst hmr
      rw [hkr] at he
      exact List.mem_of_mem_filter he
    · rw [hko m hm hmr] at he
      exact he
  have ha_r : some a ∉ (h1 r).children := by
    rw [hkr]
    intro hmem
    have := (List.mem_filter.mp hmem).2
    simp [keepChild] at this
  -- the subtree of an old child of `c` and the subtree of `a` are trees in the new state
  have hshrink : ∀ (d1 k : Nat), TreeWithin h d1 k → ¬ InTree h k c →
      (∀ m, InTree h k m → some a ∈ (h m).children → some a ∉ (h1 m).children) →
      TreeWithin h1 d1 k := by
    intro d1 k htk hkc2 hka
    apply TreeWithin.shrink d1 k htk
    intro m hm
    have hmc : m ≠ c := fun e => hkc2 (e ▸ hm)
    refine ⟨hsubset m hmc, ?_⟩
    intro x hx
    rw [hpar1]
    by_cases hxa : x = a
    · subst hxa
      exact absurd hx (hka m hm (hsubset m hmc _ hx))
    · rw [if_neg hxa]
  have hta1 : TreeWithin h1 d a := by
    apply hshrink d a hta
    · intro hin2
      rcases InTree.parent_mem hta hin2 with e | ⟨p, hp, _, _⟩
      · exact hca e
      · rw [hc] at hp; cases hp
    · intro m hm hmem _
      exact (hta.of_inTree hm).not_below d m a hmem hm
  have ht1 : TreeWithin h1 (d + 1) c := by
    intro e he
    rw [hkc] at he
    rcases List.mem_append.mp he with hold | hnew
    · obtain ⟨k, hk, hkp, d1, hd1, htk⟩ := htc.kids e hold
      subst hk
      have hka : k ≠ a := by
        intro e2
        rw [e2, har] at hkp
        exact hrc (Option.some.inj hkp)
      refine ⟨k, rfl, by rw [hpar1, if_neg hka, hkp], ?_⟩
      cases d with
      | zero => cases hd1
      | succ d2 =>
        obtain ⟨k2, hk2, _, htk2⟩ := htc _ hold
        cases hk2
        apply TreeWithin.mono
        apply hshrink d2 k htk2 (htc.not_below _ c k hold)
        intro m hm hmem hmem1
        obtain ⟨x, hx, hxp, _⟩ := ((TreeWithin.mono _ _ htk2).of_inTree hm).kids _ hmem
        cases hx
        rw [har] at hxp
        cases hxp
        exact ha_r hmem1
    · simp only [List.mem_singleton] at hnew
      subst hnew
      exact ⟨a, rfl, by rw [hpar1, if_pos rfl], hta1⟩
  have hsplit : ∀ m, InTree h1 c m → InTree h c m ∨ InTree h a m := by
    intro m hm
    induction hm with
    | root => exact Or.inl InTree.root
    | @child n x _ hx ih =>
      by_cases hnc : n = c
      · subst hnc
        rw [hkc] at hx
        rcases List.mem_append.mp hx with hold | hnew
        · exact Or.inl (InTree.child InTree.root hold)
        · simp only [List.mem_singleton, Option.some.injEq] at hnew
          subst hnew
          exact Or.inr InTree.root
      · have hmem := hsubset n hnc _ hx
        exact ih.elim (fun i => Or.inl (InTree.child i hmem))
          (fun i => Or.inr (InTree.child i hmem))
  obtain ⟨g, hrun2, gs, _, ggood⟩ := UpdateMatrixWorld.subtree fuel (d + 1) h1 c false hfuel ht1
    (fun m hm => by rw [(hin m).2.2.1]; exact hauto m (hsplit m hm))
    (fun p hp => by rw [hpar1, if_neg hca, hc] at hp; cases hp)
  have hac : a ≠ c := fun e => hca e.symm
  have hba : b ≠ a := by
    intro e
    subst e
    exact hta.not_below d b b hab InTree.root
  have hbp : (h b).parent = some a := by
    obtain ⟨x, hx, hxp, _⟩ := hta.kids _ hab
    cases hx
    exact hxp
  have ina : InTree h1 c a := InTree.child InTree.root (by rw [hkc]; simp)
  have inb : InTree h1 c b :=
    InTree.child ina (by rw [hko a hac (Ne.symm hra2)]; exact hab)
  have wc : (g c).World = Matrix4.Compose (h c).Pos (h c).Quat ⟨1, 1, 1⟩ := by
    obtain ⟨l, w, _⟩ := ggood c InTree.root
    rw [hpar1, if_neg hca, hc] at w
    rw [w, l, (hin c).1, (hin c).2.1]
  have wa : (g a).World = Matrix4.MultiplyMatrices
      (Matrix4.Compose (h c).Pos (h c).Quat ⟨1, 1, 1⟩)
      (Matrix4.Compose (h a).Pos (h a).Quat ⟨1, 1, 1⟩) := by
    obtain ⟨l, w, _⟩ := ggood a ina
    rw [hpar1, if_pos rfl] at w
    simp only at w
    rw [w, l, wc, (hin a).1, (hin a).2.1]
  have wb : (g b).World = Matrix4.MultiplyMatrices
      (Matrix4.MultiplyMatrices
        (Matrix4.Compose (h c).Pos (h c).Quat ⟨1, 1, 1⟩)
        (Matrix4.Compose (h a).Pos (h a).Quat ⟨1, 1, 1⟩))
      (Matrix4.Compose (h b).Pos (h b).Quat ⟨1, 1, 1⟩) := by
    obtain ⟨l, w, _⟩ := ggood b inb
    rw [hpar1, if_neg hba, hbp] at w
    simp only at w
    rw [w, l, wa, (hin b).1, (hin b).2.1]
  refine ⟨h1, g, hrun, hrun2, wa, wb, hra, ?_, ?_, ?_⟩
  · rw [gs.children]
    exact ha_r
  · rw [gs.children, hkc]
    simp
  · rw [gs.parent, hpar1, if_pos rfl]

/-- C17 on the sample tree `family`: node 1, a child of the root 0 with child 3, is moved
below the parentless node 4. -/
theorem C17_witness :
    (family 0).parent = none ∧ (family 1).parent = some 0 ∧
    some 1 ∈ (family 0).children ∧ some 3 ∈ (family 1).children ∧
    TreeWithin family 1 1 ∧ (family 4).parent = none ∧ 0 ≠ 4 ∧ TreeWithin family 1 4 ∧
    ∃ h1 g, Add family 4 [some 1] = some h1 ∧
      UpdateMatrixWorld 3 h1 4 false = some g ∧
      (g 1).World = Matrix4.MultiplyMatrices
        (Matrix4.Compose (family 4).Pos (family 4).Quat ⟨1, 1, 1⟩)
        (Matrix4.Compose (family 1).Pos (family 1).Quat ⟨1, 1, 1⟩) ∧
      (g 3).World = Matrix4.MultiplyMatrices
        (Matrix4.MultiplyMatrices
          (Matrix4.Compose (family 4).Pos (family 4).Quat ⟨1, 1, 1⟩)
          (Matrix4.Compose (family 1).Pos (family 1).Quat ⟨1, 1, 1⟩))
        (Matrix4.Compose (family 3).Pos (family 3).Quat ⟨1, 1, 1⟩) ∧
      some 1 ∈ (family 0).children ∧ some 1 ∉ (g 0).children ∧
      some 1 ∈ (g 4).children ∧ (g 1).parent = some 4 :=
  ⟨rfl, rfl, by decide, by decide, by simp [TreeWithin, family, NewObject, Object.zero], rfl,
    by decide, by simp [TreeWithin, family, NewObject, Object.zero],
    C17_reattach_composes_through_new_parent family 0 1 3 4 1 rfl rfl (by decide) (by decide)
      (by simp [TreeWithin, family, NewObject, Object.zero]) rfl (by decide)
      (by simp [TreeWithin, family, NewObject, Object.zero])
      (fun x hx => by simp [family, NewObject, Object.zero] at hx)
      (fun m _ => (family_auto m).1) 3 (by decide)⟩

/-- C18: in every state reachable from freshly created nodes (all children lists empty, all
parents nil, any Ids, equal ones included) by calls of Add and Remove with arbitrary
arguments, every further call of Add returns, and for every node n: no entry of n.children
is nil, every entry c has c.parent = n, no two entries share an Id, no entry occurs in the
children list of a second node, and no entry occurs twice. -/
theorem C18_children_lists_stay_well_formed (h : Heap R) (r : Reachable h) :
    (∀ o objs, ∃ h1, Add h o objs = some h1 ∧ Reachable h1) ∧
    ∀ n, none ∉ (h n).children ∧
      (∀ c, some c ∈ (h n).children → (h c).parent = some n) ∧
      (h n).children.Pairwise
        (fun x y => ∀ a b, x = some a → y = some b → (h a).Id ≠ (h b).Id) ∧
      (∀ m c, some c ∈ (h n).children → some c ∈ (h m).children → m = n) ∧
      (h n).children.Nodup := by
  refine ⟨fun o objs => ?_, fun n => ⟨r.linked.1 n, r.linked.2 n, (r.distinct n).2, ?_, ?_⟩⟩
  · obtain ⟨h1, hrun, _⟩ := Add_distinct o objs h r.distinct
    exact ⟨h1, hrun, Reachable.add h h1 o objs r hrun⟩
  · intro m c hn hm
    have h1 := r.linked.2 n c hn
    rw [r.linked.2 m c hm] at h1
    exact Option.some.inj h1
  · refine (r.distinct n).2.imp_of_mem ?_
    intro x y hx _ hxy e
    subst e
    cases x with
    | none => exact r.linked.1 n hx
    | some a => exact hxy a a rfl rfl rfl

/-- C18 on the state after `0.Add(1, 2)` on nodes that all carry `Id` 0. -/
theorem C18_witness :
    Reachable collided ∧
    (∀ o objs, ∃ h1, Add collided o objs = some h1 ∧ Reachable h1) ∧
    ∀ n, none ∉ (collided n).children ∧
      (∀ c, some c ∈ (collided n).children → (collided c).parent = some n) ∧
      (collided n).children.Pairwise
        (fun x y => ∀ a b, x = some a → y = some b → (collided a).Id ≠ (collided b).Id) ∧
      (∀ m c, some c ∈ (collided n).children → some c ∈ (collided m).children → m = n) ∧
      (collided n).children.Nodup :=
  ⟨Reachable.add _ _ 0 [some 1, some 2] (Reachable.fresh _ (fun _ => ⟨rfl, rfl⟩)) collided_run,
    C18_children_lists_stay_well_formed collided
      (Reachable.add _ _ 0 [some 1, some 2] (Reachable.fresh _ (fun _ => ⟨rfl, rfl⟩))
        collided_run)⟩

/-- C19: when the rotation of a node is the all-zero quaternion, `RotateOnLocalAxis`,
`RotateOnWorldAxis`, `RotateX`, `RotateY`, `RotateZ` and `ApplyQuaternion` leave it all
zero, and `TranslateOnAxis`, `TranslateX`, `TranslateY`, `TranslateZ` leave the position as
it is, for every axis, angle, quaternion and distance. -/
theorem C19_zero_rotation_absorbs (sin cos : R → R) (h : Heap R) (o : Nat)
    (hq : (h o).Quat = ⟨0, 0, 0, 0⟩) (axis : Vector3 R) (angle d : R) (q : Quaternion R) :
    ((RotateOnLocalAxis sin cos h o axis angle) o).Quat = ⟨0, 0, 0, 0⟩ ∧
      ((RotateOnWorldAxis sin cos h o axis angle) o).Quat = ⟨0, 0, 0, 0⟩ ∧
      ((RotateX sin cos h o angle) o).Quat = ⟨0, 0, 0, 0⟩ ∧
      ((RotateY sin cos h o angle) o).Quat = ⟨0, 0, 0, 0⟩ ∧
      ((RotateZ sin cos h o angle) o).Quat = ⟨0, 0, 0, 0⟩ ∧
      ((ApplyQuaternion h o q) o).Quat = ⟨0, 0, 0, 0⟩ ∧
      ((TranslateOnAxis h o axis d) o).Pos = (h o).Pos ∧
      ((TranslateX h o d) o).Pos = (h o).Pos ∧
      ((TranslateY h o d) o).Pos = (h o).Pos ∧
      ((TranslateZ h o d) o).Pos = (h o).Pos := by
  have hv : ∀ v : Vector3 R, v.ApplyQuaternion (h o).Quat = ⟨0, 0, 0⟩ := by
    intro v
    rw [hq]
    exact Vector3.applyQuaternion_zero v
  have ht : ∀ v : Vector3 R, ((TranslateOnAxis h o v d) o).Pos = (h o).Pos := by
    intro v
    simp [TranslateOnAxis, hv, Vector3.Add, Vector3.MultiplyScalar]
  refine ⟨?_, ?_, ?_, ?_, ?_, ?_, ht axis, ht _, ht _, ht _⟩
  · simp [RotateOnLocalAxis, hq, (Quaternion.zero_absorbs _).1]
  · simp [RotateOnWorldAxis, hq, (Quaternion.zero_absorbs _).2]
  · simp [RotateX, RotateOnLocalAxis, hq, (Quaternion.zero_absorbs _).1]
  · simp [RotateY, RotateOnLocalAxis, hq, (Quaternion.zero_absorbs _).1]
  · simp [RotateZ, RotateOnLocalAxis, hq, (Quaternion.zero_absorbs _).1]
  · simp [ApplyQuaternion, hq, (Quaternion.zero_absorbs _).1]

/-- C19 on an object as `NewObject` returns it, with the axis (1, 2, 3), the angle 1, the
distance 5 and the quaternion (1, 0, 0, 1). -/
theorem C19_witness :
    ((fun _ => NewObject 0 : Heap ℚ) 0).Quat = ⟨0, 0, 0, 0⟩ ∧
    (((RotateOnLocalAxis id id (fun _ => NewObject 0 : Heap ℚ) 0 ⟨1, 2, 3⟩ 1) 0).Quat =
        ⟨0, 0, 0, 0⟩ ∧
      ((RotateOnWorldAxis id id (fun _ => NewObject 0 : Heap ℚ) 0 ⟨1, 2, 3⟩ 1) 0).Quat =
        ⟨0, 0, 0, 0⟩ ∧
      ((RotateX id id (fun _ => NewObject 0 : Heap ℚ) 0 1) 0).Quat = ⟨0, 0, 0, 0⟩ ∧
      ((RotateY id id (fun _ => NewObject 0 : Heap ℚ) 0 1) 0).Quat = ⟨0, 0, 0, 0⟩ ∧
      ((RotateZ id id (fun _ => NewObject 0 : Heap ℚ) 0 1) 0).Quat = ⟨0, 0, 0, 0⟩ ∧
      ((ApplyQuaternion (fun _ => NewObject 0 : Heap ℚ) 0 ⟨1, 0, 0, 1⟩) 0).Quat =
        ⟨0, 0, 0, 0⟩ ∧
      ((TranslateOnAxis (fun _ => NewObject 0 : Heap ℚ) 0 ⟨1, 2, 3⟩ 5) 0).Pos =
        ((fun _ => NewObject 0 : Heap ℚ) 0).Pos ∧
      ((TranslateX (fun _ => NewObject 0 : Heap ℚ) 0 5) 0).Pos =
        ((fun _ => NewObject 0 : Heap ℚ) 0).Pos ∧
      ((TranslateY (fun _ => NewObject 0 : Heap ℚ) 0 5) 0).Pos =
        ((fun _ => NewObject 0 : Heap ℚ) 0).Pos ∧
      ((TranslateZ (fun _ => NewObject 0 : Heap ℚ) 0 5) 0).Pos =
        ((fun _ => NewObject 0 : Heap ℚ) 0).Pos) :=
  ⟨rfl, C19_zero_rotation_absorbs id id (fun _ => NewObject 0) 0 rfl ⟨1, 2, 3⟩ 1 5 ⟨1, 0, 0, 1⟩⟩

/-- C20: for every node n of a tree of bounded height with a parentless root whose nodes
all have localAutoUpdate and worldAutoUpdate set, and for whatever Local, World and dirty
flags the state holds, n.UpdateMatrixWorld(false) and n.UpdateWorldMatrix(false, true) both
return for every recursion budget above the height; the two resulting states have the same
Local and the same World at every address, both keep every Id, Pos, Rot, Quat, parent,
children list and auto-update flag, and they differ in the dirty flag only, which is down
on the subtree of n after UpdateMatrixWorld, up on it after UpdateWorldMatrix, and
untouched elsewhere by both. -/
theorem C20_update_algorithms_agree (h : Heap R) (r d n : Nat)
    (hroot : (h r).parent = none) (htree : TreeWithin h d r)
    (hauto : ∀ m, InTree h r m →
      (h m).localAutoUpdate = true ∧ (h m).worldAutoUpdate = true)
    (hn : InTree h r n) :
    ∀ fuel, d < fuel → ∃ g1 g2, UpdateMatrixWorld fuel h n false = some g1 ∧
      UpdateWorldMatrix fuel h n false true = some g2 ∧
      (∀ x, (g1 x).Local = (g2 x).Local ∧ (g1 x).World = (g2 x).World) ∧
      SameShape h g1 ∧ SameShape h g2 ∧
      (∀ x, g2 x = { g1 x with matrixWorldNeedUpdate := (g2 x).matrixWorldNeedUpdate }) ∧
      (∀ m, InTree h n m →
        (g1 m).matrixWorldNeedUpdate = false ∧ (g2 m).matrixWorldNeedUpdate = true) ∧
      (∀ x, ¬ InTree h n x → g1 x = h x ∧ g2 x = h x) := by
  intro fuel hfuel
  have htn := htree.of_inTree hn
  have hpar := InTree.parent_outside htree hroot hn
  have hin : ∀ m, InTree h n m → InTree h r m := fun m hm => InTree.extend hn hm
  obtain ⟨g1, run1, s1, f1, c1⟩ := UpdateMatrixWorld.subtree fuel d h n false hfuel htn
    (fun m hm => (hauto m (hin m hm)).1) hpar
  obtain ⟨g2, run2, s2, f2, c2⟩ := UpdateWorldMatrix.push fuel d h n hfuel htn
    (fun m hm => hauto m (hin m hm)) hpar
  have p1 : ∀ m, InTree h n m → Passed true false h g1 m :=
    fun m hm => ⟨fun _ => (c1 m hm).1, (c1 m hm).2.1, (c1 m hm).2.2⟩
  have hloc : ∀ m, InTree h n m → (g1 m).Local = (g2 m).Local :=
    fun m hm => ((c1 m hm).1).trans ((c2 m hm).1 rfl).symm
  have hworld := Passed.same_world htn hpar f1 f2 p1 c2 hloc
  have hmat : ∀ x, (g1 x).Local = (g2 x).Local ∧ (g1 x).World = (g2 x).World := by
    intro x
    by_cases hx : InTree h n x
    · exact ⟨hloc x hx, hworld x hx⟩
    · rw [f1 x hx, f2 x hx]
      exact ⟨rfl, rfl⟩
  refine ⟨g1, g2, run1, run2, hmat, s1, s2, ?_,
    fun m hm => ⟨(c1 m hm).2.2, (c2 m hm).2.2⟩, fun x hx => ⟨f1 x hx, f2 x hx⟩⟩
  intro x
  obtain ⟨a1, a2, a3, a4, a5, a6, a7, a8⟩ := s1 x
  obtain ⟨b1, b2, b3, b4, b5, b6, b7, b8⟩ := s2 x
  obtain ⟨l, w⟩ := hmat x
  generalize g1 x = o1 at *
  generalize g2 x = o2 at *
  cases o1
  cases o2
  simp only at a1 a2 a3 a4 a5 a6 a7 a8 b1 b2 b3 b4 b5 b6 b7 b8 l w
  simp only [Object.mk.injEq]
  exact ⟨b1.trans a1.symm, b2.trans a2.symm, b3.trans a3.symm, b4.trans a4.symm, l.symm,
    w.symm, b5.trans a5.symm, b6.trans a6.symm, b7.trans a7.symm, b8.trans a8.symm, trivial⟩

/-- C20 on the sample tree `family`, for the node 1 below the root 0, with height 2 and
recursion budget 3. -/
theorem C20_witness :
    (family 0).parent = none ∧ TreeWithin family 2 0 ∧
    (∀ m, InTree family 0 m →
      (family m).localAutoUpdate = true ∧ (family m).worldAutoUpdate = true) ∧
    InTree family 0 1 ∧
    ∃ g1 g2, UpdateMatrixWorld 3 family 1 false = some g1 ∧
      UpdateWorldMatrix 3 family 1 false true = some g2 ∧
      (∀ x, (g1 x).Local = (g2 x).Local ∧ (g1 x).World = (g2 x).World) ∧
      SameShape family g1 ∧ SameShape family g2 ∧
      (∀ x, g2 x = { g1 x with matrixWorldNeedUpdate := (g2 x).matrixWorldNeedUpdate }) ∧
      (∀ m, InTree family 1 m →
        (g1 m).matrixWorldNeedUpdate = false ∧ (g2 m).matrixWorldNeedUpdate = true) ∧
      (∀ x, ¬ InTree family 1 x → g1 x = family x ∧ g2 x = family x) :=
  ⟨rfl, family_tree, fun m _ => family_auto m, InTree.child InTree.root (by decide),
    C20_update_algorithms_agree family 0 2 1 rfl family_tree (fun m _ => family_auto m)
      (InTree.child InTree.root (by decide)) 3 (by decide)⟩

end Claims

end Obj
